import Mathlib

/-!
Verification of the smart-receipt-parser pipeline.

This file gives a shallow embedding, in Lean 4, of the three Python lambda
functions of the repository (`ocr-processor`, `api-handler`,
`step-functions-trigger`) and proves or refutes the frozen claims about them.

Modelling conventions:
* Python strings are `List Char` (packed as `String` at the interfaces);
  character classes are modelled over their Unicode/ASCII members that the
  program can actually encounter.
* Python `float` values are modelled by `JNum`: an exact rational together
  with the special values `nan`, `inf`, `-inf`.  Parsing a numeric literal is
  modelled exactly (no binary rounding); the observable comparisons the code
  performs (`<`, `>`, truthiness) are defined with IEEE semantics
  (`nan` incomparable, truthy).
* Fallible Python code (code that can raise) is modelled with `Option`:
  `none` plays the role of an uncaught exception at that level.
* Each Python regular expression used by the code is embedded as a
  hand-translated deterministic matcher implementing exactly the backtracking
  (leftmost, greedy-with-minimal-giveback) semantics of the `re` module for
  that pattern, together with a `findall` scanner.
-/

namespace SRP

/-! ## Characters and basic string utilities -/

/-- Opening brace character. -/
def obr : Char := Char.ofNat 123

/-- Closing brace character. -/
def cbr : Char := Char.ofNat 125

/-- ASCII decimal digit `0`-`9`. -/
def isDig (c : Char) : Bool := 48 ≤ c.toNat && c.toNat ≤ 57

/-- ASCII letter. -/
def isAlphaAscii (c : Char) : Bool :=
  (65 ≤ c.toNat && c.toNat ≤ 90) || (97 ≤ c.toNat && c.toNat ≤ 122)

/-- Unicode whitespace, as used both by Python's `str.strip` and by `\s` in
the `re` module (string patterns).  Members: TAB..CR, FS..US, space, NEL,
NBSP and the dedicated Unicode space code points. -/
def uniWs (c : Char) : Bool :=
  (9 ≤ c.toNat && c.toNat ≤ 13) || (28 ≤ c.toNat && c.toNat ≤ 32) ||
  c.toNat = 133 || c.toNat = 160 || c.toNat = 0x1680 ||
  (0x2000 ≤ c.toNat && c.toNat ≤ 0x200A) ||
  c.toNat = 0x2028 || c.toNat = 0x2029 || c.toNat = 0x202F ||
  c.toNat = 0x205F || c.toNat = 0x3000

/-- JSON whitespace: space, TAB, LF, CR (RFC 8259 / Python `json`). -/
def jsonWs (c : Char) : Bool :=
  c.toNat = 32 || c.toNat = 9 || c.toNat = 10 || c.toNat = 13

/-- Python `str.lower` restricted to ASCII (sufficient for the letters the
code compares). -/
def lowerChar (c : Char) : Char :=
  if 65 ≤ c.toNat && c.toNat ≤ 90 then Char.ofNat (c.toNat + 32) else c

/-- Python `str.upper` restricted to ASCII. -/
def upperChar (c : Char) : Char :=
  if 97 ≤ c.toNat && c.toNat ≤ 122 then Char.ofNat (c.toNat - 32) else c

/-- `str.lower` on a character list. -/
def lowerL (l : List Char) : List Char := l.map lowerChar

/-- Leading-whitespace strip (`str.lstrip`). -/
def lstripL (l : List Char) : List Char := l.dropWhile uniWs

/-- Trailing-whitespace strip (`str.rstrip`). -/
def rstripL (l : List Char) : List Char := (l.reverse.dropWhile uniWs).reverse

/-- Python `str.strip` with no argument. -/
def stripL (l : List Char) : List Char := rstripL (lstripL l)

/-- Does `l` start with the literal `pat`? -/
def startsWithL : List Char → List Char → Bool
  | [], _ => true
  | _ :: _, [] => false
  | p :: ps, c :: cs => p = c && startsWithL ps cs

/-- If `l` starts with the literal `pat`, return the remainder. -/
def dropLit : List Char → List Char → Option (List Char)
  | [], l => some l
  | _ :: _, [] => none
  | p :: ps, c :: cs => if p = c then dropLit ps cs else none

/-- Case-insensitive variant of `dropLit` (ASCII folding, as the
`re.IGNORECASE` patterns of the code only contain ASCII letters). -/
def dropLitCI : List Char → List Char → Option (List Char)
  | [], l => some l
  | _ :: _, [] => none
  | p :: ps, c :: cs => if lowerChar p = lowerChar c then dropLitCI ps cs else none

/-- Substring test (`pat in s` for Python strings). -/
def containsSub (pat : List Char) : List Char → Bool
  | [] => startsWithL pat []
  | c :: cs => startsWithL pat (c :: cs) || containsSub pat cs

/-- Natural number denoted by a list of ASCII digits (most significant
first). -/
def natOfDigits (l : List Char) : Nat :=
  l.foldl (fun n c => n * 10 + (c.toNat - 48)) 0

/-! ## Python float model -/

/-- A Python `float` (or a JSON number): an exact rational, or one of the
IEEE special values.  Exact rationals stand in for binary doubles; every
decimal literal the program manipulates is modelled by its exact value. -/
inductive JNum where
  | fin (q : ℚ)
  | nan
  | inf
  | ninf
deriving DecidableEq, Repr

/-- Python `<` on floats: `nan` is incomparable to everything. -/
def JNum.lt : JNum → JNum → Bool
  | .fin a, .fin b => a < b
  | .fin _, .inf => true
  | .ninf, .fin _ => true
  | .ninf, .inf => true
  | _, _ => false

/-- Python `>` on floats. -/
def JNum.gt (a b : JNum) : Bool := JNum.lt b a

/-- Python `<=` on floats: `nan` is incomparable to everything. -/
def JNum.le : JNum → JNum → Bool
  | .fin a, .fin b => a ≤ b
  | .fin _, .inf => true
  | .ninf, _ => true
  | .inf, .inf => true
  | _, _ => false

/-- Python truthiness of a float: everything except (plus or minus) zero is
truthy; `nan` and the infinities are truthy. -/
def JNum.truthy : JNum → Bool
  | .fin q => q ≠ 0
  | _ => true

/-- Digit run with single underscores allowed between digits (Python numeric
literal syntax accepted by `float`).  Returns the digits (underscores
removed) and the unconsumed remainder; underscores not surrounded by digits
are left unconsumed. -/
def uDigLoop : List Char → List Char × List Char
  | [] => ([], [])
  | c :: '_' :: d :: rest2 =>
    if isDig c then
      if isDig d then
        let p := uDigLoop (d :: rest2)
        (c :: p.1, p.2)
      else (c :: [], '_' :: d :: rest2)
    else ([], c :: '_' :: d :: rest2)
  | c :: rest =>
    if isDig c then
      let p := uDigLoop rest
      (c :: p.1, p.2)
    else ([], c :: rest)

/-- Parse a non-empty underscore-separated digit run. -/
def uDigits (l : List Char) : Option (List Char × List Char) :=
  match l with
  | c :: _ => if isDig c then some (uDigLoop l) else none
  | [] => none

/-- Case-insensitive equality with an ASCII literal. -/
def ciEqLit (l : List Char) (pat : List Char) : Bool :=
  lowerL l = lowerL pat

/-- Value of an optional exponent part `e`/`E`, signed digits.  Returns the
exponent and the remainder, or `none` when an `e` marker is present but
malformed (which makes the whole parse fail). -/
def parseExpPart (l : List Char) : Option (Int × List Char) :=
  match l with
  | c :: rest =>
    if c = 'e' || c = 'E' then
      let signed : Bool × List Char :=
        match rest with
        | '+' :: t => (false, t)
        | '-' :: t => (true, t)
        | t => (false, t)
      match uDigits signed.2 with
      | some (ds, r) =>
        some ((if signed.1 then -(natOfDigits ds : Int) else (natOfDigits ds : Int)), r)
      | none => none
    else some (0, l)
  | [] => some (0, [])

/-- Mantissa of a Python float literal: `digits [. digits?]` or `. digits`.
Returns its exact rational value and the remainder. -/
def parseMantissa (l : List Char) : Option (ℚ × List Char) :=
  match uDigits l with
  | some (ds, r) =>
    match r with
    | '.' :: r2 =>
      match uDigits r2 with
      | some (fs, r3) =>
        some ((natOfDigits ds : ℚ) + (natOfDigits fs : ℚ) / (10 : ℚ) ^ fs.length, r3)
      | none => some ((natOfDigits ds : ℚ), r2)
    | _ => some ((natOfDigits ds : ℚ), r)
  | none =>
    match l with
    | '.' :: r2 =>
      match uDigits r2 with
      | some (fs, r3) =>
        some ((natOfDigits fs : ℚ) / (10 : ℚ) ^ fs.length, r3)
      | none => none
    | _ => none

/-- An optional leading sign. -/
def signSplit : List Char → Bool × List Char
  | '+' :: t => (false, t)
  | '-' :: t => (true, t)
  | t => (false, t)

/-- Python `float(s)`: strip whitespace, optional sign, then `inf`,
`infinity`, `nan` (case-insensitively) or a decimal mantissa with optional
exponent.  `none` models `ValueError`.  The numeric value is kept exact
instead of being rounded to a binary double. -/
def pyFloat (l : List Char) : Option JNum :=
  let signed := signSplit (stripL l)
  let b := signed.2
  if ciEqLit b "inf".data || ciEqLit b "infinity".data then
    some (if signed.1 then JNum.ninf else JNum.inf)
  else if ciEqLit b "nan".data then some JNum.nan
  else
    match parseMantissa b with
    | some (m, r) =>
      match parseExpPart r with
      | some (e, r2) =>
        if r2 = [] then
          some (JNum.fin ((if signed.1 then -m else m) * (10 : ℚ) ^ e))
        else none
      | none => none
    | none => none

/-- `decimal.Decimal(s)`: like `pyFloat` but without underscore grouping.
Only its behaviour on the strings `str(x)` produces for the program's values
matters; on those it agrees with `pyFloat`, so it is shared.  (`Decimal`
accepts the same sign/``inf``/``nan``/digit forms.) -/
def pyDecimalStr (l : List Char) : Option JNum := pyFloat l


/-! ## JSON values and `json.loads` -/

/-- A parsed JSON value (the result of Python `json.loads`).  Python `int`
and `float` results are both modelled by `JNum` (exactly); `NaN`,
`Infinity`, `-Infinity` are accepted as Python's `json` module does by
default. -/
inductive JValue where
  | null
  | bool (b : Bool)
  | num (n : JNum)
  | str (s : String)
  | arr (elems : List JValue)
  | obj (fields : List (String × JValue))

/-- A Python dict with string keys, as produced by the JSON parser (keys are
unique because insertion replaces). -/
abbrev JObj := List (String × JValue)

/-- Dict lookup (`d.get(k)`). -/
def getJ : JObj → String → Option JValue
  | [], _ => none
  | (k0, v0) :: rest, k => if k0 = k then some v0 else getJ rest k

/-- Dict update (`d[k] = v`): replaces an existing binding, else appends
(insertion order, as Python dicts preserve it). -/
def setJ : JObj → String → JValue → JObj
  | [], k, v => [(k, v)]
  | (k0, v0) :: rest, k, v =>
    if k0 = k then (k, v) :: rest else (k0, v0) :: setJ rest k v

/-- `k in d` for a dict. -/
def hasKeyJ (o : JObj) (k : String) : Bool := (getJ o k).isSome

/-- Skip JSON whitespace. -/
def skipJWs (l : List Char) : List Char := l.dropWhile jsonWs

/-- Hex digit value, if any. -/
def hexVal (c : Char) : Option Nat :=
  if 48 ≤ c.toNat && c.toNat ≤ 57 then some (c.toNat - 48)
  else if 97 ≤ c.toNat && c.toNat ≤ 102 then some (c.toNat - 87)
  else if 65 ≤ c.toNat && c.toNat ≤ 70 then some (c.toNat - 55)
  else none

/-- Decode a single-character JSON escape. -/
def escDecode (e : Char) : Option Char :=
  if e = '"' then some '"'
  else if e = '\\' then some '\\'
  else if e = '/' then some '/'
  else if e = 'b' then some (Char.ofNat 8)
  else if e = 'f' then some (Char.ofNat 12)
  else if e = 'n' then some (Char.ofNat 10)
  else if e = 'r' then some (Char.ofNat 13)
  else if e = 't' then some (Char.ofNat 9)
  else none

/-- JSON string body, positioned after the opening quote.  Decodes escapes
and stops after the closing quote; raw control characters are rejected
(strict mode).  `\uXXXX` escapes are decoded to the corresponding scalar
(lone surrogate halves, unrepresentable in `Char`, map to NUL; the program
never produces them). -/
def parseStrBody : List Char → Option (List Char × List Char)
  | [] => none
  | c :: rest =>
    if c = '"' then some ([], rest)
    else if c = '\\' then
      match rest with
      | [] => none
      | e :: rest2 =>
        if e = 'u' then
          match rest2 with
          | h1 :: h2 :: h3 :: h4 :: rest3 =>
            match hexVal h1, hexVal h2, hexVal h3, hexVal h4 with
            | some a, some b, some hv, some d =>
              match parseStrBody rest3 with
              | some (s, r) => some (Char.ofNat (((a * 16 + b) * 16 + hv) * 16 + d) :: s, r)
              | none => none
            | _, _, _, _ => none
          | _ => none
        else
          match escDecode e with
          | some dc =>
            match parseStrBody rest2 with
            | some (s, r) => some (dc :: s, r)
            | none => none
          | none => none
    else if c.toNat < 32 then none
    else
      match parseStrBody rest with
      | some (s, r) => some (c :: s, r)
      | none => none

/-- Integer part of a JSON number: `0|[1-9][0-9]*` (a leading zero stands
alone; otherwise a greedy digit run). -/
def jnumInt : List Char → Option (List Char × List Char)
  | [] => none
  | c :: r =>
    if c = '0' then some (['0'], r)
    else if isDig c then some (c :: r.takeWhile isDig, r.dropWhile isDig)
    else none

/-- Fractional part of a JSON number: `(\.[0-9]+)?`, greedy, dropped when
the dot is not followed by a digit. -/
def jnumFrac : List Char → List Char × List Char
  | [] => ([], [])
  | c :: r2 =>
    if c = '.' then
      let fs := r2.takeWhile isDig
      if fs = [] then ([], c :: r2) else (fs, r2.dropWhile isDig)
    else ([], c :: r2)

/-- Exponent part of a JSON number: `([eE][+-]?[0-9]+)?`, greedy, dropped
when incomplete. -/
def jnumExp : List Char → Int × List Char
  | [] => (0, [])
  | c :: r3 =>
    if c = 'e' || c = 'E' then
      let es : Bool × List Char := signSplit r3
      let gs := es.2.takeWhile isDig
      if gs = [] then (0, c :: r3)
      else ((if es.1 then -(natOfDigits gs : Int) else (natOfDigits gs : Int)),
            es.2.dropWhile isDig)
    else (0, c :: r3)

/-- Optional leading minus of a JSON number. -/
def jnumSign : List Char → Bool × List Char
  | '-' :: t => (true, t)
  | t => (false, t)

/-- JSON number, per the `json` module's number regular expression:
`-?(0|[1-9][0-9]*)(\.[0-9]+)?([eE][+-]?[0-9]+)?`, each optional part taken
greedily and dropped when incomplete.  Exact rational value. -/
def parseJNumber (l : List Char) : Option (ℚ × List Char) :=
  let signed : Bool × List Char := jnumSign l
  match jnumInt signed.2 with
  | none => none
  | some (ds, r1) =>
    let frac : List Char × List Char := jnumFrac r1
    let expPart : Int × List Char := jnumExp frac.2
    let mant : ℚ :=
      (natOfDigits ds : ℚ) + (natOfDigits frac.1 : ℚ) / (10 : ℚ) ^ frac.1.length
    let v : ℚ := (if signed.1 then -mant else mant) * (10 : ℚ) ^ expPart.1
    some (v, expPart.2)

mutual

/-- JSON value parser (Python `json` scanner), fuel-indexed; every recursive
call decrements the fuel, and `3 * length + 3` fuel always suffices. -/
def parseVal : Nat → List Char → Option (JValue × List Char)
  | 0, _ => none
  | _ + 1, [] => none
  | fuel + 1, c :: rest =>
    if c = '"' then
      match parseStrBody rest with
      | some (s, r) => some (JValue.str (String.mk s), r)
      | none => none
    else if c = obr then parseObjTail fuel (skipJWs rest)
    else if c = '[' then parseArrTail fuel (skipJWs rest)
    else if c = 'n' then
      match dropLit "ull".data rest with
      | some r => some (JValue.null, r)
      | none => none
    else if c = 't' then
      match dropLit "rue".data rest with
      | some r => some (JValue.bool true, r)
      | none => none
    else if c = 'f' then
      match dropLit "alse".data rest with
      | some r => some (JValue.bool false, r)
      | none => none
    else if c = 'N' then
      match dropLit "aN".data rest with
      | some r => some (JValue.num JNum.nan, r)
      | none => none
    else if c = 'I' then
      match dropLit "nfinity".data rest with
      | some r => some (JValue.num JNum.inf, r)
      | none => none
    else if c = '-' || isDig c then
      match parseJNumber (c :: rest) with
      | some (q, r) => some (JValue.num (JNum.fin q), r)
      | none =>
        match dropLit "-Infinity".data (c :: rest) with
        | some r => some (JValue.num JNum.ninf, r)
        | none => none
    else none

/-- Object parser, positioned after `{` and following whitespace. -/
def parseObjTail : Nat → List Char → Option (JValue × List Char)
  | 0, _ => none
  | _ + 1, [] => none
  | fuel + 1, c :: rest =>
    if c = cbr then some (JValue.obj [], rest)
    else parseMembers fuel (c :: rest) []

/-- Object member loop: expects a key string at the head of the input. -/
def parseMembers : Nat → List Char → JObj → Option (JValue × List Char)
  | 0, _, _ => none
  | fuel + 1, l, acc =>
    match l with
    | '"' :: rest =>
      match parseStrBody rest with
      | some (k, r1) =>
        match skipJWs r1 with
        | ':' :: r3 =>
          match parseVal fuel (skipJWs r3) with
          | some (v, r4) =>
            let acc2 := setJ acc (String.mk k) v
            match skipJWs r4 with
            | ',' :: r6 => parseMembers fuel (skipJWs r6) acc2
            | c :: r6 => if c = cbr then some (JValue.obj acc2, r6) else none
            | [] => none
          | none => none
        | _ => none
      | none => none
    | _ => none

/-- Array parser, positioned after `[` and following whitespace. -/
def parseArrTail : Nat → List Char → Option (JValue × List Char)
  | 0, _ => none
  | _ + 1, [] => none
  | fuel + 1, c :: rest =>
    if c = ']' then some (JValue.arr [], rest)
    else parseElems fuel (c :: rest) []

/-- Array element loop: expects a value at the head of the input. -/
def parseElems : Nat → List Char → List JValue → Option (JValue × List Char)
  | 0, _, _ => none
  | fuel + 1, l, acc =>
    match parseVal fuel l with
    | some (v, r1) =>
      match skipJWs r1 with
      | ',' :: r3 => parseElems fuel (skipJWs r3) (acc ++ [v])
      | c :: r3 => if c = ']' then some (JValue.arr (acc ++ [v]), r3) else none
      | [] => none
    | none => none

end

/-- Python `json.loads` on a character list: skip leading whitespace, parse
one value, require only whitespace to remain. -/
def jloadsL (l : List Char) : Option JValue :=
  match parseVal (3 * l.length + 3) (skipJWs l) with
  | some (v, r) => if skipJWs r = [] then some v else none
  | none => none

/-- Python `json.loads`. -/
def jloads (s : String) : Option JValue := jloadsL s.data

/-- A continuation that may legally follow a complete JSON value without
being absorbed into it: empty, or starting with `}`, `]`, `,` or JSON
whitespace. -/
def wSafe (w : List Char) : Prop :=
  w = [] ∨ ∃ c t, w = c :: t ∧ (c = cbr ∨ c = ']' ∨ c = ',' ∨ jsonWs c = true)

/-- What a successful `parseVal` run tells us: the input splits as the
consumed part `C` followed by the remainder, `C` starts with a
non-whitespace character, an object value consumes through a closing brace,
and re-running on `C` followed by any safe continuation (with enough fuel)
parses the same value and leaves exactly the continuation. -/
def ValP (l : List Char) (v : JValue) (r : List Char) : Prop :=
  ∃ C, l = C ++ r ∧ (∃ c0 t0, C = c0 :: t0 ∧ jsonWs c0 = false) ∧
    (∀ o0, v = JValue.obj o0 → ∃ C0, C = C0 ++ [cbr]) ∧
    ∀ f2 w, 3 * C.length + 3 ≤ f2 → wSafe w → parseVal f2 (C ++ w) = some (v, w)

/-- `ValP` analogue for `parseObjTail`: the consumed part always ends with
the closing brace. -/
def ObjTP (l : List Char) (v : JValue) (r : List Char) : Prop :=
  ∃ C, l = C ++ r ∧ (∃ c0 t0, C = c0 :: t0 ∧ jsonWs c0 = false) ∧
    (∃ C0, C = C0 ++ [cbr]) ∧
    ∀ f2 w, 3 * C.length + 5 ≤ f2 → wSafe w → parseObjTail f2 (C ++ w) = some (v, w)

/-- `ValP` analogue for `parseMembers`: the consumed part starts with a
quote and ends with the closing brace. -/
def MemP (l : List Char) (acc : JObj) (v : JValue) (r : List Char) : Prop :=
  ∃ C, l = C ++ r ∧ (∃ t0, C = '"' :: t0) ∧ (∃ C0, C = C0 ++ [cbr]) ∧
    ∀ f2 w, 3 * C.length + 4 ≤ f2 → wSafe w →
      parseMembers f2 (C ++ w) acc = some (v, w)

/-- `ValP` analogue for `parseArrTail`: the value is an array. -/
def ArrTP (l : List Char) (v : JValue) (r : List Char) : Prop :=
  ∃ C, l = C ++ r ∧ (∃ c0 t0, C = c0 :: t0 ∧ jsonWs c0 = false) ∧
    (∃ es, v = JValue.arr es) ∧
    ∀ f2 w, 3 * C.length + 5 ≤ f2 → wSafe w → parseArrTail f2 (C ++ w) = some (v, w)

/-- `ValP` analogue for `parseElems`. -/
def ElemP (l : List Char) (acc : List JValue) (v : JValue) (r : List Char) : Prop :=
  ∃ C, l = C ++ r ∧ (∃ c0 t0, C = c0 :: t0 ∧ jsonWs c0 = false) ∧
    (∃ es, v = JValue.arr es) ∧
    ∀ f2 w, 3 * C.length + 4 ≤ f2 → wSafe w →
      parseElems f2 (C ++ w) acc = some (v, w)


/-! ## The heuristic fallback extractor (`intelligent_fallback_extraction`)

Each regular expression of the Python source is embedded as a deterministic
matcher with exactly the `re` module's leftmost / greedy semantics for that
pattern (the greedy quantifiers in these patterns admit at most one overall
match per start position; the analysis is recorded at each matcher). -/

/-- Currency symbol class `[£$€¥]`. -/
def isCurrencySym (c : Char) : Bool := c = '£' || c = '$' || c = '€' || c = '¥'

/-- Class `[0-9,]`. -/
def isDigComma (c : Char) : Bool := isDig c || c = ','

/-- Class `[:\s]`. -/
def isColonWs (c : Char) : Bool := c = ':' || uniWs c

/-- Class `[A-Za-z\s]`. -/
def isAlphaWs (c : Char) : Bool := isAlphaAscii c || uniWs c

/-- The optional currency symbol `[£$€¥]?` of the amount patterns. -/
def curDrop (l : List Char) : List Char :=
  match l with
  | c :: t => if isCurrencySym c then t else c :: t
  | [] => []

/-- The digits part `([0-9,]+\.?[0-9]*)` of the amount tail, after the
optional currency symbol. -/
def amountDigits (l2 : List Char) : Option (List Char × List Char) :=
  if l2.takeWhile isDigComma = [] then none
  else
    match l2.dropWhile isDigComma with
    | '.' :: r2 =>
      some (l2.takeWhile isDigComma ++ '.' :: r2.takeWhile isDig, r2.dropWhile isDig)
    | r1 => some (l2.takeWhile isDigComma, r1)

/-- Shared tail `[:\s]*[£$€¥]?([0-9,]+\.?[0-9]*)` of the amount patterns:
greedy runs; the optional dot is taken when present; returns the capture and
the rest.  Deterministic: every quantified subexpression is a character
class, so greedy maximal munch is the unique candidate. -/
def amountTail (l : List Char) : Option (List Char × List Char) :=
  amountDigits (curDrop (l.dropWhile isColonWs))

/-- First alternative that matches, case-insensitively (the alternatives in
the source patterns have pairwise distinct first letters, so at most one can
match at a position). -/
def dropAltCI (pats : List String) (l : List Char) : Option (List Char) :=
  match pats with
  | [] => none
  | p :: ps =>
    match dropLitCI p.data l with
    | some r => some r
    | none => dropAltCI ps l

/-- `(?:BALANCE|TOTAL|AMOUNT)\s+(?:DUE|PAID)?[:\s]*[£$€¥]?([0-9,]+\.?[0-9]*)`
(IGNORECASE).  The optional `DUE`/`PAID` group is taken whenever it matches
literally; if the remainder then fails, skipping the group fails as well
(the next token cannot match at a letter), so this is faithful. -/
def tryA1 (l : List Char) : Option (List Char × List Char) :=
  match dropAltCI ["BALANCE", "TOTAL", "AMOUNT"] l with
  | none => none
  | some r1 =>
    if r1.takeWhile uniWs = [] then none
    else
      let r2 := r1.dropWhile uniWs
      let r3 := match dropAltCI ["DUE", "PAID"] r2 with
        | some r => r
        | none => r2
      amountTail r3

/-- `(?:GRAND|FINAL)\s*TOTAL[:\s]*[£$€¥]?([0-9,]+\.?[0-9]*)` (IGNORECASE). -/
def tryA2 (l : List Char) : Option (List Char × List Char) :=
  match dropAltCI ["GRAND", "FINAL"] l with
  | none => none
  | some r1 =>
    match dropLitCI "TOTAL".data (r1.dropWhile uniWs) with
    | none => none
    | some r2 => amountTail r2

/-- The `([0-9,]+\.[0-9][0-9])\s*(?:CASH|CARD|PAID)` remainder of the
third amount pattern: a digit-comma run, a dot, exactly two digits, optional
whitespace, then one of the payment words. -/
def tryA3Digits (t1 : List Char) : Option (List Char × List Char) :=
  if t1.takeWhile isDigComma = [] then none
  else
    match t1.dropWhile isDigComma with
    | '.' :: d1 :: d2 :: r3 =>
      if isDig d1 && isDig d2 then
        match dropAltCI ["CASH", "CARD", "PAID"] (r3.dropWhile uniWs) with
        | some r4 => some (t1.takeWhile isDigComma ++ '.' :: d1 :: d2 :: [], r4)
        | none => none
      else none
    | _ => none

/-- `[£$€¥]\s*([0-9,]+\.[0-9]{2})\s*(?:CASH|CARD|PAID)` (IGNORECASE). -/
def tryA3 (l : List Char) : Option (List Char × List Char) :=
  match l with
  | [] => none
  | c :: t =>
    if isCurrencySym c then tryA3Digits (t.dropWhile uniWs) else none

/-- `TOTAL[:\s]*[£$€¥]?([0-9,]+\.?[0-9]*)` (IGNORECASE). -/
def tryA4 (l : List Char) : Option (List Char × List Char) :=
  match dropLitCI "TOTAL".data l with
  | none => none
  | some r1 => amountTail r1

/-- `re.findall` driver for a single-capture pattern: scan left to right,
record the match at the earliest position where the matcher succeeds,
continue after the consumed text, otherwise advance one character.  The fuel
`length + 1` always suffices because every successful match consumes at
least one character. -/
def findallGo (m : List Char → Option (List Char × List Char)) :
    Nat → List Char → List (List Char)
  | 0, _ => []
  | fuel + 1, l =>
    match m l with
    | some (cap, rest) => cap :: findallGo m fuel rest
    | none =>
      match l with
      | [] => []
      | _ :: cs => findallGo m fuel cs

/-- `re.findall(pattern, text)` for one capture group. -/
def refindall (m : List Char → Option (List Char × List Char)) (l : List Char) :
    List (List Char) :=
  findallGo m (l.length + 1) l

/-- `float(s.replace(',', ''))` on a findall capture, demanding a finite
result (the captures consist of digits, commas and dots, so `float` can only
return a finite value or raise). -/
def parseCapQ (s : List Char) : Option ℚ :=
  match pyFloat (s.filter (fun c => c ≠ ',')) with
  | some (JNum.fin q) => some q
  | _ => none

/-- The amounts list comprehension: parse every capture in order, aborting
on the first `ValueError`. -/
def parseAll : List (List Char) → Option (List ℚ)
  | [] => some []
  | s :: rest =>
    match parseCapQ s with
    | some q =>
      match parseAll rest with
      | some qs => some (q :: qs)
      | none => none
    | none => none

/-- Python `max` on a nonempty list (left fold). -/
def maxQ (v : ℚ) (l : List ℚ) : ℚ := l.foldl max v

/-- The amount loop of `intelligent_fallback_extraction`: for each pattern
in priority order, if it has matches, convert them all to floats; on success
the amount is their maximum, on a conversion error the pattern is skipped
(`except: continue`); `0.0` if every pattern is skipped. -/
def fallbackAmountLoop :
    List (List Char → Option (List Char × List Char)) → List Char → ℚ
  | [], _ => 0
  | m :: ms, text =>
    let ms0 := refindall m text
    if ms0 = [] then fallbackAmountLoop ms text
    else
      match parseAll ms0 with
      | some [] => fallbackAmountLoop ms text
      | some (v :: vs) => maxQ v vs
      | none => fallbackAmountLoop ms text

/-- The ordered amount pattern list of the source. -/
def amount_patterns : List (List Char → Option (List Char × List Char)) :=
  [tryA1, tryA2, tryA3, tryA4]

/-- The amount computed by the fallback extractor. -/
def fallbackAmount (text : List Char) : ℚ := fallbackAmountLoop amount_patterns text

/-- `text.split('\n')`. -/
def splitOnNl : List Char → List (List Char)
  | [] => [[]]
  | '\n' :: rest => [] :: splitOnNl rest
  | c :: rest =>
    match splitOnNl rest with
    | h :: t => (c :: h) :: t
    | [] => [[c]]

/-- `[line.strip() for line in text.split('\n') if line.strip()]`. -/
def vendorLines (text : List Char) : List (List Char) :=
  ((splitOnNl text).map stripL).filter (fun l => l ≠ [])

/-- The business-entity keywords of the source. -/
def business_keywords : List String :=
  ["ltd", "limited", "inc", "corp", "group", "company", "store", "market", "shop"]

/-- `any(keyword in line.lower() for keyword in business_keywords)`. -/
def hasBizKeyword (line : List Char) : Bool :=
  business_keywords.any (fun k => containsSub k.data (lowerL line))

/-- `re.match(r'^\d+[./]\d+', line)` as a boolean: digits, a dot or slash,
then at least one digit, anchored at the start. -/
def startsDateLike (l : List Char) : Bool :=
  l.takeWhile isDig ≠ [] &&
    (match l.dropWhile isDig with
     | c :: t =>
       (c = '.' || c = '/') &&
         (match t with
          | d :: _ => isDig d
          | [] => false)
     | [] => false)

/-- The vendor detection of `intelligent_fallback_extraction`, including the
quirk that a found line equal to `"Unknown Store"` re-triggers the second
scan (the source compares the string value, not a found flag). -/
def fallbackVendor (text : List Char) : List Char :=
  let lines := vendorLines text
  let v1 : List Char :=
    match (lines.take 10).find? hasBizKeyword with
    | some ln => ln.take 60
    | none => "Unknown Store".data
  if v1 = "Unknown Store".data then
    match (lines.take 8).find? (fun ln => decide (5 < ln.length) && !startsDateLike ln) with
    | some ln => ln.take 60
    | none => "Unknown Store".data
  else v1

/-- The ordered category keyword table of the source (dict insertion
order). -/
def category_keywords : List (String × List String) :=
  [("Food", ["grocery", "supermarket", "food", "restaurant", "cafe", "coffee",
             "pizza", "burger", "tesco", "sainsbury", "asda", "coop", "co-op",
             "mcdonald", "kfc"]),
   ("Fuel", ["petrol", "gas", "fuel", "shell", "bp", "esso", "texaco"]),
   ("Healthcare", ["pharmacy", "chemist", "boots", "hospital", "clinic", "medical"]),
   ("Office", ["office", "supplies", "staples", "paper", "stationery"]),
   ("Travel", ["travel", "train", "bus", "taxi", "uber", "hotel", "airline", "parking"]),
   ("Equipment", ["equipment", "hardware", "electronics", "computer", "software"])]

/-- Category detection: first table entry with any keyword hit in the
lowercased text; default `"Other"`. -/
def fallbackCategory (text : List Char) : String :=
  let tl := lowerL text
  match category_keywords.find? (fun p => p.2.any (fun k => containsSub k.data tl)) with
  | some p => p.1
  | none => "Other"

/-- Currency detection by symbol presence, in the source's order. -/
def fallbackCurrency (text : List Char) : String :=
  if containsSub ['$'] text then "USD"
  else if containsSub ['€'] text then "EUR"
  else if containsSub ['¥'] text then "JPY"
  else "GBP"

/-- `([A-Za-z][A-Za-z\s]+)\s+[£$€¥]?([0-9]+\.[0-9]{2})` at one
position.  The greedy description group gives back exactly one trailing
whitespace character to `\s+` (further give-backs reach the same price
position), so: the maximal `[A-Za-z\s]` run starting at a letter must have
length at least 3 and end in whitespace; the description is that run less
its final character. -/
def tryItemAt (withCur : Bool) (l : List Char) : Option ((List Char × List Char) × List Char) :=
  match l with
  | [] => none
  | c :: _ =>
    if isAlphaAscii c then
      let run := l.takeWhile isAlphaWs
      if 3 ≤ run.length && uniWs (run.getLastD c) then
        let after := l.dropWhile isAlphaWs
        let after2 :=
          if withCur then
            match after with
            | a :: t => if isCurrencySym a then t else after
            | [] => after
          else after
        let ds := after2.takeWhile isDig
        if ds = [] then none
        else
          match after2.dropWhile isDig with
          | '.' :: d1 :: d2 :: r =>
            if isDig d1 && isDig d2 then
              some ((run.take (run.length - 1), ds ++ '.' :: d1 :: d2 :: []), r)
            else none
          | _ => none
      else none
    else none

/-- `re.findall` driver for the two-capture item patterns. -/
def findall2Go (m : List Char → Option ((List Char × List Char) × List Char)) :
    Nat → List Char → List (List Char × List Char)
  | 0, _ => []
  | fuel + 1, l =>
    match m l with
    | some (cap, rest) => cap :: findall2Go m fuel rest
    | none =>
      match l with
      | [] => []
      | _ :: cs => findall2Go m fuel cs

/-- `re.findall` for the item patterns. -/
def refindall2 (m : List Char → Option ((List Char × List Char) × List Char))
    (l : List Char) : List (List Char × List Char) :=
  findall2Go m (l.length + 1) l

/-- One extracted line item dictionary. -/
def mkLineItem (desc : List Char) (q : ℚ) : JObj :=
  [("description", JValue.str (String.mk desc)),
   ("quantity", JValue.num (JNum.fin 1)),
   ("unitPrice", JValue.num (JNum.fin q)),
   ("subtotal", JValue.num (JNum.fin q))]

/-- The item loop body over the first ten matches of one pattern: appends an
item per match with a description longer than 2 characters; the boolean
records whether `float` raised (which aborts all line-item extraction,
keeping the items accumulated so far). -/
def buildItems : List (List Char × List Char) → List JObj × Bool
  | [] => ([], false)
  | (d, p) :: rest =>
    if 2 < (stripL d).length then
      match parseCapQ p with
      | some q =>
        let pr := buildItems rest
        (mkLineItem (stripL d) q :: pr.1, pr.2)
      | none => ([], true)
    else buildItems rest

/-- The line-item extraction attempt: first pattern (with optional currency
symbol), then the second, stopping as soon as one yields items; an
exception ends the attempt with the items accumulated so far. -/
def fallbackLineItems (text : List Char) : List JObj :=
  let pr1 := buildItems ((refindall2 (tryItemAt true) text).take 10)
  if pr1.2 then pr1.1
  else if pr1.1.isEmpty then (buildItems ((refindall2 (tryItemAt false) text).take 10)).1
  else pr1.1

/-- `sum(item['subtotal'] for item in line_items)`. -/
def sumSubtotals (items : List JObj) : ℚ :=
  items.foldl
    (fun a it =>
      a + match getJ it "subtotal" with
          | some (JValue.num (JNum.fin q)) => q
          | _ => 0)
    0

/-- `intelligent_fallback_extraction` (lines 285-388 of the OCR processor):
the returned dictionary, in the source's key order. -/
def intelligent_fallback_extraction (text : List Char) : JObj :=
  let amount := fallbackAmount text
  let vendor := fallbackVendor text
  let category := fallbackCategory text
  let currency := fallbackCurrency text
  let line_items := fallbackLineItems text
  [("amount", JValue.num (JNum.fin amount)),
   ("vendor", JValue.str (String.mk vendor)),
   ("category", JValue.str category),
   ("confidence", JValue.num (JNum.fin (if line_items.isEmpty then 1/2 else 3/5))),
   ("currency", JValue.str currency),
   ("date", JValue.null),
   ("lineItems", JValue.arr (line_items.map JValue.obj)),
   ("subtotal", if line_items.isEmpty then JValue.null else JValue.num (JNum.fin (sumSubtotals line_items))),
   ("totalTax", JValue.null),
   ("hasDetailedItems", JValue.bool (decide (0 < line_items.length)))]


/-! ## Storage (`store_receipt_data`) -/

/-- Python truthiness of a JSON value. -/
def jvTruthy : JValue → Bool
  | .null => false
  | .bool b => b
  | .num n => n.truthy
  | .str s => s.data ≠ []
  | .arr l => !l.isEmpty
  | .obj o => !o.isEmpty

/-- Python `len` on a JSON value (`none` = `TypeError`). -/
def pyLen : JValue → Option Nat
  | .str s => some s.data.length
  | .arr l => some l.length
  | .obj o => some o.length
  | _ => none

/-- Python `str(x)` on a JSON value.  Exact for strings, booleans and
`None`; the rendering of numbers, lists and dicts is approximate (the only
use is on line-item descriptions, which the program's paths always produce
as strings). -/
def pyStrApprox : JValue → String
  | .str s => s
  | .bool true => "True"
  | .bool false => "False"
  | .null => "None"
  | .num (.fin q) => if q.den = 1 then toString q.num else toString q.num ++ "/" ++ toString q.den
  | .num .nan => "nan"
  | .num .inf => "inf"
  | .num .ninf => "-inf"
  | .arr _ => "[...]"
  | .obj _ => "dict"

/-- `Decimal(str(x))` for a JSON value: exact on numbers (`str` of a float
round-trips through `Decimal` to the same shortest decimal value), parsed
for strings, and `InvalidOperation`/`TypeError` (`none`, re-raised by the
storage function) for everything else. -/
def jvToDecimal : JValue → Option JNum
  | .num n => some n
  | .str s => pyDecimalStr s.data
  | _ => none

/-- An attribute value of the stored DynamoDB item. -/
inductive SVal where
  | jv (v : JValue)
  | dec (n : JNum)
  | s (v : String)
  | items (v : List (List (String × SVal)))

/-- Lookup in a stored item. -/
def getS : List (String × SVal) → String → Option SVal
  | [], _ => none
  | (k0, v0) :: rest, k => if k0 = k then some v0 else getS rest k

/-- One stored line item (`description`, `quantity`, `unitPrice`,
`subtotal`, then the optional tax fields). -/
def storeLineItem (it : JObj) : Option (List (String × SVal)) := do
  let q ← jvToDecimal ((getJ it "quantity").getD (JValue.num (JNum.fin 1)))
  let up ← jvToDecimal ((getJ it "unitPrice").getD (JValue.num (JNum.fin 0)))
  let st ← jvToDecimal ((getJ it "subtotal").getD (JValue.num (JNum.fin 0)))
  let base := [("description", SVal.s (pyStrApprox ((getJ it "description").getD (JValue.str "")))),
               ("quantity", SVal.dec q),
               ("unitPrice", SVal.dec up),
               ("subtotal", SVal.dec st)]
  let withTr ←
    if jvTruthy ((getJ it "taxRate").getD JValue.null) then do
      let tr ← jvToDecimal ((getJ it "taxRate").getD JValue.null)
      pure (base ++ [("taxRate", SVal.dec tr)])
    else pure base
  if jvTruthy ((getJ it "taxAmount").getD JValue.null) then do
    let ta ← jvToDecimal ((getJ it "taxAmount").getD JValue.null)
    pure (withTr ++ [("taxAmount", SVal.dec ta)])
  else pure withTr

/-- The line-item loop of `store_receipt_data`: every element must be a
dict (otherwise `.get` raises, aborting storage). -/
def storeLineItems : List JValue → Option (List (List (String × SVal)))
  | [] => some []
  | .obj it :: rest => do
    let li ← storeLineItem it
    let tail0 ← storeLineItems rest
    pure (li :: tail0)
  | _ :: _ => none

/-- The line-item source of `store_receipt_data`:
`processed_data.get('lineItems')` must be absent or falsy (giving no
items), or a truthy list (iterated); a truthy non-list raises. -/
def storeLineItemsOf (pd : JObj) : Option (List (List (String × SVal))) :=
  match getJ pd "lineItems" with
  | some v =>
    if jvTruthy v then
      match v with
      | .arr elems => storeLineItems elems
      | _ => none
    else some []
  | none => some []

/-- The fixed part of the stored item, in the source's key order. -/
def storeBase (receipt_id now_iso : String) (raw_text : List Char) (s3_key : String)
    (amount confidence : JNum) (pd : JObj)
    (line_items : List (List (String × SVal))) : List (String × SVal) :=
  [("receiptId", SVal.s receipt_id),
   ("uploadTimestamp", SVal.s now_iso),
   ("originalText", SVal.s (String.mk (raw_text.take 2000))),
   ("s3Key", SVal.s s3_key),
   ("amount", SVal.dec amount),
   ("vendor", SVal.jv ((getJ pd "vendor").getD (JValue.str "Unknown"))),
   ("category", SVal.jv ((getJ pd "category").getD (JValue.str "Other"))),
   ("confidence", SVal.dec confidence),
   ("currency", SVal.jv ((getJ pd "currency").getD (JValue.str "GBP"))),
   ("receiptDate", SVal.jv ((getJ pd "date").getD JValue.null)),
   ("lineItems", SVal.items line_items),
   ("hasDetailedItems", SVal.jv ((getJ pd "hasDetailedItems").getD
       (JValue.bool (!line_items.isEmpty)))),
   ("processingMethod", SVal.s "Enhanced Universal Textract + Claude AI")]

/-- `if processed_data.get(k): item[k] = Decimal(str(processed_data[k]))`:
append the optional attribute when the source value is truthy. -/
def addOptDec (item : List (String × SVal)) (key : String) (pd : JObj) : Option (List (String × SVal)) :=
  if jvTruthy ((getJ pd key).getD JValue.null) then do
    let v ← jvToDecimal ((getJ pd key).getD JValue.null)
    pure (item ++ [(key, SVal.dec v)])
  else pure item

/-- `store_receipt_data` (lines 390-446 of the OCR processor): builds the
DynamoDB item for a processed-data value.  `none` models an exception
(re-raised after logging): a non-dict argument, a non-list truthy
`lineItems`, or a `Decimal` conversion failure. -/
def store_receipt_data (receipt_id s3_key : String) (raw_text : List Char)
    (processed_data : JValue) (now_iso : String) : Option (List (String × SVal)) :=
  match processed_data with
  | .obj pd => do
    let line_items ← storeLineItemsOf pd
    let amount ← jvToDecimal ((getJ pd "amount").getD (JValue.num (JNum.fin 0)))
    let confidence ← jvToDecimal ((getJ pd "confidence").getD (JValue.num (JNum.fin 0)))
    let withSub ← addOptDec
      (storeBase receipt_id now_iso raw_text s3_key amount confidence pd line_items)
      "subtotal" pd
    let withTax ← addOptDec withSub "totalTax" pd
    addOptDec withTax "discounts" pd
  | _ => none

/-! ## Tiered response parser (`parse_claude_response_enhanced`) -/

/-- Result of the tiered parser: a value was returned, `None` was returned,
or an exception escaped (a `TypeError` from the normalization, which only
`except Exception` in the orchestrator's attempt loop catches). -/
inductive PRes where
  | parsed (v : JValue)
  | noneRes
  | raised

/-- The per-tier normalization: ensure `lineItems` and `hasDetailedItems`
exist.  On a dict this inserts the defaults; `in`/indexing on other JSON
values follows Python semantics (membership on lists, substring test on
strings, `TypeError` otherwise; item assignment raises on non-dicts). -/
def normalizeParsed : JValue → PRes
  | .obj d =>
    let d1 := if hasKeyJ d "lineItems" then d else setJ d "lineItems" (JValue.arr [])
    if hasKeyJ d1 "hasDetailedItems" then .parsed (.obj d1)
    else
      match pyLen ((getJ d1 "lineItems").getD (JValue.arr [])) with
      | some n => .parsed (.obj (setJ d1 "hasDetailedItems" (JValue.bool (decide (0 < n)))))
      | none => .raised
  | .arr l =>
    if l.any (fun e => match e with | .str s => s = "lineItems" | _ => false) then
      if l.any (fun e => match e with | .str s => s = "hasDetailedItems" | _ => false) then
        .parsed (.arr l)
      else .raised
    else .raised
  | .str s =>
    if containsSub "lineItems".data s.data then
      if containsSub "hasDetailedItems".data s.data then .parsed (.str s)
      else .raised
    else .raised
  | _ => .raised

/-- One step of `re.sub(r'```(?:json)?\s*', '', ...)`: a match at this
position consumes the fence, the optional literal tag and the whitespace
run. -/
def matchFenceA (l : List Char) : Option (List Char) :=
  match dropLit "```".data l with
  | some r1 =>
    let r2 := match dropLit "json".data r1 with
      | some r => r
      | none => r1
    some (r2.dropWhile uniWs)
  | none => none

/-- Scanner for the first fence substitution (every match consumes at least
three characters, so `length + 1` fuel suffices). -/
def subAGo : Nat → List Char → List Char
  | 0, l => l
  | fuel + 1, l =>
    match matchFenceA l with
    | some rest => subAGo fuel rest
    | none =>
      match l with
      | [] => []
      | c :: cs => c :: subAGo fuel cs

/-- `re.sub(r'```(?:json)?\s*', '', response)`. -/
def subFenceA (l : List Char) : List Char := subAGo (l.length + 1) l

/-- Scanner for `re.sub(r'```\s*$', '', ...)`: a fence matches here exactly
when only whitespace follows it, and the greedy `\s*` then consumes to the
end of the string. -/
def subBGo : Nat → List Char → List Char
  | 0, l => l
  | fuel + 1, l =>
    if startsWithL "```".data l && (l.drop 3).all uniWs then []
    else
      match l with
      | [] => []
      | c :: cs => c :: subBGo fuel cs

/-- `re.sub(r'```\s*$', '', cleaned)`. -/
def subFenceB (l : List Char) : List Char := subBGo (l.length + 1) l

/-- First index at which a literal occurs as a prefix of a suffix. -/
def findIdxSub (pat : List Char) : List Char → Option Nat
  | [] => if startsWithL pat [] then some 0 else none
  | c :: cs =>
    if startsWithL pat (c :: cs) then some 0
    else (findIdxSub pat cs).map (· + 1)

/-- Tier-3 match attempt at one position: the pattern (an opening brace,
a lazy gap, `"amount"`, a lazy gap, a closing brace, with `re.DOTALL`)
requires an opening brace at this position; the lazy quantifiers then find
the first occurrence of `"amount"` after it and the first closing brace
after that, and the match extends through that closing brace. -/
def tier3At (l : List Char) : Option (List Char) :=
  match l with
  | c :: rest =>
    if c = obr then
      match findIdxSub "\"amount\"".data rest with
      | some i =>
        match findIdxSub [cbr] (rest.drop (i + 8)) with
        | some j => some (c :: rest.take (i + 8 + j + 1))
        | none => none
      | none => none
    else none
  | [] => none

/-- Leftmost tier-3 match: scan start positions left to right. -/
def tier3Go : Nat → List Char → Option (List Char)
  | 0, _ => none
  | _ + 1, [] => none
  | fuel + 1, c :: cs =>
    match tier3At (c :: cs) with
    | some m => some m
    | none => tier3Go fuel cs

/-- `re.search(r'\{.*?"amount".*?\}', response, re.DOTALL)`, returning
the matched substring. -/
def tier3Find (l : List Char) : Option (List Char) := tier3Go (l.length + 1) l

/-- Tier-4 field pattern `"key":\s*([0-9.]+)` at one position. -/
def try4num (key : String) (l : List Char) : Option (List Char × List Char) :=
  match dropLit ('\"' :: key.data ++ '\"' :: ':' :: []) l with
  | some r1 =>
    let r2 := r1.dropWhile uniWs
    let ds := r2.takeWhile (fun c => isDig c || c = '.')
    if ds = [] then none else some (ds, r2.dropWhile (fun c => isDig c || c = '.'))
  | none => none

/-- Tier-4 field pattern `"key":\s*"([^"]+)"` at one position. -/
def try4str (key : String) (l : List Char) : Option (List Char × List Char) :=
  match dropLit ('\"' :: key.data ++ '\"' :: ':' :: []) l with
  | some r1 =>
    match r1.dropWhile uniWs with
    | '\"' :: r2 =>
      let cs := r2.takeWhile (fun c => c ≠ '\"')
      if cs = [] then none
      else
        match r2.dropWhile (fun c => c ≠ '\"') with
        | '\"' :: r3 => some (cs, r3)
        | _ => none
    | _ => none
  | none => none

/-- Scanner for `re.search`. -/
def searchGo (m : List Char → Option (List Char × List Char)) :
    Nat → List Char → Option (List Char)
  | 0, _ => none
  | fuel + 1, l =>
    match m l with
    | some (cap, _) => some cap
    | none =>
      match l with
      | [] => none
      | _ :: cs => searchGo m fuel cs

/-- `re.search` with one capture group: the capture of the leftmost match. -/
def reSearch (m : List Char → Option (List Char × List Char)) (l : List Char) :
    Option (List Char) :=
  searchGo m (l.length + 1) l

/-- Tier 4: manual field extraction.  Succeeds only when amount, vendor and
category are all found; a `float` conversion error is caught by the tier's
`except Exception` and yields `None` like a miss. -/
def tier4Extract (l : List Char) : PRes :=
  match reSearch (try4num "amount") l, reSearch (try4str "vendor") l,
      reSearch (try4str "category") l with
  | some am, some ve, some ca =>
    match pyFloat am with
    | some av =>
      let conf : Option JNum :=
        match reSearch (try4num "confidence") l with
        | some cf => pyFloat cf
        | none => some (JNum.fin (7/10))
      match conf with
      | some cv =>
        .parsed (.obj
          [("amount", JValue.num av),
           ("vendor", JValue.str (String.mk ve)),
           ("category", JValue.str (String.mk ca)),
           ("confidence", JValue.num cv),
           ("currency", JValue.str (String.mk ((reSearch (try4str "currency") l).getD "GBP".data))),
           ("date", JValue.null),
           ("lineItems", JValue.arr []),
           ("subtotal", JValue.null),
           ("totalTax", JValue.null),
           ("hasDetailedItems", JValue.bool false)])
      | none => .noneRes
    | none => .noneRes
  | _, _, _ => .noneRes

/-- `parse_claude_response_enhanced` (lines 174-239 of the OCR processor):
direct JSON, then fence-stripped JSON, then an embedded JSON object
containing `"amount"`, then field-by-field extraction.  Only JSON decoding
errors fall through to the next tier; a `TypeError` raised by the
normalization escapes (is `raised`). -/
def parse_claude_response_enhanced (response : List Char) : PRes :=
  match jloadsL response with
  | some v => normalizeParsed v
  | none =>
    let cleaned := stripL (subFenceB (subFenceA response))
    match jloadsL cleaned with
    | some v => normalizeParsed v
    | none =>
      match tier3Find response with
      | some sub =>
        match jloadsL sub with
        | some v => normalizeParsed v
        | none => tier4Extract response
      | none => tier4Extract response

/-- A Markdown code fence around a payload: leading triple backtick with an
optional `json` language tag, the payload on its own line, and a trailing
triple backtick. -/
def fenceWrap (tag : Bool) (j : List Char) : List Char :=
  "```".data ++ (if tag then "json".data else []) ++ '\n' :: j ++ '\n' :: "```".data

/-! ## Validation (`validate_receipt_data_enhanced`) -/

/-- `float(x)` on a JSON value (`none` = `ValueError`/`TypeError`). -/
def pyFloatJ : JValue → Option JNum
  | .num n => some n
  | .str s => pyFloat s.data
  | .bool true => some (JNum.fin 1)
  | .bool false => some (JNum.fin 0)
  | _ => none

/-- The closed category set of the source. -/
def valid_categories : List String :=
  ["Food", "Office", "Travel", "Equipment", "Entertainment", "Fuel", "Healthcare", "Other"]

/-- The amount check of the validator: `float(data['amount'])` must succeed
and `amount < 0 or amount > 1000000` must be false (both conversion errors
are caught and reject). -/
def amountAccepted (v : JValue) : Bool :=
  match pyFloatJ v with
  | some a => !(a.lt (JNum.fin 0) || a.gt (JNum.fin 1000000))
  | none => false

/-- The per-item check of the validator's line-item loop. -/
def lineItemOk (e : JValue) : Bool :=
  match e with
  | .obj it =>
    hasKeyJ it "description" &&
      (["quantity", "unitPrice", "subtotal"].all (fun f =>
        match getJ it f with
        | some fv => (pyFloatJ fv).isSome
        | none => true))
  | _ => false

/-- `validate_receipt_data_enhanced` (lines 241-283 of the OCR processor).
`none` models the `AttributeError` escaping when a truthy non-string vendor
is `.strip()`-ed; every other failure returns `False`. -/
def validate_receipt_data_enhanced (data : JValue) : Option Bool :=
  match data with
  | .obj d =>
    if !(hasKeyJ d "amount" && hasKeyJ d "vendor" && hasKeyJ d "category") then some false
    else if !amountAccepted ((getJ d "amount").getD JValue.null) then some false
    else if !(match getJ d "category" with
              | some (.str s) => decide (s ∈ valid_categories)
              | _ => false) then some false
    else
      match (getJ d "vendor").getD JValue.null with
      | .str s =>
        if s.data = [] then some false
        else if (stripL s.data).length < 2 then some false
        else
          match getJ d "lineItems" with
          | some li =>
            if jvTruthy li then
              match li with
              | .arr items => some (items.all lineItemOk)
              | _ => some false
            else some true
          | none => some true
      | vv => if jvTruthy vv then none else some false
  | _ => some false

/-! ## Orchestrator (`categorize_expense_enhanced`) -/

/-- One attempt of the orchestrator's retry loop: `none` when the attempt
failed for any reason (backend error, unparseable or invalid response, or
an exception from normalization or validation, all caught by the attempt's
`except Exception`). -/
def attemptResult : Option (List Char) → Option JValue
  | none => none
  | some resp =>
    match parse_claude_response_enhanced resp with
    | .parsed v =>
      if jvTruthy v then
        match validate_receipt_data_enhanced v with
        | some true => some v
        | _ => none
      else none
    | _ => none

/-- `categorize_expense_enhanced` (lines 92-172 of the OCR processor):
`max_retries = 2` attempts against the generative backend (the oracle
`backend n` is the body text of attempt `n`, `none` standing for a raised
transport error), then the heuristic fallback. -/
def categorize_expense_enhanced (backend : Nat → Option (List Char)) (text : List Char) :
    JValue :=
  match attemptResult (backend 0) with
  | some v => v
  | none =>
    match attemptResult (backend 1) with
    | some v => v
    | none => JValue.obj (intelligent_fallback_extraction text)

/-! ## The OCR processor handler (`lambda_handler`) -/

/-- An S3 record of the triggering event. -/
structure S3Rec where
  bucket : String
  key : String

/-- The observable per-record effects of the handler: invoking the
extraction step on the OCR text of record `idx`, and writing a record to
storage. -/
inductive HAction where
  | extracted (idx : Nat) (text : List Char)
  | stored (idx : Nat) (item : List (String × SVal))

/-- Index of the record an action concerns. -/
def HAction.idx : HAction → Nat
  | .extracted i _ => i
  | .stored i _ => i

/-- The sentinel returned by `extract_text_from_image` when Textract
raised. -/
def OCR_FAILED : List Char := "OCR_FAILED".data

/-- The record loop of `lambda_handler` (lines 21-61 of the OCR processor):
`ocr i` is the text extraction result for record `i`, `backend i` the
generative-backend oracle for it, `rid i` the generated receipt identifier.
Returns the HTTP-style response and the trace of extraction/storage
actions; an OCR failure returns the 500 response immediately, and a storage
exception is caught by the outer handler (`'Error: ...'`). -/
def processRecords (ocr : Nat → List Char) (backend : Nat → Nat → Option (List Char))
    (rid : Nat → String) (now_iso : String) :
    Nat → List S3Rec → List HAction → (Nat × String) × List HAction
  | _, [], acc => ((200, "Receipt processed successfully!"), acc)
  | i, r :: rest, acc =>
    let text := ocr i
    if text = OCR_FAILED then ((500, "Failed to process receipt image"), acc)
    else
      let receipt_data := categorize_expense_enhanced (backend i) text
      let acc2 := acc ++ [HAction.extracted i text]
      match store_receipt_data (rid i) r.key text receipt_data now_iso with
      | some item => processRecords ocr backend rid now_iso (i + 1) rest (acc2 ++ [HAction.stored i item])
      | none => ((500, "Error: storage"), acc2)

/-- `lambda_handler` of the OCR processor over an event's record list. -/
def ocr_lambda_handler (records : List S3Rec) (ocr : Nat → List Char)
    (backend : Nat → Nat → Option (List Char)) (rid : Nat → String) (now_iso : String) :
    (Nat × String) × List HAction :=
  processRecords ocr backend rid now_iso 0 records []


/-! ## The query API (`api-handler`) -/

/-- A table record as the API handler sees it (after `convert_decimals`):
only the fields the embedded endpoints read; absent fields are `none`. -/
structure ApiRec where
  receiptId : String
  uploadTimestamp : Option String
  category : Option String
  amount : Option ℚ
deriving DecidableEq, Repr

/-- Python string `<=` (lexicographic on code points). -/
def lexLe : List Char → List Char → Bool
  | [], _ => true
  | _ :: _, [] => false
  | a :: as0, b :: bs => if a = b then lexLe as0 bs else decide (a.toNat < b.toNat)

/-- Sort key `x.get('uploadTimestamp', '')`. -/
def tsKey (r : ApiRec) : List Char := (r.uploadTimestamp.getD "").data

/-- The descending comparison used by `receipts.sort(key=..., reverse=True)`:
`a` may precede `b` when `b`'s timestamp is at most `a`'s. -/
def tsGe (a b : ApiRec) : Prop := lexLe (tsKey b) (tsKey a) = true

instance : DecidableRel tsGe := fun _ _ => inferInstanceAs (Decidable (_ = true))

/-- `receipts.sort(key=lambda x: x.get('uploadTimestamp', ''), reverse=True)`:
a stable sort descending by timestamp.  The embedding uses insertion sort;
the claims only concern sortedness and membership, not the order of records
with equal timestamps. -/
def sortByTsDesc (rs : List ApiRec) : List ApiRec := List.insertionSort tsGe rs

/-- Python `str.title()` (ASCII): letters after a letter are lowercased,
letters after a non-letter are uppercased. -/
def titleGo : Bool → List Char → List Char
  | _, [] => []
  | prevAlpha, c :: cs =>
    (if isAlphaAscii c then (if prevAlpha then lowerChar c else upperChar c) else c) ::
      titleGo (isAlphaAscii c) cs

/-- `category.title()`. -/
def pyTitle (s : String) : String := String.mk (titleGo false s.data)

/-- `round(x, 2)` on the exact value: round half to even at two decimal
places (the binary-representation artifacts of rounding a `float` are not
modelled). -/
def pyRound2 (q : ℚ) : ℚ :=
  let x := q * 100
  let f : ℤ := ⌊x⌋
  let r := x - (f : ℚ)
  let n : ℤ :=
    if r < 1/2 then f
    else if 1/2 < r then f + 1
    else if f % 2 = 0 then f else f + 1
  (n : ℚ) / 100

/-- `sum(float(r.get('amount', 0)) for r in receipts)`. -/
def sumAmounts (rs : List ApiRec) : ℚ := rs.foldl (fun a r => a + r.amount.getD 0) 0

/-- An API response: a success body of the category endpoint, or an error
response with its status code and message. -/
inductive ApiResp where
  | ok (receipts : List ApiRec) (category : String) (count : Nat)
      (total_amount : ℚ) (average_amount : ℚ)
  | err (statusCode : Nat) (msg : String)

/-- The error message of the invalid-category branch, built as the source
builds it. -/
def invalidCategoryMsg : String :=
  "Invalid category. Valid categories: " ++ String.intercalate ", " valid_categories

/-- `get_receipts_by_category` (lines 92-126 of the API handler): empty or
missing category is rejected first (`'Category is required'`), then the
title-cased category is checked against the closed set; on success the
matching records are returned sorted by `uploadTimestamp` descending with
rounded total and average (average `0` for no matches, by the conditional
expression guarding the division). -/
def get_receipts_by_category (category : Option String) (table : List ApiRec) : ApiResp :=
  match category with
  | none => .err 400 "Category is required"
  | some c =>
    if c = "" then .err 400 "Category is required"
    else
      let t := pyTitle c
      if t ∈ valid_categories then
        let receipts := table.filter (fun r => r.category = some t)
        let sorted := sortByTsDesc receipts
        let total := sumAmounts sorted
        let avg : ℚ := if sorted.isEmpty then 0 else total / sorted.length
        .ok sorted t sorted.length (pyRound2 total) (pyRound2 avg)
      else .err 400 invalidCategoryMsg

/-- Python `/` on exact values: raises `ZeroDivisionError` on zero. -/
def pyDiv (a b : ℚ) : Option ℚ := if b = 0 then none else some (a / b)

/-- Summary statistics: count, rounded totals, and the per-category
breakdown (count, rounded total, rounded average, in first-seen order). -/
structure StatsRes where
  total_count : Nat
  total_amount : ℚ
  average_amount : ℚ
  categories : List (String × Nat × ℚ × ℚ)
deriving Repr

/-- One record folded into the category breakdown
(`categories[category]['count'] += 1`, `['total'] += float(...)`). -/
def bumpCat : List (String × Nat × ℚ) → String → ℚ → List (String × Nat × ℚ)
  | [], c, a => [(c, 1, a)]
  | (k, n, t) :: rest, c, a =>
    if k = c then (k, n + 1, t + a) :: rest else (k, n, t) :: bumpCat rest c a

/-- Option-valued map over a list, evaluated left to right and aborting on
the first failure (the behaviour of the per-category average loop, whose
body could raise). -/
def mapOptList (f : α → Option β) : List α → Option (List β)
  | [] => some []
  | x :: xs =>
    match f x with
    | some y =>
      match mapOptList f xs with
      | some ys => some (y :: ys)
      | none => none
    | none => none

/-- The per-category second pass: compute and round the average, round the
total. -/
def catAverage (p : String × Nat × ℚ) : Option (String × Nat × ℚ × ℚ) := do
  let av ← pyDiv p.2.2 p.2.1
  pure (p.1, p.2.1, pyRound2 p.2.2, pyRound2 av)

/-- `calculate_stats` (lines 128-162 of the API handler), with every
division modelled by `pyDiv` (`none` would be an unguarded
`ZeroDivisionError`).  The empty list short-circuits to zeros before any
division. -/
def calculate_stats (receipts : List ApiRec) : Option StatsRes :=
  if receipts.isEmpty then some ⟨0, 0, 0, []⟩
  else do
    let total := sumAmounts receipts
    let avg ← pyDiv total receipts.length
    let cats := receipts.foldl
      (fun acc r => bumpCat acc (r.category.getD "Other") (r.amount.getD 0)) []
    let cats2 ← mapOptList catAverage cats
    pure ⟨receipts.length, pyRound2 total, pyRound2 avg, cats2⟩


/-! ## Lemmas: the heuristic extractor is total and well-shaped (C1, C4) -/

/-- Membership survives `stripL`. -/
theorem mem_stripL {c : Char} {l : List Char} (h : c ∈ stripL l) : c ∈ l := by
  unfold stripL rstripL lstripL at h
  rw [List.mem_reverse] at h
  have h2 : c ∈ (l.dropWhile uniWs).reverse := (List.dropWhile_sublist _).subset h
  rw [List.mem_reverse] at h2
  exact (List.dropWhile_sublist _).subset h2


/-- Digit or dot characters. -/
def isDigDot (c : Char) : Bool := isDig c || c = '.'

/-- Every capture of `amountDigits` consists of digits, commas and dots. -/
theorem amountDigits_capture_chars {l cap r : List Char}
    (h : amountDigits l = some (cap, r)) :
    ∀ c ∈ cap, (isDigComma c || c = '.') = true := by
  unfold amountDigits at h
  split at h
  · exact absurd h (by simp)
  · split at h
    case h_1 r2 =>
      rcases Option.some.inj h with ⟨rfl, rfl⟩
      intro c hc
      rcases List.mem_append.1 hc with h1 | h1
      · simp [List.mem_takeWhile_imp h1]
      · rcases List.mem_cons.1 h1 with rfl | h2
        · simp
        · simp [isDigComma, List.mem_takeWhile_imp h2]
    case h_2 =>
      rcases Option.some.inj h with ⟨rfl, rfl⟩
      intro c hc
      simp [List.mem_takeWhile_imp hc]

/-- Every capture of the shared amount tail consists of digits, commas and
dots. -/
theorem amountTail_capture_chars {l cap r : List Char}
    (h : amountTail l = some (cap, r)) :
    ∀ c ∈ cap, (isDigComma c || c = '.') = true :=
  amountDigits_capture_chars h

/-- Capture character shape for the first amount pattern. -/
theorem tryA1_capture_chars {l cap r : List Char} (h : tryA1 l = some (cap, r)) :
    ∀ c ∈ cap, (isDigComma c || c = '.') = true := by
  unfold tryA1 at h
  split at h
  · exact absurd h (by simp)
  · split at h
    · exact absurd h (by simp)
    · exact amountTail_capture_chars h

/-- Capture character shape for the second amount pattern. -/
theorem tryA2_capture_chars {l cap r : List Char} (h : tryA2 l = some (cap, r)) :
    ∀ c ∈ cap, (isDigComma c || c = '.') = true := by
  unfold tryA2 at h
  split at h
  · exact absurd h (by simp)
  · split at h
    · exact absurd h (by simp)
    · exact amountTail_capture_chars h

/-- Capture character shape for the digits part of the third amount
pattern. -/
theorem tryA3Digits_capture_chars {l cap r : List Char}
    (h : tryA3Digits l = some (cap, r)) :
    ∀ c ∈ cap, (isDigComma c || c = '.') = true := by
  unfold tryA3Digits at h
  split at h
  · exact absurd h (by simp)
  · split at h
    case h_1 d1 d2 r3 =>
      split at h
      case isTrue hdd =>
        split at h
        case h_1 r4 hca =>
          rcases Option.some.inj h with ⟨rfl, rfl⟩
          rw [Bool.and_eq_true] at hdd
          intro c0 hc0
          rcases List.mem_append.1 hc0 with h1 | h1
          · simp [List.mem_takeWhile_imp h1]
          · rcases List.mem_cons.1 h1 with rfl | h2
            · simp
            · rcases List.mem_cons.1 h2 with rfl | h3
              · simp [isDigComma, hdd.1]
              · rcases List.mem_cons.1 h3 with rfl | h4
                · simp [isDigComma, hdd.2]
                · cases h4
        case h_2 => exact absurd h (by simp)
      case isFalse => exact absurd h (by simp)
    case h_2 => exact absurd h (by simp)

/-- Capture character shape for the third amount pattern. -/
theorem tryA3_capture_chars {l cap r : List Char} (h : tryA3 l = some (cap, r)) :
    ∀ c ∈ cap, (isDigComma c || c = '.') = true := by
  unfold tryA3 at h
  split at h
  · exact absurd h (by simp)
  · split at h
    · exact tryA3Digits_capture_chars h
    · exact absurd h (by simp)

/-- Capture character shape for the fourth amount pattern. -/
theorem tryA4_capture_chars {l cap r : List Char} (h : tryA4 l = some (cap, r)) :
    ∀ c ∈ cap, (isDigComma c || c = '.') = true := by
  unfold tryA4 at h
  split at h
  · exact absurd h (by simp)
  · exact amountTail_capture_chars h

/-- One-step unfolding of the findall scanner. -/
theorem findallGo_succ (m : List Char → Option (List Char × List Char))
    (fuel : Nat) (l : List Char) :
    findallGo m (fuel + 1) l =
      match m l with
      | some (cap, rest) => cap :: findallGo m fuel rest
      | none =>
        match l with
        | [] => []
        | _ :: cs => findallGo m fuel cs := rfl

/-- Captures produced by the findall scanner inherit the matcher's capture
property. -/
theorem findallGo_capture {m : List Char → Option (List Char × List Char)}
    {P : Char → Prop}
    (hm : ∀ l cap r, m l = some (cap, r) → ∀ c ∈ cap, P c) :
    ∀ fuel l, ∀ cap ∈ findallGo m fuel l, ∀ c ∈ cap, P c := by
  intro fuel
  induction fuel with
  | zero => intro l cap hc; simp [findallGo] at hc
  | succ n ih =>
    intro l cap hc
    rw [findallGo_succ] at hc
    split at hc
    case h_1 p heq =>
      rcases List.mem_cons.1 hc with rfl | h2
      · exact hm _ _ _ heq
      · exact ih _ _ h2
    case h_2 =>
      split at hc
      · cases hc
      · exact ih _ _ hc


/-- Splitting a sign off a list that does not start with one. -/
theorem signSplit_no_sign {c : Char} {t : List Char} (h1 : c ≠ '+') (h2 : c ≠ '-') :
    signSplit (c :: t) = (false, c :: t) := by
  unfold signSplit
  split
  · simp_all
  · simp_all
  · rfl

/-- Digit-or-dot characters are fixed points of ASCII lowercasing. -/
theorem lowerChar_of_digdot {c : Char} (h : isDigDot c = true) : lowerChar c = c := by
  unfold isDigDot isDig at h
  rw [Bool.or_eq_true] at h
  unfold lowerChar
  rw [if_neg]
  rcases h with h | h
  · rw [Bool.and_eq_true] at h
    have h1 := of_decide_eq_true h.1
    have h2 := of_decide_eq_true h.2
    simp only [Bool.and_eq_true, decide_eq_true_eq, not_and]
    omega
  · have : c = '.' := of_decide_eq_true h
    subst this
    decide

/-- The mantissa value of a float literal is nonnegative. -/
theorem parseMantissa_nonneg {l : List Char} {m : ℚ} {r : List Char}
    (h : parseMantissa l = some (m, r)) : 0 ≤ m := by
  unfold parseMantissa at h
  split at h
  case h_1 p heq =>
    split at h
    case h_1 r2 =>
      split at h
      case h_1 p2 heq2 =>
        rcases Option.some.inj h with ⟨rfl, rfl⟩
        positivity
      case h_2 =>
        rcases Option.some.inj h with ⟨rfl, rfl⟩
        positivity
    case h_2 =>
      rcases Option.some.inj h with ⟨rfl, rfl⟩
      positivity
  case h_2 =>
    split at h
    case h_1 r2 =>
      split at h
      case h_1 p2 heq2 =>
        rcases Option.some.inj h with ⟨rfl, rfl⟩
        positivity
      case h_2 => exact absurd h (by simp)
    case h_2 => exact absurd h (by simp)

/-- `float` of a string of digits and dots, when finite, is nonnegative. -/
theorem pyFloat_digdot_nonneg {s : List Char} {q : ℚ}
    (hs : ∀ c ∈ s, isDigDot c = true) (h : pyFloat s = some (JNum.fin q)) :
    0 ≤ q := by
  have hb : ∀ c ∈ stripL s, isDigDot c = true := fun c hc => hs c (mem_stripL hc)
  unfold pyFloat at h
  cases hst : stripL s with
  | nil =>
    rw [hst] at h
    simp [signSplit, ciEqLit, lowerL, parseMantissa, uDigits] at h
  | cons c t =>
    have hc : isDigDot c = true := hb c (hst ▸ List.mem_cons_self c t)
    have hplus : c ≠ '+' := by
      intro e; subst e; exact absurd hc (by decide)
    have hminus : c ≠ '-' := by
      intro e; subst e; exact absurd hc (by decide)
    rw [hst, signSplit_no_sign hplus hminus] at h
    have hlc := lowerChar_of_digdot hc
    have hci1 : ciEqLit (c :: t) "inf".data = false := by
      simp only [ciEqLit, lowerL, List.map, decide_eq_false_iff_not]
      intro hcontra
      have : lowerChar c = 'i' := by
        have := congrArg (fun l => l.headD 'x') hcontra
        simpa using this
      rw [hlc] at this
      subst this
      exact absurd hc (by decide)
    have hci2 : ciEqLit (c :: t) "infinity".data = false := by
      simp only [ciEqLit, lowerL, List.map, decide_eq_false_iff_not]
      intro hcontra
      have : lowerChar c = 'i' := by
        have := congrArg (fun l => l.headD 'x') hcontra
        simpa using this
      rw [hlc] at this
      subst this
      exact absurd hc (by decide)
    have hci3 : ciEqLit (c :: t) "nan".data = false := by
      simp only [ciEqLit, lowerL, List.map, decide_eq_false_iff_not]
      intro hcontra
      have : lowerChar c = 'n' := by
        have := congrArg (fun l => l.headD 'x') hcontra
        simpa using this
      rw [hlc] at this
      subst this
      exact absurd hc (by decide)
    simp only [hci1, hci2, hci3, Bool.or_false, Bool.false_or, if_neg Bool.false_ne_true] at h
    cases hm : parseMantissa (c :: t) with
    | none => rw [hm] at h; simp at h
    | some pr =>
      obtain ⟨m1, r1⟩ := pr
      rw [hm] at h
      dsimp only at h
      cases he : parseExpPart r1 with
      | none => rw [he] at h; simp at h
      | some pe =>
        obtain ⟨e1, r2⟩ := pe
        rw [he] at h
        dsimp only at h
        by_cases hr2 : r2 = []
        · rw [if_pos hr2] at h
          rcases Option.some.inj h with h3
          have hq : q = m1 * (10 : ℚ) ^ e1 := (JNum.fin.inj h3).symm
          rw [hq]
          have hmn := parseMantissa_nonneg hm
          have hz : (0 : ℚ) ≤ (10 : ℚ) ^ e1 := zpow_nonneg (by norm_num) _
          exact mul_nonneg hmn hz
        · rw [if_neg hr2] at h
          exact absurd h (by simp)

/-- Every value produced by the capture conversion of a digit-comma-dot
capture is nonnegative. -/
theorem parseCapQ_nonneg {s : List Char} {q : ℚ}
    (hs : ∀ c ∈ s, (isDigComma c || c = '.') = true) (h : parseCapQ s = some q) :
    0 ≤ q := by
  unfold parseCapQ at h
  split at h
  case h_1 q0 heq =>
    rcases Option.some.inj h with rfl
    apply pyFloat_digdot_nonneg (s := s.filter (fun c => c ≠ ',')) _ heq
    intro c hc
    have hmem := List.mem_of_mem_filter hc
    have hne := List.of_mem_filter hc
    have := hs c hmem
    rw [Bool.or_eq_true] at this
    rcases this with h1 | h1
    · unfold isDigComma at h1
      rw [Bool.or_eq_true] at h1
      rcases h1 with h2 | h2
      · simp [isDigDot, h2]
      · exact absurd h2 (by simpa using hne)
    · simp [isDigDot, h1]
  case h_2 => exact absurd h (by simp)

/-- Parsed captures are members of the capture list. -/
theorem parseAll_mem {ms : List (List Char)} {qs : List ℚ}
    (h : parseAll ms = some qs) : ∀ q ∈ qs, ∃ s ∈ ms, parseCapQ s = some q := by
  induction ms generalizing qs with
  | nil =>
    unfold parseAll at h
    rcases Option.some.inj h with rfl
    simp
  | cons s rest ih =>
    unfold parseAll at h
    split at h
    case h_1 q0 heq =>
      split at h
      case h_1 qs0 heq2 =>
        rcases Option.some.inj h with rfl
        intro q hq
        rcases List.mem_cons.1 hq with rfl | h2
        · exact ⟨s, List.mem_cons_self _ _, heq⟩
        · rcases ih heq2 q h2 with ⟨s2, hs2, hp⟩
          exact ⟨s2, List.mem_cons_of_mem _ hs2, hp⟩
      case h_2 => exact absurd h (by simp)
    case h_2 => exact absurd h (by simp)

/-- A fold of `max` over nonnegative values is nonnegative. -/
theorem maxQ_nonneg {v : ℚ} {l : List ℚ} (hv : 0 ≤ v) (hl : ∀ x ∈ l, 0 ≤ x) :
    0 ≤ maxQ v l := by
  induction l generalizing v with
  | nil => exact hv
  | cons x xs ih =>
    unfold maxQ at *
    simp only [List.foldl_cons]
    exact ih (le_trans hv (le_max_left v x))
      (fun y hy => hl y (List.mem_cons_of_mem _ hy))

/-- The amount loop yields a nonnegative value whenever every pattern's
captures consist of digits, commas and dots. -/
theorem fallbackAmountLoop_nonneg {pats : List (List Char → Option (List Char × List Char))}
    {text : List Char}
    (hp : ∀ m ∈ pats, ∀ l cap r, m l = some (cap, r) →
      ∀ c ∈ cap, (isDigComma c || c = '.') = true) :
    0 ≤ fallbackAmountLoop pats text := by
  induction pats with
  | nil => simp [fallbackAmountLoop]
  | cons m ms ih =>
    have ihp : ∀ m0 ∈ ms, ∀ l cap r, m0 l = some (cap, r) →
        ∀ c ∈ cap, (isDigComma c || c = '.') = true :=
      fun m0 hm0 => hp m0 (List.mem_cons_of_mem _ hm0)
    simp only [fallbackAmountLoop]
    split
    · exact ih ihp
    · split
      case h_1 => exact ih ihp
      case h_2 v vs heq =>
        have hmem := parseAll_mem heq
        have hchar : ∀ cap ∈ refindall m text,
            ∀ c ∈ cap, (isDigComma c || c = '.') = true :=
          fun cap hcap => findallGo_capture (hp m (List.mem_cons_self _ _)) _ _ cap hcap
        have hv : 0 ≤ v := by
          rcases hmem v (List.mem_cons_self _ _) with ⟨s, hsin, hps⟩
          exact parseCapQ_nonneg (hchar s hsin) hps
        apply maxQ_nonneg hv
        intro x hx
        rcases hmem x (List.mem_cons_of_mem _ hx) with ⟨s, hsin, hps⟩
        exact parseCapQ_nonneg (hchar s hsin) hps
      case h_3 => exact ih ihp

/-- The fallback amount is always nonnegative. -/
theorem fallbackAmount_nonneg (text : List Char) : 0 ≤ fallbackAmount text := by
  apply fallbackAmountLoop_nonneg
  intro m hm
  simp only [amount_patterns, List.mem_cons, List.mem_singleton] at hm
  rcases hm with rfl | rfl | rfl | rfl | h
  · exact fun l cap r h => tryA1_capture_chars h
  · exact fun l cap r h => tryA2_capture_chars h
  · exact fun l cap r h => tryA3_capture_chars h
  · exact fun l cap r h => tryA4_capture_chars h
  · cases h


/-- A truncation to 60 characters of a nonempty list is nonempty. -/
theorem take60_ne_nil {l : List Char} (h : l ≠ []) : l.take 60 ≠ [] := by
  cases l with
  | nil => exact absurd rfl h
  | cons c t => simp [List.take]

/-- Lines produced by the vendor line filter are nonempty. -/
theorem vendorLines_mem_ne_nil {text : List Char} {ln : List Char}
    (h : ln ∈ vendorLines text) : ln ≠ [] := by
  unfold vendorLines at h
  have := List.of_mem_filter h
  simpa using this

/-- The fallback vendor is never the empty string. -/
theorem fallbackVendor_ne_nil (text : List Char) : fallbackVendor text ≠ [] := by
  unfold fallbackVendor
  dsimp only
  cases hf : List.find? hasBizKeyword ((vendorLines text).take 10) with
  | some ln =>
    simp only [hf]
    have hne : ln ≠ [] :=
      vendorLines_mem_ne_nil ((List.take_subset _ _) (List.mem_of_find?_eq_some hf))
    split
    · cases hf2 : List.find? (fun ln0 => decide (5 < ln0.length) && !startsDateLike ln0)
          ((vendorLines text).take 8) with
      | some ln2 =>
        simp only [hf2]
        have hp := List.find?_some hf2
        rw [Bool.and_eq_true] at hp
        have hlen : 5 < ln2.length := of_decide_eq_true hp.1
        apply take60_ne_nil
        intro hcontra
        rw [hcontra] at hlen
        simp at hlen
      | none => simp only [hf2]; decide
    · exact take60_ne_nil hne
  | none =>
    simp only [hf]
    split
    · cases hf2 : List.find? (fun ln0 => decide (5 < ln0.length) && !startsDateLike ln0)
          ((vendorLines text).take 8) with
      | some ln2 =>
        simp only [hf2]
        have hp := List.find?_some hf2
        rw [Bool.and_eq_true] at hp
        have hlen : 5 < ln2.length := of_decide_eq_true hp.1
        apply take60_ne_nil
        intro hcontra
        rw [hcontra] at hlen
        simp at hlen
      | none => simp only [hf2]; decide
    · decide

/-- The fallback category is a member of the closed category set. -/
theorem fallbackCategory_mem (text : List Char) :
    fallbackCategory text ∈ valid_categories := by
  unfold fallbackCategory
  dsimp only
  cases hf : List.find?
      (fun p => p.2.any (fun k => containsSub k.data (lowerL text))) category_keywords with
  | none => simp only [hf]; decide
  | some p =>
    simp only [hf]
    have hmem := List.mem_of_find?_eq_some hf
    simp only [category_keywords, List.mem_cons, List.not_mem_nil, or_false] at hmem
    rcases hmem with rfl | rfl | rfl | rfl | rfl | rfl <;> decide

/-- Claim C1: for every input text the heuristic extractor
`intelligent_fallback_extraction` terminates and returns a candidate whose
amount is a nonnegative (finite) number, whose category belongs to the
closed eight-element set, whose vendor is a nonempty string, and whose
confidence is 0.6 exactly when at least one line item was extracted and 0.5
otherwise.  Totality (termination, no exception) is expressed by the
extractor being a total function into candidate dictionaries. -/
theorem claim_C1_fallback_extractor_total (text : List Char) :
    (∃ a, getJ (intelligent_fallback_extraction text) "amount"
        = some (JValue.num (JNum.fin a)) ∧ 0 ≤ a) ∧
    (∃ s, getJ (intelligent_fallback_extraction text) "category"
        = some (JValue.str s) ∧ s ∈ valid_categories) ∧
    (∃ v, getJ (intelligent_fallback_extraction text) "vendor"
        = some (JValue.str v) ∧ v.data ≠ []) ∧
    getJ (intelligent_fallback_extraction text) "confidence"
      = some (JValue.num (JNum.fin
          (if (fallbackLineItems text).isEmpty then 1/2 else 3/5))) := by
  refine ⟨⟨fallbackAmount text, ?_, fallbackAmount_nonneg text⟩,
    ⟨fallbackCategory text, ?_, fallbackCategory_mem text⟩,
    ⟨String.mk (fallbackVendor text), ?_, fallbackVendor_ne_nil text⟩, ?_⟩ <;>
    with_unfolding_all rfl

/-- The value of one amount tier under the specification's rule: the
pattern must match at least once and all its matches must convert to
numbers (after comma removal); the value is then their maximum. -/
def tierValue (m : List Char → Option (List Char × List Char)) (text : List Char) :
    Option ℚ :=
  if refindall m text = [] then none
  else
    match parseAll (refindall m text) with
    | some (v :: vs) => some (maxQ v vs)
    | _ => none

/-- The specification's amount rule (as amended): the value of the first
pattern, in priority order, that matches at least once and all of whose
matches parse as numbers; `0.0` when there is no such pattern. -/
def heuristic_amount_spec (text : List Char) : ℚ :=
  (amount_patterns.findSome? (fun m => tierValue m text)).getD 0

/-- The amount loop computes exactly the specification rule. -/
theorem fallbackAmountLoop_eq_spec (pats : List (List Char → Option (List Char × List Char)))
    (text : List Char) :
    fallbackAmountLoop pats text = (pats.findSome? (fun m => tierValue m text)).getD 0 := by
  induction pats with
  | nil => rfl
  | cons m ms ih =>
    simp only [fallbackAmountLoop, List.findSome?]
    by_cases hempty : refindall m text = []
    · simp [tierValue, hempty, ih]
    · cases hp : parseAll (refindall m text) with
      | none => simp [tierValue, hempty, hp, ih]
      | some qs =>
        cases qs with
        | nil => simp [tierValue, hempty, hp, ih]
        | cons v vs => simp [tierValue, hempty, hp]

/-- Claim C4 (amended): for every text, the fallback amount follows the
first-matching-pattern rule restricted to patterns all of whose matches
parse as numbers, and the `Subtotal 10.00` / `Total 12.50` example yields
12.50. -/
theorem claim_C4_amount_rule :
    (∀ text, fallbackAmount text = heuristic_amount_spec text) ∧
    fallbackAmount "Subtotal 10.00\nTotal 12.50".data = 25/2 := by
  constructor
  · intro text
    exact fallbackAmountLoop_eq_spec amount_patterns text
  · with_unfolding_all rfl

/-- Claim C4, counterexample to the original wording: on
`"TOTAL ,\nTOTAL 7"` the first pattern matches twice (captures `","` and
`"7"`), the maximum numeric value among its matches is 7, but the code
yields 0.0 because the non-numeric capture `","` aborts the whole tier
(and the later tiers alike). -/
theorem claim_C4_counterexample :
    refindall tryA1 "TOTAL ,\nTOTAL 7".data = [[','], ['7']] ∧
    parseCapQ [','] = none ∧
    parseCapQ ['7'] = some 7 ∧
    fallbackAmount "TOTAL ,\nTOTAL 7".data = 0 ∧
    (0 : ℚ) ≠ 7 := by
  refine ⟨?_, ?_, ?_, ?_, by norm_num⟩ <;> with_unfolding_all rfl


/-! ## Claims about the stored record (C3, C9) -/

/-- Lookup distributes over appended item fragments. -/
theorem getS_append (a b : List (String × SVal)) (k : String) :
    getS (a ++ b) k = match getS a k with
      | some v => some v
      | none => getS b k := by
  induction a with
  | nil => simp [getS]
  | cons p rest ih =>
    obtain ⟨k0, v0⟩ := p
    simp only [List.cons_append, getS]
    split <;> simp [ih]

/-- A successful storage run decomposes into the base item and the three
optional-attribute appends. -/
theorem store_chain {d : JObj} {rid s3key : String} {text : List Char} {ts : String}
    {item : List (String × SVal)}
    (h : store_receipt_data rid s3key text (JValue.obj d) ts = some item) :
    ∃ li am cf ws wt,
      addOptDec (storeBase rid ts text s3key am cf d li) "subtotal" d = some ws ∧
      addOptDec ws "totalTax" d = some wt ∧
      addOptDec wt "discounts" d = some item := by
  unfold store_receipt_data at h
  dsimp only at h
  cases hli : storeLineItemsOf d with
  | none => rw [hli] at h; simp at h
  | some li =>
    rw [hli] at h
    simp only [Option.bind_eq_bind, Option.some_bind] at h
    cases ham : jvToDecimal ((getJ d "amount").getD (JValue.num (JNum.fin 0))) with
    | none => rw [ham] at h; simp at h
    | some am =>
      rw [ham] at h
      simp only [Option.bind_eq_bind, Option.some_bind] at h
      cases hcf : jvToDecimal ((getJ d "confidence").getD (JValue.num (JNum.fin 0))) with
      | none => rw [hcf] at h; simp at h
      | some cf =>
        rw [hcf] at h
        simp only [Option.bind_eq_bind, Option.some_bind] at h
        cases hws : addOptDec (storeBase rid ts text s3key am cf d li) "subtotal" d with
        | none => rw [hws] at h; simp at h
        | some ws =>
          rw [hws] at h
          simp only [Option.bind_eq_bind, Option.some_bind] at h
          cases hwt : addOptDec ws "totalTax" d with
          | none => rw [hwt] at h; simp at h
          | some wt =>
            rw [hwt] at h
            simp only [Option.bind_eq_bind, Option.some_bind] at h
            exact ⟨li, am, cf, ws, wt, hws, hwt, h⟩

/-- An optional-attribute append leaves every other key's lookup
unchanged. -/
theorem addOptDec_getS_ne {item : List (String × SVal)} {k : String} {pd : JObj}
    {out : List (String × SVal)} {q : String}
    (h : addOptDec item k pd = some out) (hq : k ≠ q) :
    getS out q = getS item q := by
  unfold addOptDec at h
  split at h
  · cases hv : jvToDecimal ((getJ pd k).getD JValue.null) with
    | none => rw [hv] at h; simp at h
    | some v =>
      rw [hv] at h
      simp only [Option.bind_eq_bind, Option.some_bind, Option.pure_def, Option.some.injEq] at h
      subst h
      rw [getS_append]
      cases hit : getS item q with
      | some w => rfl
      | none => simp [getS, hq]
  · simp only [Option.pure_def, Option.some.injEq] at h
    subst h
    rfl

/-- An optional-attribute append on a truthy source value stores its
`Decimal` conversion under the key. -/
theorem addOptDec_getS_truthy {item : List (String × SVal)} {k : String} {pd : JObj}
    {out : List (String × SVal)}
    (h : addOptDec item k pd = some out)
    (ht : jvTruthy ((getJ pd k).getD JValue.null) = true)
    (hbase : getS item k = none) :
    ∃ v, jvToDecimal ((getJ pd k).getD JValue.null) = some v ∧
      getS out k = some (SVal.dec v) := by
  unfold addOptDec at h
  rw [if_pos ht] at h
  cases hv : jvToDecimal ((getJ pd k).getD JValue.null) with
  | none => rw [hv] at h; simp at h
  | some v =>
    rw [hv] at h
    simp only [Option.bind_eq_bind, Option.some_bind, Option.pure_def, Option.some.injEq] at h
    subst h
    refine ⟨v, rfl, ?_⟩
    rw [getS_append, hbase]
    simp [getS]

/-- An optional-attribute append on a falsy source value is the
identity. -/
theorem addOptDec_falsy {item : List (String × SVal)} {k : String} {pd : JObj}
    {out : List (String × SVal)}
    (h : addOptDec item k pd = some out)
    (ht : jvTruthy ((getJ pd k).getD JValue.null) = false) :
    out = item := by
  unfold addOptDec at h
  rw [if_neg (by simp [ht])] at h
  simp only [Option.pure_def, Option.some.injEq] at h
  exact h.symm

/-- The base item has no entry under the optional or derived keys. -/
theorem storeBase_getS_none (rid ts : String) (text : List Char) (s3key : String)
    (am cf : JNum) (d : JObj) (li : List (List (String × SVal))) (q : String)
    (hq : q = "needsReview" ∨ q = "subtotal" ∨ q = "totalTax" ∨ q = "discounts") :
    getS (storeBase rid ts text s3key am cf d li) q = none := by
  rcases hq with rfl | rfl | rfl | rfl <;> with_unfolding_all rfl

/-- Claim C3 (amended): the record builder stores no `needsReview`
attribute at all — for every processed-data value whose storage succeeds,
the persisted item has no `needsReview` key. -/
theorem claim_C3_no_needsReview_field {pd : JValue} {rid s3key : String}
    {text : List Char} {ts : String} {item : List (String × SVal)}
    (h : store_receipt_data rid s3key text pd ts = some item) :
    getS item "needsReview" = none := by
  cases pd with
  | obj d =>
    obtain ⟨li, am, cf, ws, wt, hws, hwt, hdisc⟩ := store_chain h
    rw [addOptDec_getS_ne hdisc (by decide), addOptDec_getS_ne hwt (by decide),
      addOptDec_getS_ne hws (by decide)]
    exact storeBase_getS_none _ _ _ _ _ _ _ _ _ (Or.inl rfl)
  | null => simp [store_receipt_data] at h
  | bool b => simp [store_receipt_data] at h
  | num n => simp [store_receipt_data] at h
  | str s => simp [store_receipt_data] at h
  | arr l => simp [store_receipt_data] at h

/-- A concrete, already-validated candidate with confidence 0.5. -/
def candC3 : JValue :=
  JValue.obj [("amount", JValue.num (JNum.fin 5)),
              ("vendor", JValue.str "Shop A"),
              ("category", JValue.str "Food"),
              ("confidence", JValue.num (JNum.fin (1/2)))]

/-- Claim C3, counterexample to the original wording: storing a candidate
with confidence 0.5 (strictly below 0.6) produces an item with no
`needsReview` attribute, while the claim requires `needsReview = true` to
be set. -/
theorem claim_C3_counterexample :
    (store_receipt_data "r" "k" [] candC3 "t").map
      (fun item => getS item "needsReview") = some none ∧
    (match candC3 with
     | JValue.obj d => getJ d "confidence"
     | _ => none) = some (JValue.num (JNum.fin (1/2))) ∧
    JNum.lt (JNum.fin (1/2)) (JNum.fin (3/5)) = true := by
  refine ⟨?_, ?_, ?_⟩ <;> with_unfolding_all rfl

/-- Witness for the amended claim C3 at a concrete candidate. -/
theorem claim_C3_witness :
    ∃ item, store_receipt_data "r" "k" [] (JValue.obj []) "t" = some item ∧
      getS item "needsReview" = none := by
  have hsome : (store_receipt_data "r" "k" [] (JValue.obj []) "t").isSome = true := by
    with_unfolding_all rfl
  obtain ⟨item, hs⟩ := Option.isSome_iff_exists.1 hsome
  exact ⟨item, hs, claim_C3_no_needsReview_field hs⟩


/-- Claim C9: for a stored candidate, the persisted item carries a
`subtotal` (resp. `totalTax`) attribute exactly when the candidate's value
under that key is a truthy number — an absent key, a JSON `null` or a zero
value leaves the attribute out, and a truthy numeric value `n` is stored as
`Decimal` `n`. -/
theorem claim_C9_optional_decimal_fields {d : JObj} {rid s3key : String}
    {text : List Char} {ts : String} {item : List (String × SVal)}
    (h : store_receipt_data rid s3key text (JValue.obj d) ts = some item) :
    ((getJ d "subtotal" = none ∨ getJ d "subtotal" = some JValue.null) →
        getS item "subtotal" = none) ∧
    (∀ n, getJ d "subtotal" = some (JValue.num n) →
        (JNum.truthy n = true → getS item "subtotal" = some (SVal.dec n)) ∧
        (JNum.truthy n = false → getS item "subtotal" = none)) ∧
    ((getJ d "totalTax" = none ∨ getJ d "totalTax" = some JValue.null) →
        getS item "totalTax" = none) ∧
    (∀ n, getJ d "totalTax" = some (JValue.num n) →
        (JNum.truthy n = true → getS item "totalTax" = some (SVal.dec n)) ∧
        (JNum.truthy n = false → getS item "totalTax" = none)) := by
  obtain ⟨li, am, cf, ws, wt, hws, hwt, hdisc⟩ := store_chain h
  have hitem_sub : getS item "subtotal" = getS ws "subtotal" := by
    rw [addOptDec_getS_ne hdisc (by decide), addOptDec_getS_ne hwt (by decide)]
  have hitem_tax : getS item "totalTax" = getS wt "totalTax" :=
    addOptDec_getS_ne hdisc (by decide)
  have hbase_sub : getS (storeBase rid ts text s3key am cf d li) "subtotal" = none :=
    storeBase_getS_none _ _ _ _ _ _ _ _ _ (by simp)
  have hws_tax : getS ws "totalTax" = none := by
    rw [addOptDec_getS_ne hws (by decide)]
    exact storeBase_getS_none _ _ _ _ _ _ _ _ _ (by simp)
  refine ⟨?_, ?_, ?_, ?_⟩
  · intro hcase
    rw [hitem_sub]
    have ht : jvTruthy ((getJ d "subtotal").getD JValue.null) = false := by
      rcases hcase with hc | hc <;> rw [hc] <;> rfl
    rw [addOptDec_falsy hws ht]
    exact hbase_sub
  · intro n hn
    constructor
    · intro htr
      rw [hitem_sub]
      have ht : jvTruthy ((getJ d "subtotal").getD JValue.null) = true := by
        rw [hn]
        simpa [jvTruthy] using htr
      obtain ⟨v, hv, hg⟩ := addOptDec_getS_truthy hws ht hbase_sub
      rw [hn] at hv
      simp only [Option.getD_some, jvToDecimal, Option.some.injEq] at hv
      rw [hg, hv]
    · intro hf
      rw [hitem_sub]
      have ht : jvTruthy ((getJ d "subtotal").getD JValue.null) = false := by
        rw [hn]
        simpa [jvTruthy] using hf
      rw [addOptDec_falsy hws ht]
      exact hbase_sub
  · intro hcase
    rw [hitem_tax]
    have ht : jvTruthy ((getJ d "totalTax").getD JValue.null) = false := by
      rcases hcase with hc | hc <;> rw [hc] <;> rfl
    rw [addOptDec_falsy hwt ht]
    exact hws_tax
  · intro n hn
    constructor
    · intro htr
      rw [hitem_tax]
      have ht : jvTruthy ((getJ d "totalTax").getD JValue.null) = true := by
        rw [hn]
        simpa [jvTruthy] using htr
      obtain ⟨v, hv, hg⟩ := addOptDec_getS_truthy hwt ht hws_tax
      rw [hn] at hv
      simp only [Option.getD_some, jvToDecimal, Option.some.injEq] at hv
      rw [hg, hv]
    · intro hf
      rw [hitem_tax]
      have ht : jvTruthy ((getJ d "totalTax").getD JValue.null) = false := by
        rw [hn]
        simpa [jvTruthy] using hf
      rw [addOptDec_falsy hwt ht]
      exact hws_tax

/-- A candidate dictionary with a truthy subtotal and a null totalTax. -/
def candC9 : JObj :=
  [("amount", JValue.num (JNum.fin 9)),
   ("vendor", JValue.str "Shop B"),
   ("category", JValue.str "Food"),
   ("confidence", JValue.num (JNum.fin (9/10))),
   ("subtotal", JValue.num (JNum.fin 2)),
   ("totalTax", JValue.null)]

/-- Witness for claim C9 at a concrete candidate. -/
theorem claim_C9_witness :
    ∃ item, store_receipt_data "r" "k" [] (JValue.obj candC9) "t" = some item ∧
      getS item "subtotal" = some (SVal.dec (JNum.fin 2)) ∧
      getS item "totalTax" = none := by
  have hsome : (store_receipt_data "r" "k" [] (JValue.obj candC9) "t").isSome = true := by
    with_unfolding_all rfl
  obtain ⟨item, hs⟩ := Option.isSome_iff_exists.1 hsome
  have H := claim_C9_optional_decimal_fields hs
  refine ⟨item, hs, ?_, ?_⟩
  · exact (H.2.1 (JNum.fin 2) (by with_unfolding_all rfl)).1 (by decide)
  · exact H.2.2.1 (Or.inr (by with_unfolding_all rfl))


/-! ## Claim C2: the TESCO end-to-end scenario -/

/-- The OCR text of scenario A, taken literally from the specification. -/
def tescoText : List Char := "TESCO STORES LTD\n...\nTOTAL  £15.43\n".data

/-- Claim C2 (amended): with the generative backend unavailable on every
attempt, the pipeline takes the heuristic path and stores a record with
amount 15.43, vendor `TESCO STORES LTD` (which contains `TESCO`), category
`Food`, currency `GBP` — but with confidence 0.6 (the crude line-item
pattern extracts the `TOTAL £15.43` line as an item) and with no
`needsReview` attribute. -/
theorem claim_C2_tesco_pipeline (rid s3key ts : String) :
    categorize_expense_enhanced (fun _ => none) tescoText
      = JValue.obj (intelligent_fallback_extraction tescoText) ∧
    (store_receipt_data rid s3key tescoText
        (categorize_expense_enhanced (fun _ => none) tescoText) ts).map
      (fun it => (getS it "amount", getS it "vendor", getS it "category",
        getS it "currency", getS it "confidence", getS it "needsReview"))
      = some (some (SVal.dec (JNum.fin (1543/100))),
          some (SVal.jv (JValue.str "TESCO STORES LTD")),
          some (SVal.jv (JValue.str "Food")),
          some (SVal.jv (JValue.str "GBP")),
          some (SVal.dec (JNum.fin (3/5))),
          none) ∧
    containsSub "TESCO".data "TESCO STORES LTD".data = true := by
  refine ⟨rfl, ?_, by decide⟩
  with_unfolding_all rfl

/-- Witness for claim C2 at concrete request metadata. -/
theorem claim_C2_witness :
    (store_receipt_data "rid-0" "key-0" tescoText
        (categorize_expense_enhanced (fun _ => none) tescoText) "ts-0").map
      (fun it => (getS it "amount", getS it "vendor", getS it "category",
        getS it "currency", getS it "confidence", getS it "needsReview"))
      = some (some (SVal.dec (JNum.fin (1543/100))),
          some (SVal.jv (JValue.str "TESCO STORES LTD")),
          some (SVal.jv (JValue.str "Food")),
          some (SVal.jv (JValue.str "GBP")),
          some (SVal.dec (JNum.fin (3/5))),
          none) :=
  (claim_C2_tesco_pipeline "rid-0" "key-0" "ts-0").2.1

/-- Claim C2, counterexample to the original wording: on the literal
scenario text the stored confidence is 0.6, not the claimed 0.5, and no
`needsReview` attribute is stored at all (the claim requires
`needsReview = true`). -/
theorem claim_C2_counterexample :
    (store_receipt_data "r" "k" tescoText
        (categorize_expense_enhanced (fun _ => none) tescoText) "t").map
      (fun it => (getS it "confidence", getS it "needsReview"))
      = some (some (SVal.dec (JNum.fin (3/5))), none) ∧
    (3/5 : ℚ) ≠ 1/2 := by
  refine ⟨?_, by norm_num⟩
  with_unfolding_all rfl


/-! ## Claim C6: the validator's amount rule -/

/-- The amount check, characterised: a value is accepted exactly when it
converts to a float that is `nan` or lies in `[0, 1000000]` (the code's
`< 0` / `> 1000000` comparisons are both false on `nan`). -/
theorem amountAccepted_iff (v : JValue) :
    amountAccepted v = true ↔
      ∃ a, pyFloatJ v = some a ∧
        (a = JNum.nan ∨
          (JNum.le (JNum.fin 0) a = true ∧ JNum.le a (JNum.fin 1000000) = true)) := by
  unfold amountAccepted
  cases hf : pyFloatJ v with
  | none => simp
  | some a =>
    cases a with
    | fin q =>
      simp only [JNum.lt, JNum.gt, JNum.le, Bool.or_eq_true, Bool.not_eq_true',
        Bool.or_eq_false_iff, Option.some.injEq]
      constructor
      · intro h
        refine ⟨JNum.fin q, rfl, Or.inr ?_⟩
        have h1 : ¬ q < 0 := by simpa using h.1
        have h2 : ¬ 1000000 < q := by simpa using h.2
        constructor
        · simpa using le_of_not_lt h1
        · simpa using le_of_not_lt h2
      · rintro ⟨a, ha, hcase⟩
        cases ha
        rcases hcase with hnan | ⟨h1, h2⟩
        · cases hnan
        · simp only [decide_eq_true_eq] at h1 h2
          constructor <;> simp <;> linarith
    | nan => simp [JNum.lt, JNum.gt]
    | inf =>
      simp only [JNum.lt, JNum.gt, JNum.le]
      simp
    | ninf =>
      simp only [JNum.lt, JNum.gt, JNum.le]
      simp

/-- Claim C6 (amended): for every candidate dictionary with an `amount`
key, a failing amount check forces validation to return `False`, and the
check passes exactly when the amount converts to a float that is `NaN` or
lies in `[0, 1000000]` (both bounds inclusive; `NaN` slips through because
the bound comparisons are false on it). -/
theorem claim_C6_amount_validation {d : JObj} {v : JValue}
    (hd : getJ d "amount" = some v) :
    (amountAccepted v = false → validate_receipt_data_enhanced (JValue.obj d) = some false) ∧
    (amountAccepted v = true ↔
      ∃ a, pyFloatJ v = some a ∧
        (a = JNum.nan ∨
          (JNum.le (JNum.fin 0) a = true ∧ JNum.le a (JNum.fin 1000000) = true))) := by
  constructor
  · intro hbad
    unfold validate_receipt_data_enhanced
    dsimp only
    by_cases hkeys : (hasKeyJ d "amount" && hasKeyJ d "vendor" && hasKeyJ d "category") = true
    · rw [if_neg (by simp [hkeys])]
      rw [hd]
      simp only [Option.getD_some, hbad]
      rfl
    · have hx : (hasKeyJ d "amount" && hasKeyJ d "vendor" && hasKeyJ d "category") = false := by
        rw [← Bool.not_eq_true]
        exact hkeys
      rw [if_pos (show (!(hasKeyJ d "amount" && hasKeyJ d "vendor" && hasKeyJ d "category")) = true by
        rw [hx]; rfl)]
  · exact amountAccepted_iff v

/-- Witness for claim C6 at a concrete candidate. -/
theorem claim_C6_witness :
    (amountAccepted (JValue.num (JNum.fin 5)) = false →
      validate_receipt_data_enhanced
        (JValue.obj [("amount", JValue.num (JNum.fin 5))]) = some false) ∧
    (amountAccepted (JValue.num (JNum.fin 5)) = true ↔
      ∃ a, pyFloatJ (JValue.num (JNum.fin 5)) = some a ∧
        (a = JNum.nan ∨
          (JNum.le (JNum.fin 0) a = true ∧ JNum.le a (JNum.fin 1000000) = true))) :=
  claim_C6_amount_validation (d := [("amount", JValue.num (JNum.fin 5))]) rfl

/-- The `NaN` candidate, exactly as the tier-1 parser would produce it from
the JSON text. -/
def candC6 : JObj :=
  [("amount", JValue.num JNum.nan),
   ("vendor", JValue.str "ab"),
   ("category", JValue.str "Food"),
   ("lineItems", JValue.arr []),
   ("hasDetailedItems", JValue.bool false)]

/-- Claim C6, counterexample to the original wording: a `NaN` amount (which
`json.loads` produces from the literal `NaN`) is accepted by the validator,
although `0 <= NaN` is false, so acceptance is not equivalent to
`0 <= a <= 1000000`. -/
theorem claim_C6_counterexample :
    parse_claude_response_enhanced
      "\x7b\"amount\": NaN, \"vendor\": \"ab\", \"category\": \"Food\"\x7d".data
      = PRes.parsed (JValue.obj candC6) ∧
    validate_receipt_data_enhanced (JValue.obj candC6) = some true ∧
    pyFloatJ (JValue.num JNum.nan) = some JNum.nan ∧
    JNum.le (JNum.fin 0) JNum.nan = false := by
  refine ⟨?_, ?_, rfl, rfl⟩ <;> with_unfolding_all rfl


/-! ## Claim C7: a failed OCR call is terminal -/

/-- The record loop, started at index `k`: if the first OCR failure at or
after `k` is at index `i`, the loop returns the 500 failure response and
performs no action for any record index at or beyond `i`. -/
theorem processRecords_ocr_failure
    (ocr : Nat → List Char) (backend : Nat → Nat → Option (List Char))
    (rid : Nat → String) (ts : String) (i : Nat) (hfail : ocr i = OCR_FAILED) :
    ∀ (recs : List S3Rec) (k : Nat) (acc : List HAction),
      k ≤ i → i - k < recs.length →
      (∀ j, k ≤ j → j < i → ocr j ≠ OCR_FAILED) →
      (∀ a ∈ acc, a.idx < i) →
      (processRecords ocr backend rid ts k recs acc).1.1 = 500 ∧
      ∀ a ∈ (processRecords ocr backend rid ts k recs acc).2, a.idx < i := by
  intro recs
  induction recs with
  | nil =>
    intro k acc _ hi _ _
    simp at hi
  | cons r rest ih =>
    intro k acc hk hi hbefore hacc
    unfold processRecords
    dsimp only
    by_cases hko : ocr k = OCR_FAILED
    · have hki : k = i := by
        by_contra hne
        exact hbefore k le_rfl (lt_of_le_of_ne hk hne) hko
      rw [if_pos hko]
      exact ⟨rfl, hacc⟩
    · rw [if_neg hko]
      have hklt : k < i := by
        rcases lt_or_eq_of_le hk with h | h
        · exact h
        · exact absurd (h ▸ hfail) hko
      cases hstore : store_receipt_data (rid k) r.key (ocr k)
          (categorize_expense_enhanced (backend k) (ocr k)) ts with
      | some item =>
        dsimp only
        apply ih (k + 1) (acc ++ [HAction.extracted k (ocr k)] ++ [HAction.stored k item])
        · omega
        · simp only [List.length_cons] at hi
          omega
        · intro j hj1 hj2
          exact hbefore j (by omega) hj2
        · intro a ha
          rcases List.mem_append.1 ha with ha2 | ha2
          · rcases List.mem_append.1 ha2 with ha3 | ha3
            · exact hacc a ha3
            · rcases List.mem_singleton.1 ha3 with rfl
              exact hklt
          · rcases List.mem_singleton.1 ha2 with rfl
            exact hklt
      | none =>
        dsimp only
        refine ⟨rfl, ?_⟩
        intro a ha
        rcases List.mem_append.1 ha with ha2 | ha2
        · exact hacc a ha2
        · rcases List.mem_singleton.1 ha2 with rfl
          exact hklt

/-- Claim C7: whenever the text extraction of a record fails (and it is the
first failure of the event), the handler returns the 500 failure response,
and the action trace shows that extraction was never invoked on that
record's text and nothing was stored for it (no action concerns record `i`
or any later record). -/
theorem claim_C7_ocr_failure_terminal (records : List S3Rec) (ocr : Nat → List Char)
    (backend : Nat → Nat → Option (List Char)) (rid : Nat → String) (ts : String)
    (i : Nat) (hi : i < records.length)
    (hbefore : ∀ j, j < i → ocr j ≠ OCR_FAILED)
    (hfail : ocr i = OCR_FAILED) :
    (ocr_lambda_handler records ocr backend rid ts).1.1 = 500 ∧
    ∀ a ∈ (ocr_lambda_handler records ocr backend rid ts).2, a.idx < i := by
  unfold ocr_lambda_handler
  apply processRecords_ocr_failure ocr backend rid ts i hfail records 0 []
  · omega
  · simpa using hi
  · intro j _ hj2
    exact hbefore j hj2
  · intro a ha
    cases ha

/-- Witness for claim C7: a one-record event whose OCR fails. -/
theorem claim_C7_witness :
    (ocr_lambda_handler [⟨"b", "k"⟩] (fun _ => OCR_FAILED)
        (fun _ _ => none) (fun _ => "r") "t").1.1 = 500 ∧
    ∀ a ∈ (ocr_lambda_handler [⟨"b", "k"⟩] (fun _ => OCR_FAILED)
        (fun _ _ => none) (fun _ => "r") "t").2, a.idx < 0 :=
  claim_C7_ocr_failure_terminal [⟨"b", "k"⟩] (fun _ => OCR_FAILED)
    (fun _ _ => none) (fun _ => "r") "t" 0 (by decide)
    (fun j hj => absurd hj (by omega)) rfl


/-! ## Claims C8 and C10: the query API -/

/-- Characters with equal code points are equal. -/
theorem charToNat_inj {a b : Char} (h : a.toNat = b.toNat) : a = b := by
  apply Char.ext
  apply UInt32.ext
  exact h

/-- Lexicographic comparison is total. -/
theorem lexLe_total : ∀ a b : List Char, lexLe a b = true ∨ lexLe b a = true := by
  intro a
  induction a with
  | nil => intro b; left; rfl
  | cons x xs ih =>
    intro b
    cases b with
    | nil => right; rfl
    | cons y ys =>
      by_cases hxy : x = y
      · subst hxy
        rcases ih ys with h | h
        · left; simpa [lexLe] using h
        · right; simpa [lexLe] using h
      · have hnat : x.toNat ≠ y.toNat := fun hc => hxy (charToNat_inj hc)
        have hyx : y ≠ x := fun hc => hxy hc.symm
        rcases Nat.lt_or_ge x.toNat y.toNat with h | h
        · left; simp [lexLe, hxy, h]
        · right
          have hlt : y.toNat < x.toNat := by omega
          simp [lexLe, hyx, hlt]

/-- Lexicographic comparison is transitive. -/
theorem lexLe_trans : ∀ a b c : List Char,
    lexLe a b = true → lexLe b c = true → lexLe a c = true := by
  intro a
  induction a with
  | nil => intro b c _ _; rfl
  | cons x xs ih =>
    intro b c hab hbc
    cases b with
    | nil => simp [lexLe] at hab
    | cons y ys =>
      cases c with
      | nil => simp [lexLe] at hbc
      | cons z zs =>
        simp only [lexLe] at hab hbc ⊢
        by_cases hxy : x = y
        · subst hxy
          rw [if_pos rfl] at hab
          by_cases hxz : x = z
          · subst hxz
            rw [if_pos rfl] at hbc ⊢
            exact ih ys zs hab hbc
          · rw [if_neg hxz] at hbc ⊢
            exact hbc
        · rw [if_neg hxy] at hab
          have hxylt : x.toNat < y.toNat := of_decide_eq_true hab
          by_cases hyz : y = z
          · subst hyz
            rw [if_neg hxy]
            exact decide_eq_true hxylt
          · rw [if_neg hyz] at hbc
            have hyzlt : y.toNat < z.toNat := of_decide_eq_true hbc
            have hxz : x ≠ z := by
              intro hc
              subst hc
              omega
            rw [if_neg hxz]
            exact decide_eq_true (by omega)

instance : IsTotal ApiRec tsGe := ⟨fun a b => lexLe_total (tsKey b) (tsKey a)⟩

instance : IsTrans ApiRec tsGe :=
  ⟨fun _ _ _ hab hbc => lexLe_trans _ _ _ hbc hab⟩

/-- The timestamp sort returns a permutation of its input. -/
theorem sortByTsDesc_perm (rs : List ApiRec) : (sortByTsDesc rs).Perm rs :=
  List.perm_insertionSort tsGe rs

/-- The timestamp sort is sorted descending. -/
theorem sortByTsDesc_sorted (rs : List ApiRec) : (sortByTsDesc rs).Pairwise tsGe :=
  List.sorted_insertionSort tsGe rs

/-- Rounding zero gives zero. -/
theorem pyRound2_zero : pyRound2 0 = 0 := by
  norm_num [pyRound2]

/-- Claim C8 (amended): for a nonempty category string, a title-cased value
outside the closed set yields a 400 error naming the valid categories
(each category name occurs in the message), while a valid one returns
exactly the matching records, sorted by `uploadTimestamp` descending, with
the rounded total and average (average 0 when no records match); the empty
category string instead yields the 400 `Category is required` error. -/
theorem claim_C8_category_endpoint (c : String) (table : List ApiRec) :
    (c = "" → get_receipts_by_category (some c) table
        = ApiResp.err 400 "Category is required") ∧
    (c ≠ "" → pyTitle c ∉ valid_categories →
      get_receipts_by_category (some c) table = ApiResp.err 400 invalidCategoryMsg ∧
      (∀ v ∈ valid_categories, containsSub v.data invalidCategoryMsg.data = true)) ∧
    (c ≠ "" → pyTitle c ∈ valid_categories →
      ∃ rs, get_receipts_by_category (some c) table
          = ApiResp.ok rs (pyTitle c) rs.length (pyRound2 (sumAmounts rs))
              (pyRound2 (if rs.isEmpty then 0 else sumAmounts rs / rs.length)) ∧
        rs.Perm (table.filter (fun r => r.category = some (pyTitle c))) ∧
        rs.Pairwise tsGe ∧
        (table.filter (fun r => r.category = some (pyTitle c)) = [] →
          get_receipts_by_category (some c) table
            = ApiResp.ok [] (pyTitle c) 0 0 0)) := by
  refine ⟨?_, ?_, ?_⟩
  · intro rfl0
    subst rfl0
    rfl
  · intro hne hnotin
    unfold get_receipts_by_category
    dsimp only
    rw [if_neg hne, if_neg hnotin]
    exact ⟨rfl, by decide⟩
  · intro hne hin
    unfold get_receipts_by_category
    dsimp only
    rw [if_neg hne, if_pos hin]
    refine ⟨sortByTsDesc (table.filter (fun r => r.category = some (pyTitle c))), rfl, sortByTsDesc_perm _, sortByTsDesc_sorted _, ?_⟩
    intro hempt
    rw [hempt]
    simp [sortByTsDesc, List.insertionSort, sumAmounts, pyRound2_zero]

/-- Witness for claim C8 at a concrete category and table. -/
theorem claim_C8_witness :
    (get_receipts_by_category (some "gadgets") [] = ApiResp.err 400 invalidCategoryMsg ∧
      (∀ v ∈ valid_categories, containsSub v.data invalidCategoryMsg.data = true)) ∧
    (∃ rs, get_receipts_by_category (some "food") []
        = ApiResp.ok rs (pyTitle "food") rs.length (pyRound2 (sumAmounts rs))
            (pyRound2 (if rs.isEmpty then 0 else sumAmounts rs / rs.length)) ∧
      rs.Perm (List.filter (fun r => r.category = some (pyTitle "food")) ([] : List ApiRec)) ∧
      rs.Pairwise tsGe ∧
      (List.filter (fun r => r.category = some (pyTitle "food")) ([] : List ApiRec) = [] →
        get_receipts_by_category (some "food") []
          = ApiResp.ok [] (pyTitle "food") 0 0 0)) :=
  ⟨(claim_C8_category_endpoint "gadgets" []).2.1 (by decide) (by decide),
   (claim_C8_category_endpoint "food" []).2.2 (by decide) (by decide)⟩

/-- Claim C8, counterexample to the original wording: the empty category
string is not one of the eight closed-set values even after normalization,
yet the 400 body is `Category is required`, which does not name the valid
category set (it does not even mention `Food`). -/
theorem claim_C8_counterexample :
    get_receipts_by_category (some "") [] = ApiResp.err 400 "Category is required" ∧
    (pyTitle "" ∈ valid_categories ↔ False) ∧
    containsSub "Food".data "Category is required".data = false ∧
    "Category is required" ≠ invalidCategoryMsg := by
  refine ⟨rfl, by decide, by decide, by decide⟩


/-- `bumpCat` preserves positive counts. -/
theorem bumpCat_count_pos {acc : List (String × Nat × ℚ)} {c : String} {a : ℚ}
    (h : ∀ p ∈ acc, 0 < p.2.1) : ∀ p ∈ bumpCat acc c a, 0 < p.2.1 := by
  induction acc with
  | nil =>
    intro p hp
    simp only [bumpCat, List.mem_singleton] at hp
    subst hp
    simp
  | cons q rest ih =>
    obtain ⟨k, n, t⟩ := q
    intro p hp
    simp only [bumpCat] at hp
    split at hp
    · rcases List.mem_cons.1 hp with rfl | h2
      · simp
      · exact h _ (List.mem_cons_of_mem _ h2)
    · rcases List.mem_cons.1 hp with rfl | h2
      · exact h _ (List.mem_cons_self _ _)
      · exact ih (fun p0 hp0 => h p0 (List.mem_cons_of_mem _ hp0)) _ h2

/-- The category fold produces only positive counts. -/
theorem foldl_bump_pos (rs : List ApiRec) :
    ∀ acc, (∀ p ∈ acc, 0 < p.2.1) →
      ∀ p ∈ rs.foldl (fun acc r => bumpCat acc (r.category.getD "Other") (r.amount.getD 0)) acc,
        0 < p.2.1 := by
  induction rs with
  | nil => intro acc h; simpa using h
  | cons r rest ih =>
    intro acc h
    simp only [List.foldl_cons]
    exact ih _ (bumpCat_count_pos h)

/-- `mapOptList` succeeds when every element does. -/
theorem mapOptList_isSome {α β : Type} {f : α → Option β} {l : List α}
    (h : ∀ x ∈ l, (f x).isSome = true) : (mapOptList f l).isSome = true := by
  induction l with
  | nil => rfl
  | cons x xs ih =>
    unfold mapOptList
    obtain ⟨y, hy⟩ := Option.isSome_iff_exists.1 (h x (List.mem_cons_self _ _))
    rw [hy]
    have h2 := ih (fun z hz => h z (List.mem_cons_of_mem _ hz))
    obtain ⟨ys, hys⟩ := Option.isSome_iff_exists.1 h2
    rw [hys]
    rfl

/-- The per-category average succeeds on positive counts. -/
theorem catAverage_isSome {p : String × Nat × ℚ} (h : 0 < p.2.1) :
    (catAverage p).isSome = true := by
  unfold catAverage pyDiv
  rw [if_neg]
  · rfl
  · intro hc
    rw [Nat.cast_eq_zero] at hc
    omega

/-- Claim C10: the statistics computations never divide by zero —
`calculate_stats` of the empty list short-circuits to the zero summary
without dividing, it succeeds (raises no `ZeroDivisionError`) on every
input because the overall and per-category divisors are the positive
counts, and the category endpoint returns average 0 for a valid category
with no matching records. -/
theorem claim_C10_stats_no_div_by_zero :
    calculate_stats [] = some ⟨0, 0, 0, []⟩ ∧
    (∀ rs : List ApiRec, (calculate_stats rs).isSome = true) ∧
    (∀ (c : String) (table : List ApiRec), c ≠ "" → pyTitle c ∈ valid_categories →
      table.filter (fun r => r.category = some (pyTitle c)) = [] →
      get_receipts_by_category (some c) table = ApiResp.ok [] (pyTitle c) 0 0 0) := by
  refine ⟨rfl, ?_, ?_⟩
  · intro rs
    by_cases he : rs.isEmpty
    · unfold calculate_stats
      rw [if_pos he]
      rfl
    · unfold calculate_stats
      rw [if_neg he]
      dsimp only
      have hlen : rs.length ≠ 0 := by
        cases rs with
        | nil => simp at he
        | cons r t => simp
      have hdiv : pyDiv (sumAmounts rs) rs.length = some (sumAmounts rs / rs.length) := by
        unfold pyDiv
        rw [if_neg]
        intro hc
        rw [Nat.cast_eq_zero] at hc
        exact hlen hc
      rw [hdiv]
      simp only [Option.bind_eq_bind, Option.some_bind]
      have hpos := foldl_bump_pos rs [] (by simp)
      have hmap := mapOptList_isSome (f := catAverage)
        (l := rs.foldl (fun acc r => bumpCat acc (r.category.getD "Other") (r.amount.getD 0)) [])
        (fun p hp => catAverage_isSome (hpos p hp))
      obtain ⟨ys, hys⟩ := Option.isSome_iff_exists.1 hmap
      rw [hys]
      rfl
  · intro c table hne hin hempt
    unfold get_receipts_by_category
    dsimp only
    rw [if_neg hne, if_pos hin, hempt]
    simp [sortByTsDesc, List.insertionSort, sumAmounts, pyRound2_zero]

/-- Witness for claim C10 at concrete inputs. -/
theorem claim_C10_witness :
    (calculate_stats [⟨"id1", some "2024", some "Food", some 5⟩]).isSome = true ∧
    get_receipts_by_category (some "food") ([] : List ApiRec)
      = ApiResp.ok [] (pyTitle "food") 0 0 0 :=
  ⟨claim_C10_stats_no_div_by_zero.2.1 _,
   claim_C10_stats_no_div_by_zero.2.2 "food" [] (by decide) (by decide) rfl⟩

/-! ## Claim C5: fenced JSON parses like the unwrapped payload -/

theorem dropLit_some : ∀ {pat l r : List Char}, dropLit pat l = some r → l = pat ++ r := by
  intro pat
  induction pat with
  | nil => intro l r h; simpa [dropLit] using h
  | cons p ps ih =>
    intro l r h
    cases l with
    | nil => simp [dropLit] at h
    | cons c cs =>
      simp only [dropLit] at h
      by_cases hpc : p = c
      · rw [if_pos hpc] at h
        subst hpc
        simpa using ih h
      · rw [if_neg hpc] at h; exact absurd h (by simp)

theorem dropLit_app : ∀ (pat w : List Char), dropLit pat (pat ++ w) = some w := by
  intro pat
  induction pat with
  | nil => intro w; simp [dropLit]
  | cons p ps ih => intro w; simp [dropLit, ih]

theorem jsonWs_uniWs {c : Char} (h : jsonWs c = true) : uniWs c = true := by
  simp only [jsonWs, uniWs, Bool.or_eq_true, decide_eq_true_eq, Bool.and_eq_true] at h ⊢
  omega

theorem wSafe_head {c : Char} {t : List Char} (h : wSafe (c :: t)) :
    isDig c = false ∧ c ≠ '.' ∧ c ≠ 'e' ∧ c ≠ 'E' := by
  rcases h with h | ⟨c', t', he, hc⟩
  · exact absurd h (by simp)
  · injection he with h1 h2
    subst h1; subst h2
    rcases hc with rfl | rfl | rfl | hws
    · exact ⟨by decide, by decide, by decide, by decide⟩
    · exact ⟨by decide, by decide, by decide, by decide⟩
    · exact ⟨by decide, by decide, by decide, by decide⟩
    · refine ⟨?_, ?_, ?_, ?_⟩
      · simp only [jsonWs, Bool.or_eq_true, decide_eq_true_eq] at hws
        cases hd : isDig c with
        | false => rfl
        | true =>
          simp only [isDig, Bool.and_eq_true, decide_eq_true_eq] at hd
          omega
      · intro hc; subst hc; exact absurd hws (by decide)
      · intro hc; subst hc; exact absurd hws (by decide)
      · intro hc; subst hc; exact absurd hws (by decide)

theorem tw_dw_app {p : Char → Bool} :
    ∀ (a : List Char), (∀ c ∈ a, p c = true) →
    ∀ (w : List Char), (∀ c t, w = c :: t → p c = false) →
    (a ++ w).takeWhile p = a ∧ (a ++ w).dropWhile p = w := by
  intro a
  induction a with
  | nil =>
    intro _ w hw
    cases w with
    | nil => simp
    | cons c t => simp [List.takeWhile_cons, List.dropWhile_cons, hw c t rfl]
  | cons x xs ih =>
    intro ha w hw
    have hx : p x = true := ha x (by simp)
    have := ih (fun c hc => ha c (by simp [hc])) w hw
    simp [List.takeWhile_cons, List.dropWhile_cons, hx, this.1, this.2]

theorem skipJWs_app {a : List Char} (ha : ∀ c ∈ a, jsonWs c = true) (c : Char)
    (t : List Char) (hc : jsonWs c = false) : skipJWs (a ++ c :: t) = c :: t :=
  (tw_dw_app a ha (c :: t) (fun c' _ he => by cases he; exact hc)).2

theorem skipJWs_split (l : List Char) :
    l = l.takeWhile jsonWs ++ skipJWs l ∧ ∀ c ∈ l.takeWhile jsonWs, jsonWs c = true :=
  ⟨(List.takeWhile_append_dropWhile jsonWs l).symm, fun _ hc => List.mem_takeWhile_imp hc⟩

theorem skipJWs_decomp {x y : List Char} (h : skipJWs x = y) :
    ∃ tw, x = tw ++ y ∧ ∀ c ∈ tw, jsonWs c = true :=
  ⟨x.takeWhile jsonWs, by rw [← h]; exact (skipJWs_split x).1, (skipJWs_split x).2⟩

theorem parseVal_nil (fuel : Nat) : parseVal fuel [] = none := by
  cases fuel <;> rfl

theorem parseObjTail_nil (fuel : Nat) : parseObjTail fuel [] = none := by
  cases fuel <;> rfl

theorem parseArrTail_nil (fuel : Nat) : parseArrTail fuel [] = none := by
  cases fuel <;> rfl

theorem parseStrBody_ext : ∀ {l s r : List Char}, parseStrBody l = some (s, r) →
    ∃ C, l = C ++ r ∧ ∀ w, parseStrBody (C ++ w) = some (s, w) := by
  intro l
  induction l using parseStrBody.induct with
  | case1 =>
    intro s r h
    rw [parseStrBody.eq_def] at h; simp at h
  | case2 cs =>
    intro s r h
    rw [parseStrBody.eq_def] at h; simp at h
    rcases h with ⟨rfl, rfl⟩
    exact ⟨['"'], rfl, fun w => by rw [parseStrBody.eq_def]; simp⟩
  | case3 hbs =>
    intro s r h
    rw [parseStrBody.eq_def] at h; simp at h
  | case4 h1 h2 h3 h4 rest3 a b hv d hx4 hx3 hx2 hx1 ds r0 hin hbs ih =>
    intro s r h
    rw [parseStrBody.eq_def] at h; simp [hx1, hx2, hx3, hx4, hin] at h
    rcases h with ⟨rfl, rfl⟩
    obtain ⟨C, hC, hrec⟩ := ih hin
    refine ⟨'\\' :: 'u' :: h1 :: h2 :: h3 :: h4 :: C, by simp [hC], fun w => ?_⟩
    rw [parseStrBody.eq_def]; simp [hx1, hx2, hx3, hx4, hrec w]
  | case5 h1 h2 h3 h4 rest3 a b hv d hx4 hx3 hx2 hx1 hin hbs ih =>
    intro s r h
    rw [parseStrBody.eq_def] at h; simp [hx1, hx2, hx3, hx4, hin] at h
  | case6 h1 h2 h3 h4 rest3 hno hbs =>
    intro s r h
    rcases hv1 : hexVal h1 with _ | a
    · rw [parseStrBody.eq_def] at h; simp [hv1] at h
    · rcases hv2 : hexVal h2 with _ | b
      · rw [parseStrBody.eq_def] at h; simp [hv1, hv2] at h
      · rcases hv3 : hexVal h3 with _ | hv
        · rw [parseStrBody.eq_def] at h; simp [hv1, hv2, hv3] at h
        · rcases hv4 : hexVal h4 with _ | d
          · rw [parseStrBody.eq_def] at h; simp [hv1, hv2, hv3, hv4] at h
          · exact (hno a b hv d hv1 hv2 hv3 hv4).elim
  | case7 cs hno hbs =>
    intro s r h
    rcases cs with _ | ⟨a1, _ | ⟨a2, _ | ⟨a3, _ | ⟨a4, cs4⟩⟩⟩⟩
    · rw [parseStrBody.eq_def] at h; simp at h
    · rw [parseStrBody.eq_def] at h; simp at h
    · rw [parseStrBody.eq_def] at h; simp at h
    · rw [parseStrBody.eq_def] at h; simp at h
    · exact (hno a1 a2 a3 a4 cs4 rfl).elim
  | case8 c cs hcu dc hesc ds r0 hin hbs ih =>
    intro s r h
    rw [parseStrBody.eq_def] at h; simp [hcu, hesc, hin] at h
    rcases h with ⟨rfl, rfl⟩
    obtain ⟨C, hC, hrec⟩ := ih hin
    refine ⟨'\\' :: c :: C, by simp [hC], fun w => ?_⟩
    rw [parseStrBody.eq_def]; simp [hcu, hesc, hrec w]
  | case9 c cs hcu dc hesc hin hbs ih =>
    intro s r h
    rw [parseStrBody.eq_def] at h; simp [hcu, hesc, hin] at h
  | case10 c cs hcu hesc hbs =>
    intro s r h
    rw [parseStrBody.eq_def] at h; simp [hcu, hesc] at h
  | case11 c cs hq hbs hctl =>
    intro s r h
    rw [parseStrBody.eq_def] at h; simp [hq, hbs, hctl] at h
  | case12 c cs hq hbs hctl ds r0 hin ih =>
    intro s r h
    rw [parseStrBody.eq_def] at h; simp [hq, hbs, hctl, hin] at h
    rcases h with ⟨rfl, rfl⟩
    obtain ⟨C, hC, hrec⟩ := ih hin
    refine ⟨c :: C, by simp [hC], fun w => ?_⟩
    rw [parseStrBody.eq_def]; simp [hq, hbs, hctl, hrec w]
  | case13 c cs hq hbs hctl hin ih =>
    intro s r h
    rw [parseStrBody.eq_def] at h; simp [hq, hbs, hctl, hin] at h

theorem isDig_facts {c : Char} (h : isDig c = true) :
    c ≠ '+' ∧ c ≠ '-' ∧ c ≠ '.' ∧ c ≠ 'e' ∧ c ≠ 'E' := by
  refine ⟨?_, ?_, ?_, ?_, ?_⟩ <;> (intro he; subst he; exact absurd h (by decide))

theorem jnumInt_ext : ∀ {l ds r : List Char}, jnumInt l = some (ds, r) →
    l = ds ++ r ∧ (∃ c0 t0, ds = c0 :: t0 ∧ isDig c0 = true) ∧
    ∀ w, (∀ c t, w = c :: t → isDig c = false) → jnumInt (ds ++ w) = some (ds, w) := by
  intro l ds r h
  cases l with
  | nil => rw [jnumInt.eq_def] at h; simp at h
  | cons c t =>
    rw [jnumInt.eq_def] at h
    dsimp only at h
    by_cases hc0 : c = '0'
    · subst hc0
      rw [if_pos rfl] at h
      simp only [Option.some.injEq, Prod.mk.injEq] at h
      obtain ⟨h1, h2⟩ := h
      subst h1; subst h2
      refine ⟨rfl, ⟨'0', [], rfl, by decide⟩, fun w _ => ?_⟩
      rw [jnumInt.eq_def]
      simp
    · rw [if_neg hc0] at h
      by_cases hd : isDig c
      · rw [if_pos hd] at h
        simp only [Option.some.injEq, Prod.mk.injEq] at h
        obtain ⟨h1, h2⟩ := h
        subst h1; subst h2
        refine ⟨by simp, ⟨c, _, rfl, hd⟩, fun w hw => ?_⟩
        rw [jnumInt.eq_def]
        have h2 := tw_dw_app (t.takeWhile isDig) (fun x hx => List.mem_takeWhile_imp hx) w hw
        simp only [List.cons_append, if_neg hc0, if_pos hd, h2.1, h2.2]
      · rw [if_neg hd] at h
        exact absurd h (by simp)

theorem jnumFrac_empty : ∀ (w : List Char), (∀ c t, w = c :: t → c ≠ '.') →
    jnumFrac w = (([] : List Char), w) := by
  intro w hw
  cases w with
  | nil => rw [jnumFrac.eq_def]
  | cons c t =>
    rw [jnumFrac.eq_def]
    dsimp only
    rw [if_neg (hw c t rfl)]

theorem jnumFrac_ext : ∀ {l fs r : List Char}, jnumFrac l = (fs, r) →
    ∃ C, l = C ++ r ∧ (C = [] ∨ ∃ t0, C = '.' :: t0) ∧
    ∀ w, (∀ c t, w = c :: t → isDig c = false ∧ c ≠ '.') → jnumFrac (C ++ w) = (fs, w) := by
  intro l fs r h
  cases l with
  | nil =>
    rw [jnumFrac.eq_def] at h
    dsimp only at h
    simp only [Prod.mk.injEq] at h
    obtain ⟨h1, h2⟩ := h
    subst h1; subst h2
    exact ⟨[], rfl, Or.inl rfl, fun w hw => by
      simpa using jnumFrac_empty w (fun c t he => (hw c t he).2)⟩
  | cons c t =>
    rw [jnumFrac.eq_def] at h
    dsimp only at h
    by_cases hdot : c = '.'
    · subst hdot
      rw [if_pos rfl] at h
      by_cases hfs : t.takeWhile isDig = []
      · rw [if_pos hfs] at h
        simp only [Prod.mk.injEq] at h
        obtain ⟨h1, h2⟩ := h
        subst h1; subst h2
        exact ⟨[], rfl, Or.inl rfl, fun w hw => by
          simpa using jnumFrac_empty w (fun c t he => (hw c t he).2)⟩
      · rw [if_neg hfs] at h
        simp only [Prod.mk.injEq] at h
        obtain ⟨h1, h2⟩ := h
        subst h1; subst h2
        refine ⟨'.' :: t.takeWhile isDig, by simp, Or.inr ⟨_, rfl⟩, fun w hw => ?_⟩
        rw [jnumFrac.eq_def]
        have h2 := tw_dw_app (t.takeWhile isDig) (fun x hx => List.mem_takeWhile_imp hx) w
          (fun c t he => (hw c t he).1)
        simp only [List.cons_append, if_pos rfl, h2.1, h2.2]
        simp [hfs]
    · rw [if_neg hdot] at h
      simp only [Prod.mk.injEq] at h
      obtain ⟨h1, h2⟩ := h
      subst h1; subst h2
      exact ⟨[], rfl, Or.inl rfl, fun w hw => by
        simpa using jnumFrac_empty w (fun c t he => (hw c t he).2)⟩

theorem jnumExp_empty : ∀ (w : List Char), (∀ c t, w = c :: t → c ≠ 'e' ∧ c ≠ 'E') →
    jnumExp w = ((0 : Int), w) := by
  intro w hw
  cases w with
  | nil => rw [jnumExp.eq_def]
  | cons c t =>
    rw [jnumExp.eq_def]
    dsimp only
    rw [if_neg (by simp [(hw c t rfl).1, (hw c t rfl).2])]

theorem jnumExp_ext : ∀ {l : List Char} {ex : Int} {r : List Char}, jnumExp l = (ex, r) →
    ∃ C, l = C ++ r ∧ (C = [] ∨ ∃ c0 t0, C = c0 :: t0 ∧ (c0 = 'e' ∨ c0 = 'E')) ∧
    ∀ w, (∀ c t, w = c :: t → isDig c = false ∧ c ≠ 'e' ∧ c ≠ 'E') →
      jnumExp (C ++ w) = (ex, w) := by
  intro l ex r h
  have hCnil : ∀ {l2 : List Char}, ((0 : Int), l2) = (ex, r) →
      ∃ C, l2 = C ++ r ∧ (C = [] ∨ ∃ c0 t0, C = c0 :: t0 ∧ (c0 = 'e' ∨ c0 = 'E')) ∧
      ∀ w, (∀ c t, w = c :: t → isDig c = false ∧ c ≠ 'e' ∧ c ≠ 'E') →
        jnumExp (C ++ w) = (ex, w) := by
    intro l2 he
    simp only [Prod.mk.injEq] at he
    obtain ⟨h1, h2⟩ := he
    subst h1; subst h2
    exact ⟨[], rfl, Or.inl rfl, fun w hw => by
      simpa using jnumExp_empty w (fun c t he => ⟨(hw c t he).2.1, (hw c t he).2.2⟩)⟩
  cases l with
  | nil =>
    rw [jnumExp.eq_def] at h
    dsimp only at h
    exact hCnil h
  | cons c r3 =>
    rw [jnumExp.eq_def] at h
    dsimp only at h
    by_cases hce : (c = 'e' || c = 'E') = true
    · rw [if_pos hce] at h
      have hceP : c = 'e' ∨ c = 'E' := by
        rcases Bool.or_eq_true_iff.mp hce with h' | h'
        · exact Or.inl (by simpa using h')
        · exact Or.inr (by simpa using h')
      rcases r3 with _ | ⟨c3, t3⟩
      · rw [show signSplit ([] : List Char) = (false, []) from rfl] at h
        simp only [List.takeWhile_nil, if_pos rfl] at h
        exact hCnil h
      · by_cases h3p : c3 = '+'
        · subst h3p
          rw [show signSplit ('+' :: t3) = (false, t3) from rfl] at h
          dsimp only at h
          by_cases hgs : t3.takeWhile isDig = []
          · rw [if_pos hgs] at h
            exact hCnil h
          · rw [if_neg hgs] at h
            simp only [Prod.mk.injEq] at h
            obtain ⟨h1, h2⟩ := h
            subst h1; subst h2
            refine ⟨c :: '+' :: t3.takeWhile isDig, by simp, Or.inr ⟨c, _, rfl, hceP⟩,
              fun w hw => ?_⟩
            have h2 := tw_dw_app (t3.takeWhile isDig)
              (fun x hx => List.mem_takeWhile_imp hx) w (fun c t he => (hw c t he).1)
            rw [jnumExp.eq_def]
            simp only [List.cons_append]
            rw [if_pos hce]
            rw [show signSplit ('+' :: (t3.takeWhile isDig ++ w)) =
              (false, t3.takeWhile isDig ++ w) from rfl]
            dsimp only
            rw [h2.1, h2.2, if_neg hgs]
        · by_cases h3m : c3 = '-'
          · subst h3m
            rw [show signSplit ('-' :: t3) = (true, t3) from rfl] at h
            dsimp only at h
            by_cases hgs : t3.takeWhile isDig = []
            · rw [if_pos hgs] at h
              exact hCnil h
            · rw [if_neg hgs] at h
              simp only [Prod.mk.injEq] at h
              obtain ⟨h1, h2⟩ := h
              subst h1; subst h2
              refine ⟨c :: '-' :: t3.takeWhile isDig, by simp, Or.inr ⟨c, _, rfl, hceP⟩,
                fun w hw => ?_⟩
              have h2 := tw_dw_app (t3.takeWhile isDig)
                (fun x hx => List.mem_takeWhile_imp hx) w (fun c t he => (hw c t he).1)
              rw [jnumExp.eq_def]
              simp only [List.cons_append]
              rw [if_pos hce]
              rw [show signSplit ('-' :: (t3.takeWhile isDig ++ w)) =
                (true, t3.takeWhile isDig ++ w) from rfl]
              dsimp only
              rw [h2.1, h2.2, if_neg hgs]
              simp
          · rw [signSplit_no_sign h3p h3m] at h
            dsimp only at h
            by_cases hgs : (c3 :: t3).takeWhile isDig = []
            · rw [if_pos hgs] at h
              exact hCnil h
            · rw [if_neg hgs] at h
              simp only [Prod.mk.injEq] at h
              obtain ⟨h1, h2⟩ := h
              subst h1; subst h2
              refine ⟨c :: (c3 :: t3).takeWhile isDig, by simp,
                Or.inr ⟨c, _, rfl, hceP⟩, fun w hw => ?_⟩
              have h2 := tw_dw_app ((c3 :: t3).takeWhile isDig)
                (fun x hx => List.mem_takeWhile_imp hx) w (fun c t he => (hw c t he).1)
              have htw : (c3 :: t3).takeWhile isDig = c3 :: t3.takeWhile isDig := by
                rw [List.takeWhile_cons]
                by_cases hd3 : isDig c3
                · rw [if_pos hd3]
                · rw [List.takeWhile_cons, if_neg hd3] at hgs
                  exact absurd rfl hgs
              have hd3 : isDig c3 = true := by
                by_cases hd3 : isDig c3
                · exact hd3
                · rw [List.takeWhile_cons, if_neg hd3] at hgs
                  exact absurd rfl hgs
              rw [jnumExp.eq_def]
              simp only [List.cons_append]
              rw [if_pos hce]
              rw [htw]
              simp only [List.cons_append]
              rw [signSplit_no_sign (isDig_facts hd3).1 (isDig_facts hd3).2.1]
              dsimp only
              rw [show c3 :: (List.takeWhile isDig t3 ++ w) =
                (c3 :: List.takeWhile isDig t3) ++ w from rfl, ← htw, h2.1, h2.2, if_neg hgs]
    · rw [if_neg hce] at h
      exact hCnil h

theorem jnumSign_no {c : Char} {t : List Char} (h : c ≠ '-') :
    jnumSign (c :: t) = (false, c :: t) := by
  unfold jnumSign
  split
  · next heq => injection heq with h1 _; exact absurd h1 h
  · rfl

theorem parseJNumber_ext : ∀ {l : List Char} {q : ℚ} {r : List Char},
    parseJNumber l = some (q, r) →
    ∃ C, l = C ++ r ∧ (∃ c0 t0, C = c0 :: t0 ∧ (c0 = '-' ∨ isDig c0 = true)) ∧
    ∀ w, wSafe w → parseJNumber (C ++ w) = some (q, w) := by
  intro l q r h
  have main : ∀ (sg : Bool) (t : List Char), jnumSign l = (sg, t) →
      (sg = true → l = '-' :: t) → (sg = false → l = t) →
      ∃ C, l = C ++ r ∧ (∃ c0 t0, C = c0 :: t0 ∧ (c0 = '-' ∨ isDig c0 = true)) ∧
      ∀ w, wSafe w → parseJNumber (C ++ w) = some (q, w) := by
    intro sg t hsg hT hF
    rw [parseJNumber.eq_def] at h
    rw [hsg] at h
    dsimp only at h
    cases hint : jnumInt t with
    | none => rw [hint] at h; exact absurd h (by simp)
    | some p =>
      obtain ⟨ds, r1⟩ := p
      rw [hint] at h
      dsimp only at h
      rcases hfr : jnumFrac r1 with ⟨fs, r2⟩
      rw [hfr] at h
      dsimp only at h
      rcases hex : jnumExp r2 with ⟨ex, r3⟩
      rw [hex] at h
      dsimp only at h
      simp only [Option.some.injEq, Prod.mk.injEq] at h
      obtain ⟨h1, h2⟩ := h
      subst h1; subst h2
      obtain ⟨hi1, ⟨ci, ti, hds, hdig⟩, hirec⟩ := jnumInt_ext hint
      obtain ⟨Cf, hf1, hfHead, hfrec⟩ := jnumFrac_ext hfr
      obtain ⟨Ce, he1, heHead, herec⟩ := jnumExp_ext hex
      have hwE : ∀ (w : List Char), wSafe w →
          ∀ c t', w = c :: t' → isDig c = false ∧ c ≠ 'e' ∧ c ≠ 'E' := by
        intro w hsafe c t' he
        subst he
        obtain ⟨hd, _, he', hE'⟩ := wSafe_head hsafe
        exact ⟨hd, he', hE'⟩
      have hwF : ∀ (w : List Char), wSafe w →
          ∀ c t', Ce ++ w = c :: t' → isDig c = false ∧ c ≠ '.' := by
        intro w hsafe c t' he
        rcases heHead with rfl | ⟨c0, t0, rfl, hc0⟩
        · simp only [List.nil_append] at he
          subst he
          obtain ⟨hd, hdot, _, _⟩ := wSafe_head hsafe
          exact ⟨hd, hdot⟩
        · rw [List.cons_append] at he
          injection he with hh _
          subst hh
          rcases hc0 with rfl | rfl
          · exact ⟨by decide, by decide⟩
          · exact ⟨by decide, by decide⟩
      have hwI : ∀ (w : List Char), wSafe w →
          ∀ c t', Cf ++ (Ce ++ w) = c :: t' → isDig c = false := by
        intro w hsafe c t' he
        rcases hfHead with rfl | ⟨t0, rfl⟩
        · simp only [List.nil_append] at he
          exact (hwF w hsafe c t' he).1
        · rw [List.cons_append] at he
          injection he with hh _
          subst hh
          decide
      have hrecAll : ∀ w, wSafe w →
          jnumInt (ds ++ (Cf ++ (Ce ++ w))) = some (ds, Cf ++ (Ce ++ w)) ∧
          jnumFrac (Cf ++ (Ce ++ w)) = (fs, Ce ++ w) ∧
          jnumExp (Ce ++ w) = (ex, w) := by
        intro w hsafe
        exact ⟨hirec _ (hwI w hsafe), hfrec _ (hwF w hsafe),
          herec _ (fun c t' he => hwE w hsafe c t' he)⟩
      cases sg with
      | true =>
        have hl := hT rfl
        subst hl
        refine ⟨'-' :: (ds ++ (Cf ++ Ce)), by simp [hi1, hf1, he1], ⟨'-', _, rfl, Or.inl rfl⟩,
          fun w hsafe => ?_⟩
        obtain ⟨hri, hrf, hre⟩ := hrecAll w hsafe
        rw [parseJNumber.eq_def]
        rw [show ('-' :: (ds ++ (Cf ++ Ce))) ++ w = '-' :: (ds ++ (Cf ++ (Ce ++ w))) from by simp]
        rw [show jnumSign ('-' :: (ds ++ (Cf ++ (Ce ++ w)))) =
          (true, ds ++ (Cf ++ (Ce ++ w))) from rfl]
        dsimp only
        rw [hri]
        dsimp only
        rw [hrf]
        dsimp only
        rw [hre]
      | false =>
        have hl := hF rfl
        subst hl
        refine ⟨ds ++ (Cf ++ Ce), by simp [hi1, hf1, he1], ?_, fun w hsafe => ?_⟩
        · subst hds
          exact ⟨ci, _, rfl, Or.inr hdig⟩
        · obtain ⟨hri, hrf, hre⟩ := hrecAll w hsafe
          rw [parseJNumber.eq_def]
          rw [show (ds ++ (Cf ++ Ce)) ++ w = ds ++ (Cf ++ (Ce ++ w)) from by simp]
          have hsignNo : jnumSign (ds ++ (Cf ++ (Ce ++ w))) =
              (false, ds ++ (Cf ++ (Ce ++ w))) := by
            subst hds
            rw [List.cons_append]
            exact jnumSign_no (isDig_facts hdig).2.1
          rw [hsignNo]
          dsimp only
          rw [hri]
          dsimp only
          rw [hrf]
          dsimp only
          rw [hre]
  rcases l with _ | ⟨c, t⟩
  · exact main false [] rfl (by simp) (fun _ => rfl)
  · by_cases hm : c = '-'
    · subst hm
      exact main true t rfl (fun _ => rfl) (by simp)
    · exact main false (c :: t) (jnumSign_no hm) (by simp) (fun _ => rfl)

theorem isDig_not_ws {c : Char} (h : isDig c = true) : jsonWs c = false := by
  cases hw : jsonWs c with
  | false => rfl
  | true =>
    simp only [isDig, Bool.and_eq_true, decide_eq_true_eq] at h
    simp only [jsonWs, Bool.or_eq_true, decide_eq_true_eq] at hw
    omega

theorem numHead_conds {c0 : Char} (h : c0 = '-' ∨ isDig c0 = true) :
    ¬c0 = '"' ∧ ¬c0 = obr ∧ ¬c0 = '[' ∧ ¬c0 = 'n' ∧ ¬c0 = 't' ∧ ¬c0 = 'f' ∧
    ¬c0 = 'N' ∧ ¬c0 = 'I' ∧ (c0 = '-' || isDig c0) = true ∧ jsonWs c0 = false := by
  rcases h with rfl | hd
  · exact ⟨by decide, by decide, by decide, by decide, by decide, by decide, by decide,
      by decide, by decide, by decide⟩
  · refine ⟨?_, ?_, ?_, ?_, ?_, ?_, ?_, ?_, by simp [hd], isDig_not_ws hd⟩ <;>
      (intro he; subst he; exact absurd hd (by decide))

theorem parseVal_quote (g : Nat) (x : List Char) :
    parseVal (g + 1) ('"' :: x) =
      (match parseStrBody x with
        | some (s, r) => some (JValue.str (String.mk s), r)
        | none => none) := rfl

theorem parseVal_obr (g : Nat) (x : List Char) :
    parseVal (g + 1) (obr :: x) = parseObjTail g (skipJWs x) := rfl

theorem parseVal_lbrk (g : Nat) (x : List Char) :
    parseVal (g + 1) ('[' :: x) = parseArrTail g (skipJWs x) := rfl

theorem parseVal_lit_n (g : Nat) (x : List Char) :
    parseVal (g + 1) ('n' :: x) =
      (match dropLit "ull".data x with
        | some r => some (JValue.null, r)
        | none => none) := rfl

theorem parseVal_lit_t (g : Nat) (x : List Char) :
    parseVal (g + 1) ('t' :: x) =
      (match dropLit "rue".data x with
        | some r => some (JValue.bool true, r)
        | none => none) := rfl

theorem parseVal_lit_f (g : Nat) (x : List Char) :
    parseVal (g + 1) ('f' :: x) =
      (match dropLit "alse".data x with
        | some r => some (JValue.bool false, r)
        | none => none) := rfl

theorem parseVal_lit_bigN (g : Nat) (x : List Char) :
    parseVal (g + 1) ('N' :: x) =
      (match dropLit "aN".data x with
        | some r => some (JValue.num JNum.nan, r)
        | none => none) := rfl

theorem parseVal_lit_bigI (g : Nat) (x : List Char) :
    parseVal (g + 1) ('I' :: x) =
      (match dropLit "nfinity".data x with
        | some r => some (JValue.num JNum.inf, r)
        | none => none) := rfl

theorem parseObjTail_cons (g : Nat) (c : Char) (x : List Char) :
    parseObjTail (g + 1) (c :: x) =
      if c = cbr then some (JValue.obj [], x) else parseMembers g (c :: x) [] := rfl

theorem parseArrTail_cons (g : Nat) (c : Char) (x : List Char) :
    parseArrTail (g + 1) (c :: x) =
      if c = ']' then some (JValue.arr [], x) else parseElems g (c :: x) [] := rfl

theorem parseMembers_quote (g : Nat) (x : List Char) (acc : JObj) :
    parseMembers (g + 1) ('"' :: x) acc =
      (match parseStrBody x with
        | some (k, r1) =>
          match skipJWs r1 with
          | ':' :: r3 =>
            (match parseVal g (skipJWs r3) with
              | some (v, r4) =>
                let acc2 := setJ acc (String.mk k) v
                match skipJWs r4 with
                | ',' :: r6 => parseMembers g (skipJWs r6) acc2
                | c :: r6 => if c = cbr then some (JValue.obj acc2, r6) else none
                | [] => none
              | none => none)
          | _ => none
        | none => none) := rfl

theorem parseMembers_quote_colon (g : Nat) (x : List Char) (acc : JObj)
    (k : List Char) (r1 X : List Char)
    (hsb : parseStrBody x = some (k, r1)) (hsk : skipJWs r1 = ':' :: X) :
    parseMembers (g + 1) ('"' :: x) acc =
      (match parseVal g (skipJWs X) with
        | some (v, r4) =>
          match skipJWs r4 with
          | ',' :: r6 => parseMembers g (skipJWs r6) (setJ acc (String.mk k) v)
          | c :: r6 =>
            if c = cbr then some (JValue.obj (setJ acc (String.mk k) v), r6)
            else none
          | [] => none
        | none => none) := by
  rw [parseMembers_quote, hsb]
  try dsimp only
  rw [hsk]
  rfl

theorem parseElems_succ (g : Nat) (l : List Char) (acc : List JValue) :
    parseElems (g + 1) l acc =
      (match parseVal g l with
        | some (v, r1) =>
          match skipJWs r1 with
          | ',' :: r3 => parseElems g (skipJWs r3) (acc ++ [v])
          | c :: r3 => if c = ']' then some (JValue.arr (acc ++ [v]), r3) else none
          | [] => none
        | none => none) := rfl

theorem parseVal_num_eq (g : Nat) (c : Char) (x : List Char)
    (h : c = '-' ∨ isDig c = true) :
    parseVal (g + 1) (c :: x) =
      (match parseJNumber (c :: x) with
        | some (q, r) => some (JValue.num (JNum.fin q), r)
        | none =>
          match dropLit "-Infinity".data (c :: x) with
          | some r => some (JValue.num JNum.ninf, r)
          | none => none) := by
  obtain ⟨h1, h2, h3, h4, h5, h6, h7, h8, h9, _⟩ := numHead_conds h
  rw [parseVal.eq_def]
  try dsimp only
  rw [if_neg h1, if_neg h2, if_neg h3, if_neg h4, if_neg h5, if_neg h6, if_neg h7,
    if_neg h8, if_pos h9]

theorem parseVal_other (g : Nat) (c : Char) (x : List Char)
    (h1 : ¬c = '"') (h2 : ¬c = obr) (h3 : ¬c = '[') (h4 : ¬c = 'n') (h5 : ¬c = 't')
    (h6 : ¬c = 'f') (h7 : ¬c = 'N') (h8 : ¬c = 'I')
    (h9 : (c = '-' || isDig c) = false) :
    parseVal (g + 1) (c :: x) = none := by
  rw [parseVal.eq_def]
  try dsimp only
  rw [if_neg h1, if_neg h2, if_neg h3, if_neg h4, if_neg h5, if_neg h6, if_neg h7,
    if_neg h8, if_neg (by simp [h9])]

theorem parseMembers_not_quote {g : Nat} {c : Char} {x : List Char} {acc : JObj}
    (h : ¬c = '"') : parseMembers (g + 1) (c :: x) acc = none := by
  rw [parseMembers.eq_def]
  try dsimp only
  split
  · next k heq =>
    injection heq with h1 _
    exact absurd h1 h
  · rfl

theorem parser_ext : ∀ fuel : Nat,
    (∀ l v r, parseVal fuel l = some (v, r) → ValP l v r) ∧
    (∀ l v r, parseObjTail fuel l = some (v, r) → ObjTP l v r) ∧
    (∀ l acc v r, parseMembers fuel l acc = some (v, r) → MemP l acc v r) ∧
    (∀ l v r, parseArrTail fuel l = some (v, r) → ArrTP l v r) ∧
    (∀ l acc v r, parseElems fuel l acc = some (v, r) → ElemP l acc v r) := by
  intro fuel
  induction fuel with
  | zero =>
    refine ⟨?_, ?_, ?_, ?_, ?_⟩
    · intro l v r h; exact absurd h (by rw [show parseVal 0 l = none from rfl]; simp)
    · intro l v r h; exact absurd h (by rw [show parseObjTail 0 l = none from rfl]; simp)
    · intro l acc v r h
      exact absurd h (by rw [show parseMembers 0 l acc = none from rfl]; simp)
    · intro l v r h; exact absurd h (by rw [show parseArrTail 0 l = none from rfl]; simp)
    · intro l acc v r h
      exact absurd h (by rw [show parseElems 0 l acc = none from rfl]; simp)
  | succ fuel ih =>
    obtain ⟨ihv, ihot, ihm, ihat, ihe⟩ := ih
    refine ⟨?_, ?_, ?_, ?_, ?_⟩
    · -- parseVal
      intro l v r h
      cases l with
      | nil => rw [parseVal_nil] at h; exact absurd h (by simp)
      | cons c rest =>
        by_cases hq : c = '"'
        · subst hq
          rw [parseVal_quote] at h
          cases hsb : parseStrBody rest with
          | none => rw [hsb] at h; exact absurd h (by simp)
          | some p =>
            obtain ⟨s, r0⟩ := p
            rw [hsb] at h
            simp only [Option.some.injEq, Prod.mk.injEq] at h
            obtain ⟨h1, h2⟩ := h
            subst h1; subst h2
            obtain ⟨Cs, hCs, hsrec⟩ := parseStrBody_ext hsb
            refine ⟨'"' :: Cs, by simp [hCs], ⟨'"', _, rfl, by decide⟩,
              fun o0 hv0 => absurd hv0 (by simp), fun f2 w hf2 hsafe => ?_⟩
            rcases f2 with _ | g
            · omega
            · rw [List.cons_append, parseVal_quote, hsrec w]
        · by_cases hob : c = obr
          · subst hob
            rw [parseVal_obr] at h
            obtain ⟨C1, hC1, ⟨c1, t1, hc1, hws1⟩, ⟨C0, hC0⟩, horec⟩ := ihot _ _ _ h
            have hsp := skipJWs_split rest
            refine ⟨obr :: (rest.takeWhile jsonWs ++ C1), ?_, ⟨obr, _, rfl, by decide⟩,
              fun o0 _ => ⟨obr :: (rest.takeWhile jsonWs ++ C0), by simp [hC0]⟩,
              fun f2 w hf2 hsafe => ?_⟩
            · conv_lhs => rw [show obr :: rest =
                obr :: (rest.takeWhile jsonWs ++ skipJWs rest) from by rw [← hsp.1], hC1]
              simp
            · rcases f2 with _ | g
              · omega
              · rw [List.cons_append, parseVal_obr]
                have hskip : skipJWs ((rest.takeWhile jsonWs ++ C1) ++ w) =
                    c1 :: (t1 ++ w) := by
                  rw [hc1, show (rest.takeWhile jsonWs ++ c1 :: t1) ++ w =
                    rest.takeWhile jsonWs ++ c1 :: (t1 ++ w) from by simp]
                  exact skipJWs_app hsp.2 c1 (t1 ++ w) hws1
                rw [hskip, ← List.cons_append, ← hc1]
                refine horec g w ?_ hsafe
                have hL : (obr :: (rest.takeWhile jsonWs ++ C1)).length =
                    1 + (rest.takeWhile jsonWs).length + C1.length := by
                  simp [List.length_cons, List.length_append]
                  try omega
                rw [hL] at hf2
                omega
          · by_cases hbk : c = '['
            · subst hbk
              rw [parseVal_lbrk] at h
              obtain ⟨C1, hC1, ⟨c1, t1, hc1, hws1⟩, ⟨es, hes⟩, horec⟩ := ihat _ _ _ h
              have hsp := skipJWs_split rest
              refine ⟨'[' :: (rest.takeWhile jsonWs ++ C1), ?_, ⟨'[', _, rfl, by decide⟩,
                fun o0 hv0 => by simp [hes] at hv0, fun f2 w hf2 hsafe => ?_⟩
              · conv_lhs => rw [show '[' :: rest =
                  '[' :: (rest.takeWhile jsonWs ++ skipJWs rest) from by rw [← hsp.1], hC1]
                simp
              · rcases f2 with _ | g
                · omega
                · rw [List.cons_append, parseVal_lbrk]
                  have hskip : skipJWs ((rest.takeWhile jsonWs ++ C1) ++ w) =
                      c1 :: (t1 ++ w) := by
                    rw [hc1, show (rest.takeWhile jsonWs ++ c1 :: t1) ++ w =
                      rest.takeWhile jsonWs ++ c1 :: (t1 ++ w) from by simp]
                    exact skipJWs_app hsp.2 c1 (t1 ++ w) hws1
                  rw [hskip, ← List.cons_append, ← hc1]
                  refine horec g w ?_ hsafe
                  have hL : ('[' :: (rest.takeWhile jsonWs ++ C1)).length =
                      1 + (rest.takeWhile jsonWs).length + C1.length := by
                    simp [List.length_cons, List.length_append]
                    try omega
                  rw [hL] at hf2
                  omega
            · by_cases hln : c = 'n'
              · subst hln
                rw [parseVal_lit_n] at h
                cases hdl : dropLit "ull".data rest with
                | none => rw [hdl] at h; exact absurd h (by simp)
                | some r0 =>
                  rw [hdl] at h
                  simp only [Option.some.injEq, Prod.mk.injEq] at h
                  obtain ⟨h1, h2⟩ := h
                  subst h1; subst h2
                  have hrest := dropLit_some hdl
                  refine ⟨'n' :: "ull".data, by simp [hrest], ⟨'n', _, rfl, by decide⟩,
                    fun o0 hv0 => absurd hv0 (by simp), fun f2 w hf2 hsafe => ?_⟩
                  rcases f2 with _ | g
                  · omega
                  · rw [List.cons_append, parseVal_lit_n, dropLit_app]
              · by_cases hlt : c = 't'
                · subst hlt
                  rw [parseVal_lit_t] at h
                  cases hdl : dropLit "rue".data rest with
                  | none => rw [hdl] at h; exact absurd h (by simp)
                  | some r0 =>
                    rw [hdl] at h
                    simp only [Option.some.injEq, Prod.mk.injEq] at h
                    obtain ⟨h1, h2⟩ := h
                    subst h1; subst h2
                    have hrest := dropLit_some hdl
                    refine ⟨'t' :: "rue".data, by simp [hrest], ⟨'t', _, rfl, by decide⟩,
                      fun o0 hv0 => absurd hv0 (by simp), fun f2 w hf2 hsafe => ?_⟩
                    rcases f2 with _ | g
                    · omega
                    · rw [List.cons_append, parseVal_lit_t, dropLit_app]
                · by_cases hlf : c = 'f'
                  · subst hlf
                    rw [parseVal_lit_f] at h
                    cases hdl : dropLit "alse".data rest with
                    | none => rw [hdl] at h; exact absurd h (by simp)
                    | some r0 =>
                      rw [hdl] at h
                      simp only [Option.some.injEq, Prod.mk.injEq] at h
                      obtain ⟨h1, h2⟩ := h
                      subst h1; subst h2
                      have hrest := dropLit_some hdl
                      refine ⟨'f' :: "alse".data, by simp [hrest],
                        ⟨'f', _, rfl, by decide⟩,
                        fun o0 hv0 => absurd hv0 (by simp), fun f2 w hf2 hsafe => ?_⟩
                      rcases f2 with _ | g
                      · omega
                      · rw [List.cons_append, parseVal_lit_f, dropLit_app]
                  · by_cases hlN : c = 'N'
                    · subst hlN
                      rw [parseVal_lit_bigN] at h
                      cases hdl : dropLit "aN".data rest with
                      | none => rw [hdl] at h; exact absurd h (by simp)
                      | some r0 =>
                        rw [hdl] at h
                        simp only [Option.some.injEq, Prod.mk.injEq] at h
                        obtain ⟨h1, h2⟩ := h
                        subst h1; subst h2
                        have hrest := dropLit_some hdl
                        refine ⟨'N' :: "aN".data, by simp [hrest],
                          ⟨'N', _, rfl, by decide⟩,
                          fun o0 hv0 => absurd hv0 (by simp), fun f2 w hf2 hsafe => ?_⟩
                        rcases f2 with _ | g
                        · omega
                        · rw [List.cons_append, parseVal_lit_bigN, dropLit_app]
                    · by_cases hlI : c = 'I'
                      · subst hlI
                        rw [parseVal_lit_bigI] at h
                        cases hdl : dropLit "nfinity".data rest with
                        | none => rw [hdl] at h; exact absurd h (by simp)
                        | some r0 =>
                          rw [hdl] at h
                          simp only [Option.some.injEq, Prod.mk.injEq] at h
                          obtain ⟨h1, h2⟩ := h
                          subst h1; subst h2
                          have hrest := dropLit_some hdl
                          refine ⟨'I' :: "nfinity".data, by simp [hrest],
                            ⟨'I', _, rfl, by decide⟩,
                            fun o0 hv0 => absurd hv0 (by simp),
                            fun f2 w hf2 hsafe => ?_⟩
                          rcases f2 with _ | g
                          · omega
                          · rw [List.cons_append, parseVal_lit_bigI, dropLit_app]
                      · by_cases hnum : (c = '-' || isDig c) = true
                        · have hnd : c = '-' ∨ isDig c = true := by
                            rcases Bool.or_eq_true_iff.mp hnum with h' | h'
                            · exact Or.inl (by simpa using h')
                            · exact Or.inr h'
                          rw [parseVal_num_eq fuel c rest hnd] at h
                          cases hpn : parseJNumber (c :: rest) with
                          | some p =>
                            obtain ⟨q, r0⟩ := p
                            rw [hpn] at h
                            simp only [Option.some.injEq, Prod.mk.injEq] at h
                            obtain ⟨h1, h2⟩ := h
                            subst h1; subst h2
                            obtain ⟨Cn, hCn, ⟨c0, t0, hc0eq, hc0⟩, hnrec⟩ :=
                              parseJNumber_ext hpn
                            refine ⟨Cn, hCn, ⟨c0, t0, hc0eq,
                              (numHead_conds hc0).2.2.2.2.2.2.2.2.2⟩,
                              fun o0 hv0 => absurd hv0 (by simp),
                              fun f2 w hf2 hsafe => ?_⟩
                            rcases f2 with _ | g
                            · omega
                            · rw [hc0eq, List.cons_append,
                                parseVal_num_eq g c0 (t0 ++ w) hc0,
                                ← List.cons_append, ← hc0eq, hnrec w hsafe]
                          | none =>
                            rw [hpn] at h
                            cases hdl : dropLit "-Infinity".data (c :: rest) with
                            | none => rw [hdl] at h; exact absurd h (by simp)
                            | some r0 =>
                              rw [hdl] at h
                              simp only [Option.some.injEq, Prod.mk.injEq] at h
                              obtain ⟨h1, h2⟩ := h
                              subst h1; subst h2
                              have hsplit2 := dropLit_some hdl
                              refine ⟨"-Infinity".data, hsplit2,
                                ⟨'-', "Infinity".data, rfl, by decide⟩,
                                fun o0 hv0 => absurd hv0 (by simp),
                                fun f2 w hf2 hsafe => ?_⟩
                              rcases f2 with _ | g
                              · omega
                              · rw [show ("-Infinity".data ++ w) =
                                  '-' :: ("Infinity".data ++ w) from rfl]
                                rw [parseVal_num_eq g '-' _ (Or.inl rfl)]
                                rw [show parseJNumber ('-' :: ("Infinity".data ++ w)) =
                                  none from rfl]
                                rw [show '-' :: ("Infinity".data ++ w) =
                                  "-Infinity".data ++ w from rfl, dropLit_app]
                        · have h9 : (c = '-' || isDig c) = false := by
                            revert hnum
                            cases (c = '-' || isDig c) <;> simp
                          rw [parseVal_other fuel c rest hq hob hbk hln hlt hlf hlN
                            hlI h9] at h
                          exact absurd h (by simp)
    · -- parseObjTail
      intro l v r h
      cases l with
      | nil => rw [parseObjTail_nil] at h; exact absurd h (by simp)
      | cons c rest =>
        rw [parseObjTail_cons] at h
        by_cases hc : c = cbr
        · subst hc
          rw [if_pos rfl] at h
          simp only [Option.some.injEq, Prod.mk.injEq] at h
          obtain ⟨h1, h2⟩ := h
          subst h1; subst h2
          refine ⟨[cbr], rfl, ⟨cbr, [], rfl, by decide⟩, ⟨[], rfl⟩,
            fun f2 w hf2 hsafe => ?_⟩
          rcases f2 with _ | g
          · omega
          · rw [List.cons_append, List.nil_append, parseObjTail_cons, if_pos rfl]
        · rw [if_neg hc] at h
          obtain ⟨Cm, hCm, ⟨t0, hq0⟩, hcbr, hmrec⟩ := ihm _ _ _ _ h
          refine ⟨Cm, hCm, ⟨'"', t0, hq0, by decide⟩, hcbr, fun f2 w hf2 hsafe => ?_⟩
          rcases f2 with _ | g
          · omega
          · rw [hq0, List.cons_append, parseObjTail_cons,
              if_neg (by decide : ¬('"' : Char) = cbr), ← List.cons_append, ← hq0]
            exact hmrec g w (by omega) hsafe
    · -- parseMembers
      intro l acc v r h
      cases l with
      | nil =>
        rw [show parseMembers (fuel + 1) [] acc = none from rfl] at h
        exact absurd h (by simp)
      | cons c rest =>
        by_cases hq : c = '"'
        · subst hq
          rw [parseMembers_quote] at h
          cases hsb : parseStrBody rest with
          | none => rw [hsb] at h; exact absurd h (by simp)
          | some p =>
            obtain ⟨k, r1⟩ := p
            rw [hsb] at h
            try dsimp only at h
            split at h
            · next x0 r3 heq =>
              cases hpv : parseVal fuel (skipJWs r3) with
              | none => rw [hpv] at h; exact absurd h (by simp)
              | some p2 =>
                obtain ⟨v0, r4⟩ := p2
                rw [hpv] at h
                try dsimp only at h
                obtain ⟨Cs, hCs, hsrec⟩ := parseStrBody_ext hsb
                obtain ⟨twA, hA, hAws⟩ := skipJWs_decomp heq
                obtain ⟨Cv, hCv, ⟨c1, t1, hc1, hws1⟩, hobjv, hvrec⟩ := ihv _ _ _ hpv
                obtain ⟨twB, hB, hBws⟩ := skipJWs_decomp hCv
                split at h
                · next x1 r6 heqc =>
                  obtain ⟨twC, hC, hCws⟩ := skipJWs_decomp heqc
                  obtain ⟨Cm2, hCm2, ⟨t20, hq2⟩, hcbr2, hmrec2⟩ := ihm _ _ _ _ h
                  obtain ⟨twD, hD, hDws⟩ := skipJWs_decomp hCm2
                  refine ⟨'"' :: (Cs ++ (twA ++ (':' :: (twB ++ (Cv ++ (twC ++
                    (',' :: (twD ++ Cm2)))))))), ?_, ⟨_, rfl⟩, ?_,
                    fun f2 w hf2 hsafe => ?_⟩
                  · rw [hCs, hA, hB, hC, hD]
                    simp
                  · obtain ⟨C0, hC0⟩ := hcbr2
                    exact ⟨'"' :: (Cs ++ (twA ++ (':' :: (twB ++ (Cv ++ (twC ++
                      (',' :: (twD ++ C0)))))))), by rw [hC0]; simp⟩
                  · rcases f2 with _ | g
                    · omega
                    · have hlen : ('"' :: (Cs ++ (twA ++ (':' :: (twB ++ (Cv ++ (twC ++
                          (',' :: (twD ++ Cm2))))))))).length =
                          Cs.length + twA.length + twB.length + Cv.length + twC.length +
                          twD.length + Cm2.length + 3 := by
                        simp [List.length_append, List.length_cons]
                        try omega
                      rw [hlen] at hf2
                      rw [show ('"' :: (Cs ++ (twA ++ (':' :: (twB ++ (Cv ++ (twC ++
                        (',' :: (twD ++ Cm2))))))))) ++ w =
                        '"' :: ((Cs ++ (twA ++ (':' :: (twB ++ (Cv ++ (twC ++
                        (',' :: (twD ++ (Cm2 ++ w))))))))))
                        from by simp]
                      rw [parseMembers_quote_colon g _ acc k _ _
                        (hsrec (twA ++ (':' :: (twB ++ (Cv ++ (twC ++
                          (',' :: (twD ++ (Cm2 ++ w)))))))))
                        (skipJWs_app hAws ':' _ (by decide))]
                      rw [show twB ++ (Cv ++ (twC ++ (',' :: (twD ++ (Cm2 ++ w))))) =
                        twB ++ (c1 :: (t1 ++ (twC ++ (',' :: (twD ++ (Cm2 ++ w))))))
                        from by rw [hc1]; simp]
                      rw [skipJWs_app hBws c1 _ hws1]
                      rw [← List.cons_append, ← hc1]
                      have hw3 : wSafe (twC ++ (',' :: (twD ++ (Cm2 ++ w)))) := by
                        cases twC with
                        | nil => exact Or.inr ⟨',', twD ++ (Cm2 ++ w), by simp,
                            Or.inr (Or.inr (Or.inl rfl))⟩
                        | cons a as =>
                          refine Or.inr ⟨a, as ++ (',' :: (twD ++ (Cm2 ++ w))), by simp,
                            Or.inr (Or.inr (Or.inr ?_))⟩
                          exact hCws a (by simp)
                      rw [hvrec g _ (by omega) hw3]
                      try dsimp only
                      rw [skipJWs_app hCws ',' _ (by decide)]
                      show parseMembers g (skipJWs (twD ++ (Cm2 ++ w)))
                        (setJ acc (String.mk k) v0) = some (v, w)
                      rw [show twD ++ (Cm2 ++ w) = twD ++ ('"' :: (t20 ++ w)) from by
                        rw [hq2]; simp]
                      rw [skipJWs_app hDws '"' _ (by decide)]
                      rw [← List.cons_append, ← hq2]
                      exact hmrec2 g w (by omega) hsafe
                · next x1 c2 r6 hnc heqc =>
                  by_cases hcb : c2 = cbr
                  · subst hcb
                    rw [if_pos rfl] at h
                    simp only [Option.some.injEq, Prod.mk.injEq] at h
                    obtain ⟨h1, h2⟩ := h
                    subst h1; subst h2
                    obtain ⟨twC, hC, hCws⟩ := skipJWs_decomp heqc
                    refine ⟨'"' :: (Cs ++ (twA ++ (':' :: (twB ++ (Cv ++ (twC ++
                      [cbr])))))), ?_, ⟨_, rfl⟩,
                      ⟨'"' :: (Cs ++ (twA ++ (':' :: (twB ++ (Cv ++ twC))))), by simp⟩,
                      fun f2 w hf2 hsafe => ?_⟩
                    · rw [hCs, hA, hB, hC]
                      simp
                    · rcases f2 with _ | g
                      · omega
                      · have hlen : ('"' :: (Cs ++ (twA ++ (':' :: (twB ++ (Cv ++ (twC ++
                            [cbr]))))))).length =
                            Cs.length + twA.length + twB.length + Cv.length +
                            twC.length + 3 := by
                          simp [List.length_append, List.length_cons]
                          try omega
                        rw [hlen] at hf2
                        rw [show ('"' :: (Cs ++ (twA ++ (':' :: (twB ++ (Cv ++ (twC ++
                          [cbr]))))))) ++ w =
                          '"' :: ((Cs ++ (twA ++ (':' :: (twB ++ (Cv ++ (twC ++
                          (cbr :: w)))))))) from by simp]
                        rw [parseMembers_quote_colon g _ acc k _ _
                          (hsrec (twA ++ (':' :: (twB ++ (Cv ++ (twC ++ (cbr :: w)))))))
                          (skipJWs_app hAws ':' _ (by decide))]
                        rw [show twB ++ (Cv ++ (twC ++ (cbr :: w))) =
                          twB ++ (c1 :: (t1 ++ (twC ++ (cbr :: w))))
                          from by rw [hc1]; simp]
                        rw [skipJWs_app hBws c1 _ hws1]
                        rw [← List.cons_append, ← hc1]
                        have hw3 : wSafe (twC ++ (cbr :: w)) := by
                          cases twC with
                          | nil => exact Or.inr ⟨cbr, w, by simp, Or.inl rfl⟩
                          | cons a as =>
                            refine Or.inr ⟨a, as ++ (cbr :: w), by simp,
                              Or.inr (Or.inr (Or.inr ?_))⟩
                            exact hCws a (by simp)
                        rw [hvrec g _ (by omega) hw3]
                        try dsimp only
                        rw [skipJWs_app hCws cbr _ (by decide)]
                        rfl
                  · rw [if_neg hcb] at h
                    exact absurd h (by simp)
                · exact absurd h (by simp)
            · exact absurd h (by simp)
        · rw [parseMembers_not_quote hq] at h
          exact absurd h (by simp)
    · -- parseArrTail
      intro l v r h
      cases l with
      | nil => rw [parseArrTail_nil] at h; exact absurd h (by simp)
      | cons c rest =>
        rw [parseArrTail_cons] at h
        by_cases hc : c = ']'
        · subst hc
          rw [if_pos rfl] at h
          simp only [Option.some.injEq, Prod.mk.injEq] at h
          obtain ⟨h1, h2⟩ := h
          subst h1; subst h2
          refine ⟨[']'], rfl, ⟨']', [], rfl, by decide⟩, ⟨[], rfl⟩,
            fun f2 w hf2 hsafe => ?_⟩
          rcases f2 with _ | g
          · omega
          · rw [List.cons_append, List.nil_append, parseArrTail_cons, if_pos rfl]
        · rw [if_neg hc] at h
          obtain ⟨Ce, hCe, ⟨c1, t1, hc1, hws1⟩, hshape, herec⟩ := ihe _ _ _ _ h
          have hc1c : c1 = c := by
            have hCe2 := hCe
            rw [hc1, List.cons_append] at hCe2
            injection hCe2 with h1 _
            exact h1.symm
          refine ⟨Ce, hCe, ⟨c1, t1, hc1, hws1⟩, hshape, fun f2 w hf2 hsafe => ?_⟩
          rcases f2 with _ | g
          · omega
          · rw [hc1, List.cons_append, parseArrTail_cons,
              if_neg (show ¬c1 = ']' from by rw [hc1c]; exact hc),
              ← List.cons_append, ← hc1]
            exact herec g w (by omega) hsafe
    · -- parseElems
      intro l acc v r h
      rw [parseElems_succ] at h
      cases hv0 : parseVal fuel l with
      | none => rw [hv0] at h; exact absurd h (by simp)
      | some p =>
        obtain ⟨v0, r1⟩ := p
        rw [hv0] at h
        try dsimp only at h
        obtain ⟨Cv, hCv, ⟨c1, t1, hc1, hws1⟩, hobjv, hvrec⟩ := ihv _ _ _ hv0
        split at h
        · next x1 r6 heq =>
          obtain ⟨twA, hA, hAws⟩ := skipJWs_decomp heq
          obtain ⟨Ce2, hCe2, ⟨c3, t3, hc3, hws3⟩, hshape2, herec2⟩ := ihe _ _ _ _ h
          obtain ⟨twB, hB, hBws⟩ := skipJWs_decomp hCe2
          refine ⟨Cv ++ (twA ++ (',' :: (twB ++ Ce2))),
            ?_, ⟨c1, t1 ++ (twA ++ (',' :: (twB ++ Ce2))),
              by rw [hc1]; simp, hws1⟩, hshape2, fun f2 w hf2 hsafe => ?_⟩
          · rw [hCv, hA, hB]
            simp
          · rcases f2 with _ | g
            · omega
            · have hlen : (Cv ++ (twA ++ (',' :: (twB ++ Ce2)))).length =
                  Cv.length + twA.length + 1 + twB.length + Ce2.length := by
                simp [List.length_append, List.length_cons]
                try omega
              rw [hlen] at hf2
              rw [parseElems_succ]
              have hw1 : wSafe (twA ++ (',' :: ((twB ++ Ce2) ++ w))) := by
                cases twA with
                | nil =>
                  exact Or.inr ⟨',', (twB ++ Ce2) ++ w, by simp,
                    Or.inr (Or.inr (Or.inl rfl))⟩
                | cons a as =>
                  refine Or.inr ⟨a, as ++ (',' :: ((twB ++ Ce2) ++ w)), by simp,
                    Or.inr (Or.inr (Or.inr ?_))⟩
                  exact hAws a (by simp)
              rw [show (Cv ++ (twA ++ (',' :: (twB ++ Ce2)))) ++ w =
                Cv ++ (twA ++ (',' :: ((twB ++ Ce2) ++ w))) from by simp]
              rw [hvrec g _ (by omega) hw1]
              try dsimp only
              rw [skipJWs_app hAws ',' _ (by decide)]
              show parseElems g (skipJWs ((twB ++ Ce2) ++ w)) (acc ++ [v0]) =
                some (v, w)
              rw [show (twB ++ Ce2) ++ w = twB ++ (c3 :: (t3 ++ w)) from by
                rw [hc3]; simp]
              rw [skipJWs_app hBws c3 _ hws3]
              rw [← List.cons_append, ← hc3]
              exact herec2 g w (by omega) hsafe
        · next x1 c2 r6 hnc heq =>
          by_cases hrb : c2 = ']'
          · subst hrb
            rw [if_pos rfl] at h
            simp only [Option.some.injEq, Prod.mk.injEq] at h
            obtain ⟨h1, h2⟩ := h
            subst h1; subst h2
            obtain ⟨twA, hA, hAws⟩ := skipJWs_decomp heq
            refine ⟨Cv ++ (twA ++ [']']), ?_,
              ⟨c1, t1 ++ (twA ++ [']']), by rw [hc1]; simp, hws1⟩,
              ⟨acc ++ [v0], rfl⟩, fun f2 w hf2 hsafe => ?_⟩
            · rw [hCv, hA]
              simp
            · rcases f2 with _ | g
              · omega
              · have hlen : (Cv ++ (twA ++ [']'])).length =
                    Cv.length + twA.length + 1 := by
                  simp [List.length_append, List.length_cons]
                  try omega
                rw [hlen] at hf2
                rw [parseElems_succ]
                have hw1 : wSafe (twA ++ (']' :: w)) := by
                  cases twA with
                  | nil => exact Or.inr ⟨']', w, by simp, Or.inr (Or.inl rfl)⟩
                  | cons a as =>
                    refine Or.inr ⟨a, as ++ (']' :: w), by simp,
                      Or.inr (Or.inr (Or.inr ?_))⟩
                    exact hAws a (by simp)
                rw [show (Cv ++ (twA ++ [']'])) ++ w =
                  Cv ++ (twA ++ (']' :: w)) from by simp]
                rw [hvrec g _ (by omega) hw1]
                try dsimp only
                rw [skipJWs_app hAws ']' _ (by decide)]
                rfl
          · rw [if_neg hrb] at h
            exact absurd h (by simp)
        · exact absurd h (by simp)

theorem parseVal_ext {fuel : Nat} {l : List Char} {v : JValue} {r : List Char}
    (h : parseVal fuel l = some (v, r)) : ValP l v r :=
  (parser_ext fuel).1 _ _ _ h

theorem head_dropWhile_false {p : Char → Bool} {l : List Char} {c : Char}
    {t : List Char} (h : l.dropWhile p = c :: t) : p c = false := by
  have := List.head?_dropWhile_not p l
  rw [h] at this
  simpa using this

theorem dropWhile_all_app {p : Char → Bool} :
    ∀ (a b : List Char), (∀ c ∈ a, p c = true) →
    (a ++ b).dropWhile p = b.dropWhile p := by
  intro a
  induction a with
  | nil => intro b _; rfl
  | cons x xs ih =>
    intro b ha
    rw [List.cons_append, List.dropWhile_cons, if_pos (ha x (by simp))]
    exact ih b (fun c hc => ha c (by simp [hc]))

theorem parseVal_head_not_uniWs : ∀ {fuel : Nat} {c : Char} {rest : List Char}
    {x : JValue × List Char}, parseVal fuel (c :: rest) = some x → uniWs c = false := by
  intro fuel c rest x h
  cases fuel with
  | zero => exact absurd h (by rw [show parseVal 0 (c :: rest) = none from rfl]; simp)
  | succ g =>
    by_cases h1 : c = '"'
    · subst h1; decide
    · by_cases h2 : c = obr
      · subst h2; decide
      · by_cases h3 : c = '['
        · subst h3; decide
        · by_cases h4 : c = 'n'
          · subst h4; decide
          · by_cases h5 : c = 't'
            · subst h5; decide
            · by_cases h6 : c = 'f'
              · subst h6; decide
              · by_cases h7 : c = 'N'
                · subst h7; decide
                · by_cases h8 : c = 'I'
                  · subst h8; decide
                  · by_cases h9 : (c = '-' || isDig c) = true
                    · rcases Bool.or_eq_true_iff.mp h9 with h' | h'
                      · have : c = '-' := by simpa using h'
                        subst this; decide
                      · cases hu : uniWs c with
                        | false => rfl
                        | true =>
                          simp only [isDig, Bool.and_eq_true, decide_eq_true_eq] at h'
                          simp only [uniWs, Bool.or_eq_true, Bool.and_eq_true,
                            decide_eq_true_eq] at hu
                          omega
                    · have h9' : (c = '-' || isDig c) = false := by
                        revert h9; cases (c = '-' || isDig c) <;> simp
                      rw [parseVal_other g c rest h1 h2 h3 h4 h5 h6 h7 h8 h9'] at h
                      exact absurd h (by simp)

theorem parseVal_backtick (fuel : Nat) (x : List Char) :
    parseVal fuel ('`' :: x) = none := by
  cases fuel with
  | zero => rfl
  | succ g =>
    exact parseVal_other g '`' x (by decide) (by decide) (by decide) (by decide)
      (by decide) (by decide) (by decide) (by decide) (by decide)

theorem lstripL_eq_skipJWs {j : List Char}
    (hhd : ∀ c t, skipJWs j = c :: t → uniWs c = false) :
    lstripL j = skipJWs j := by
  induction j with
  | nil => rfl
  | cons a as ih =>
    by_cases hja : jsonWs a = true
    · have hua : uniWs a = true := jsonWs_uniWs hja
      have e1 : skipJWs (a :: as) = skipJWs as := by
        rw [skipJWs, List.dropWhile_cons, if_pos hja]; rfl
      have e2 : lstripL (a :: as) = lstripL as := by
        rw [lstripL, List.dropWhile_cons, if_pos hua]; rfl
      rw [e1, e2]
      exact ih (fun c t hct => hhd c t (by rw [e1, hct]))
    · have hja' : jsonWs a = false := by
        revert hja; cases jsonWs a <;> simp
      have e1 : skipJWs (a :: as) = a :: as := by
        rw [skipJWs, List.dropWhile_cons, if_neg (by simp [hja'])]
      have hua : uniWs a = false := hhd a as e1
      rw [e1, lstripL, List.dropWhile_cons, if_neg (by simp [hua])]

theorem rstripL_ws_suffix {C r : List Char} (hr : ∀ c ∈ r, uniWs c = true)
    {C0 : List Char} (hC : C = C0 ++ [cbr]) : rstripL (C ++ r) = C := by
  rw [rstripL, List.reverse_append,
    dropWhile_all_app r.reverse C.reverse (fun c hc => hr c (by simpa using hc)),
    hC, List.reverse_append]
  simp only [List.reverse_cons, List.reverse_nil, List.nil_append, List.singleton_append]
  rw [List.dropWhile_cons, if_neg (by decide)]
  simp

theorem jloads_strip {j : List Char} {o : JObj}
    (h : jloadsL j = some (JValue.obj o)) : jloadsL (stripL j) = some (JValue.obj o) := by
  rw [jloadsL] at h
  cases hpv : parseVal (3 * j.length + 3) (skipJWs j) with
  | none => rw [hpv] at h; exact absurd h (by simp)
  | some p =>
    obtain ⟨v, r⟩ := p
    rw [hpv] at h
    try dsimp only at h
    by_cases hr : skipJWs r = []
    · rw [if_pos hr] at h
      simp only [Option.some.injEq] at h
      subst h
      obtain ⟨C, hC, ⟨c1, t1, hc1, hws1⟩, hobj, hrec⟩ := parseVal_ext hpv
      obtain ⟨C0, hC0⟩ := hobj o rfl
      have hrws : ∀ c ∈ r, jsonWs c = true := by
        rw [skipJWs] at hr
        exact List.dropWhile_eq_nil_iff.mp hr
      have hstrip : stripL j = C := by
        have hls : lstripL j = skipJWs j := by
          refine lstripL_eq_skipJWs (fun c t hct => ?_)
          rw [hC] at hct
          rw [hc1, List.cons_append] at hct
          injection hct with hx1 _
          subst hx1
          exact parseVal_head_not_uniWs (hc1 ▸ hC ▸ hpv)
        rw [stripL, hls, hC]
        exact rstripL_ws_suffix (fun c hc => jsonWs_uniWs (hrws c hc)) hC0
      rw [hstrip, jloadsL]
      have hskipC : skipJWs C = C := by
        rw [hc1, skipJWs, List.dropWhile_cons, if_neg (by simp [hws1])]
      rw [hskipC]
      have := hrec (3 * C.length + 3) [] (le_refl _) (Or.inl rfl)
      rw [List.append_nil] at this
      rw [this]
      rfl
    · rw [if_neg hr] at h
      exact absurd h (by simp)

theorem dropLit3_bt : ∀ {l sfx : List Char}, startsWithL "```".data l = false →
    dropLit "```".data (l ++ '\n' :: sfx) = none := by
  intro l sfx h
  rcases l with _ | ⟨a, _ | ⟨b, _ | ⟨c, t⟩⟩⟩
  · rfl
  · simp [dropLit]
  · simp [dropLit]
  · by_cases h1 : ('`' : Char) = a
    · by_cases h2 : ('`' : Char) = b
      · by_cases h3 : ('`' : Char) = c
        · rw [← h1, ← h2, ← h3] at h
          simp [startsWithL] at h
        · simp [dropLit, h1, h2, h3]
      · simp [dropLit, h1, h2]
    · simp [dropLit, h1]

theorem startsWith_bt_app : ∀ {l : List Char}, startsWithL "```".data l = false →
    startsWithL "```".data (l ++ ['\n']) = false := by
  intro l h
  rcases l with _ | ⟨a, _ | ⟨b, _ | ⟨c, t⟩⟩⟩
  · simp [startsWithL]
  · simp only [List.cons_append, List.nil_append]
    simp [startsWithL]
  · simp only [List.cons_append, List.nil_append]
    simp [startsWithL]
  · simpa [startsWithL] using h

theorem no_trip_cons {c : Char} {t : List Char}
    (h : containsSub "```".data (c :: t) = false) :
    startsWithL "```".data (c :: t) = false ∧ containsSub "```".data t = false := by
  rw [containsSub] at h
  exact ⟨by revert h; cases startsWithL "```".data (c :: t) <;> simp,
    by revert h; cases containsSub "```".data t <;> simp⟩

theorem no_trip_dropWhile {p : Char → Bool} : ∀ {l : List Char},
    containsSub "```".data l = false → containsSub "```".data (l.dropWhile p) = false := by
  intro l
  induction l with
  | nil => intro h; exact h
  | cons a as ih =>
    intro h
    obtain ⟨_, h2⟩ := no_trip_cons h
    rw [List.dropWhile_cons]
    by_cases hp : p a = true
    · rw [if_pos hp]
      exact ih h2
    · rw [if_neg hp]
      exact h

theorem no_trip_app_nl : ∀ {l : List Char}, containsSub "```".data l = false →
    containsSub "```".data (l ++ ['\n']) = false := by
  intro l
  induction l with
  | nil => intro _; decide
  | cons a as ih =>
    intro h
    obtain ⟨h1, h2⟩ := no_trip_cons h
    rw [List.cons_append, containsSub]
    rw [show (a :: (as ++ ['\n'])) = (a :: as) ++ ['\n'] from by simp]
    rw [startsWith_bt_app h1]
    simpa using ih h2

theorem matchFenceA_none {l sfx : List Char}
    (h : startsWithL "```".data l = false) :
    matchFenceA (l ++ '\n' :: sfx) = none := by
  rw [matchFenceA, dropLit3_bt h]

theorem subAGo_scan : ∀ (l : List Char) (fuel : Nat),
    containsSub "```".data l = false → l.length + 2 ≤ fuel →
    subAGo fuel (l ++ '\n' :: "```".data) = l ++ ['\n'] := by
  intro l
  induction l with
  | nil =>
    intro fuel _ hfuel
    rcases fuel with _ | _ | f
    · omega
    · omega
    · show '\n' :: subAGo f [] = [] ++ ['\n']
      rw [show subAGo f [] = [] from by cases f <;> rfl]
      rfl
  | cons c t ih =>
    intro fuel h hfuel
    obtain ⟨h1, h2⟩ := no_trip_cons h
    rcases fuel with _ | f
    · omega
    · have hm : matchFenceA (c :: (t ++ '\n' :: "```".data)) = none := by
        rw [show c :: (t ++ '\n' :: "```".data) = (c :: t) ++ '\n' :: "```".data
          from by simp]
        exact matchFenceA_none h1
      rw [List.cons_append, subAGo.eq_def]
      try dsimp only
      rw [hm]
      try dsimp only
      rw [ih f h2 (by simp at hfuel ⊢; omega)]
      rfl

theorem dropWhile_app_pos {p : Char → Bool} : ∀ {a : List Char} {b c t},
    a.dropWhile p = c :: t → (a ++ b).dropWhile p = c :: (t ++ b) := by
  intro a
  induction a with
  | nil => intro b c t h; simp at h
  | cons x xs ih =>
    intro b c t h
    rw [List.dropWhile_cons] at h
    by_cases hp : p x = true
    · rw [if_pos hp] at h
      rw [List.cons_append, List.dropWhile_cons, if_pos hp]
      exact ih h
    · rw [if_neg hp] at h
      injection h with h1 h2
      subst h1
      rw [List.cons_append, List.dropWhile_cons, if_neg hp, h2]

theorem matchFenceA_fence {tag : Bool} {j : List Char} {c0 : Char} {t0 : List Char}
    (hdw : j.dropWhile uniWs = c0 :: t0) :
    matchFenceA (fenceWrap tag j) =
      some ((c0 :: t0) ++ '\n' :: "```".data) := by
  have hx : fenceWrap tag j = "```".data ++ ((if tag then "json".data else []) ++
      ('\n' :: (j ++ ('\n' :: "```".data)))) := by
    rw [fenceWrap]
    simp [List.append_assoc]
  rw [hx, matchFenceA, dropLit_app]
  cases tag with
  | true =>
    rw [if_pos rfl]
    try dsimp only
    rw [dropLit_app]
    try dsimp only
    rw [List.dropWhile_cons, if_pos (by decide)]
    rw [dropWhile_app_pos hdw]
    rfl
  | false =>
    rw [if_neg (by simp)]
    simp only [List.nil_append]
    try dsimp only
    rw [show dropLit "json".data ('\n' :: (j ++ '\n' :: "```".data)) = none from rfl]
    try dsimp only
    rw [List.dropWhile_cons, if_pos (by decide)]
    rw [dropWhile_app_pos hdw]
    rfl

theorem subFenceA_fence {tag : Bool} {j : List Char} {c0 : Char} {t0 : List Char}
    (hnb : containsSub "```".data j = false)
    (hdw : j.dropWhile uniWs = c0 :: t0) :
    subFenceA (fenceWrap tag j) = j.dropWhile uniWs ++ ['\n'] := by
  rw [subFenceA, subAGo.eq_def]
  try dsimp only
  rw [matchFenceA_fence hdw]
  try dsimp only
  have hnb2 : containsSub "```".data (c0 :: t0) = false := by
    rw [← hdw]
    exact no_trip_dropWhile hnb
  have hlen : (c0 :: t0).length ≤ j.length := by
    rw [← hdw]
    exact (List.dropWhile_sublist _).length_le
  rw [subAGo_scan (c0 :: t0) (fenceWrap tag j).length hnb2 ?_]
  · rw [hdw]
  · have : j.length + 5 ≤ (fenceWrap tag j).length := by
      rw [fenceWrap]
      cases tag <;> simp [List.length_append, List.length_cons] <;> omega
    simp only [List.length_cons] at *
    omega

theorem subBGo_no_trip : ∀ (l : List Char) (fuel : Nat),
    containsSub "```".data l = false → subBGo fuel l = l := by
  intro l
  induction l with
  | nil =>
    intro fuel _
    cases fuel with
    | zero => rfl
    | succ f =>
      rw [subBGo]
      rw [if_neg (by decide)]
  | cons c cs ih =>
    intro fuel h
    obtain ⟨h1, h2⟩ := no_trip_cons h
    cases fuel with
    | zero => rfl
    | succ f =>
      rw [subBGo, if_neg (by simp [h1])]
      rw [ih f h2]

theorem subFenceB_no_trip {l : List Char} (h : containsSub "```".data l = false) :
    subFenceB l = l :=
  subBGo_no_trip l (l.length + 1) h

theorem stripL_dropUni_nl (j : List Char) :
    stripL (j.dropWhile uniWs ++ ['\n']) = stripL j := by
  cases hdw : j.dropWhile uniWs with
  | nil =>
    rw [stripL, stripL, lstripL, lstripL]
    rw [show (([] : List Char) ++ ['\n']) = ['\n'] from rfl]
    rw [show List.dropWhile uniWs ['\n'] = [] from by decide]
    rw [hdw]
  | cons c0 t0 =>
    have hc0 : uniWs c0 = false := head_dropWhile_false hdw
    rw [stripL, stripL, lstripL, lstripL]
    rw [show ((c0 :: t0) ++ ['\n']) = c0 :: (t0 ++ ['\n']) from rfl]
    rw [List.dropWhile_cons, if_neg (by simp [hc0])]
    rw [hdw]
    rw [show (c0 :: (t0 ++ ['\n'])) = (c0 :: t0) ++ ['\n'] from rfl]
    rw [rstripL, rstripL, List.reverse_append]
    rw [show List.reverse ['\n'] = ['\n'] from rfl]
    rw [show (['\n'] ++ (c0 :: t0).reverse) = '\n' :: (c0 :: t0).reverse from rfl]
    rw [List.dropWhile_cons, if_pos (by decide)]

theorem fenceWrap_backtick (tag : Bool) (j : List Char) :
    ∃ X, fenceWrap tag j = '`' :: X := by
  cases tag
  · exact ⟨_, rfl⟩
  · exact ⟨_, rfl⟩

theorem jloadsL_fence (tag : Bool) (j : List Char) :
    jloadsL (fenceWrap tag j) = none := by
  obtain ⟨X, hX⟩ := fenceWrap_backtick tag j
  rw [hX, jloadsL]
  rw [show skipJWs ('`' :: X) = '`' :: X from by
    rw [skipJWs, List.dropWhile_cons, if_neg (by decide)]]
  rw [parseVal_backtick]

theorem getJ_setJ_self : ∀ (d : JObj) (k : String) (v : JValue),
    getJ (setJ d k v) k = some v := by
  intro d k v
  induction d with
  | nil => simp [setJ, getJ]
  | cons p rest ih =>
    obtain ⟨k0, v0⟩ := p
    rw [setJ]
    by_cases hk : k0 = k
    · rw [if_pos hk, getJ, if_pos rfl]
    · rw [if_neg hk, getJ, if_neg hk]
      exact ih

theorem getJ_setJ_ne : ∀ (d : JObj) (k k' : String) (v : JValue), k' ≠ k →
    getJ (setJ d k v) k' = getJ d k' := by
  intro d k k' v hne
  induction d with
  | nil =>
    show (if k = k' then some v else getJ [] k') = getJ [] k'
    rw [if_neg (fun he => hne he.symm)]
  | cons p rest ih =>
    obtain ⟨k0, v0⟩ := p
    rw [setJ]
    by_cases hk : k0 = k
    · rw [if_pos hk]
      show (if k = k' then some v else getJ rest k') = getJ ((k0, v0) :: rest) k'
      rw [if_neg (fun he => hne he.symm), getJ,
        if_neg (by rw [hk]; exact fun he => hne he.symm)]
    · rw [if_neg hk, getJ, getJ]
      by_cases hk' : k0 = k'
      · rw [if_pos hk', if_pos hk']
      · rw [if_neg hk', if_neg hk']
        exact ih

theorem normalizeParsed_obj_props {o : JObj} {d : JValue}
    (h : normalizeParsed (JValue.obj o) = PRes.parsed d) :
    ∃ d0, d = JValue.obj d0 ∧ hasKeyJ d0 "lineItems" = true ∧
      hasKeyJ d0 "hasDetailedItems" = true ∧
      (hasKeyJ o "lineItems" = true → getJ d0 "lineItems" = getJ o "lineItems") ∧
      (hasKeyJ o "lineItems" = false → getJ d0 "lineItems" = some (JValue.arr [])) ∧
      (hasKeyJ o "hasDetailedItems" = true →
        getJ d0 "hasDetailedItems" = getJ o "hasDetailedItems") ∧
      (hasKeyJ o "hasDetailedItems" = false → ∃ n,
        pyLen ((getJ d0 "lineItems").getD (JValue.arr [])) = some n ∧
        getJ d0 "hasDetailedItems" = some (JValue.bool (decide (0 < n)))) := by
  have hne : ("hasDetailedItems" : String) ≠ "lineItems" := by decide
  have hne2 : ("lineItems" : String) ≠ "hasDetailedItems" := by decide
  rw [normalizeParsed.eq_def] at h
  try dsimp only at h
  by_cases hLI : hasKeyJ o "lineItems" = true
  · rw [if_pos hLI] at h
    by_cases hHD : hasKeyJ o "hasDetailedItems" = true
    · rw [if_pos hHD] at h
      simp only [PRes.parsed.injEq] at h
      subst h
      exact ⟨o, rfl, hLI, hHD, fun _ => rfl, fun hf => absurd hLI (by simp [hf]),
        fun _ => rfl, fun hf => absurd hHD (by simp [hf])⟩
    · rw [if_neg hHD] at h
      cases hlen : pyLen ((getJ o "lineItems").getD (JValue.arr [])) with
      | none => rw [hlen] at h; exact absurd h (by simp)
      | some n =>
        rw [hlen] at h
        simp only [PRes.parsed.injEq] at h
        subst h
        refine ⟨setJ o "hasDetailedItems" (JValue.bool (decide (0 < n))), rfl, ?_, ?_,
          fun _ => getJ_setJ_ne o _ _ _ hne2, fun hf => absurd hLI (by simp [hf]),
          fun ht => absurd ht hHD, fun _ => ?_⟩
        · rw [hasKeyJ, getJ_setJ_ne o _ _ _ hne2]
          exact hLI
        · rw [hasKeyJ, getJ_setJ_self]
          rfl
        · refine ⟨n, ?_, getJ_setJ_self o _ _⟩
          rw [getJ_setJ_ne o _ _ _ hne2]
          exact hlen
  · rw [if_neg hLI] at h
    have hgl : getJ (setJ o "lineItems" (JValue.arr [])) "lineItems" =
        some (JValue.arr []) := getJ_setJ_self o _ _
    have hhd1 : hasKeyJ (setJ o "lineItems" (JValue.arr [])) "hasDetailedItems" =
        hasKeyJ o "hasDetailedItems" := by
      rw [hasKeyJ, hasKeyJ, getJ_setJ_ne o _ _ _ hne]
    by_cases hHD : hasKeyJ o "hasDetailedItems" = true
    · rw [if_pos (by rw [hhd1]; exact hHD)] at h
      simp only [PRes.parsed.injEq] at h
      subst h
      refine ⟨setJ o "lineItems" (JValue.arr []), rfl, ?_, ?_,
        fun ht => absurd ht hLI, fun _ => hgl,
        fun _ => getJ_setJ_ne o _ _ _ hne, fun hf => absurd hHD (by simp [hf])⟩
      · rw [hasKeyJ, hgl]
        rfl
      · rw [hhd1]
        exact hHD
    · rw [if_neg (by rw [hhd1]; exact hHD)] at h
      rw [hgl] at h
      try simp only [Option.getD] at h
      try dsimp only at h
      rw [show pyLen (JValue.arr []) = some 0 from rfl] at h
      try dsimp only at h
      simp only [PRes.parsed.injEq] at h
      subst h
      refine ⟨setJ (setJ o "lineItems" (JValue.arr []))
        "hasDetailedItems" (JValue.bool (decide (0 < 0))), rfl, ?_, ?_,
        fun ht => absurd ht hLI, fun _ => ?_,
        fun ht => absurd ht hHD, fun _ => ?_⟩
      · rw [hasKeyJ, getJ_setJ_ne _ _ _ _ hne2, hgl]
        rfl
      · rw [hasKeyJ, getJ_setJ_self]
        rfl
      · rw [getJ_setJ_ne _ _ _ _ hne2]
        exact hgl
      · refine ⟨0, ?_, getJ_setJ_self _ _ _⟩
        rw [getJ_setJ_ne _ _ _ _ hne2, hgl]
        rfl

theorem jloads_dropUni_ne {j : List Char} {o : JObj}
    (h : jloadsL j = some (JValue.obj o)) :
    ∃ c0 t0, j.dropWhile uniWs = c0 :: t0 := by
  rw [jloadsL] at h
  cases hpv : parseVal (3 * j.length + 3) (skipJWs j) with
  | none => rw [hpv] at h; exact absurd h (by simp)
  | some p =>
    obtain ⟨v, r⟩ := p
    obtain ⟨C, hC, ⟨c1, t1, hc1, _⟩, _, _⟩ := parseVal_ext hpv
    have hls : lstripL j = skipJWs j := by
      refine lstripL_eq_skipJWs (fun c t hct => ?_)
      rw [hC, hc1, List.cons_append] at hct
      injection hct with hx1 _
      subst hx1
      exact parseVal_head_not_uniWs (hc1 ▸ hC ▸ hpv)
    refine ⟨c1, t1 ++ r, ?_⟩
    rw [show List.dropWhile uniWs j = lstripL j from rfl, hls, hC, hc1,
      List.cons_append]

/-- C5: for every payload `j` that direct JSON parsing accepts as an object
and that contains no triple backtick, the tiered parser gives the same
result on the fenced form (with or without the `json` language tag) as on
the unwrapped `j`: tier 1 fails on the fenced form, tier 2 (fence
stripping and re-parsing) recovers exactly the same object, and the common
result carries the normalization (`lineItems` defaults to the empty array,
`hasDetailedItems` defaults to whether `lineItems` is non-empty).  The
no-triple-backtick hypothesis is necessary: see the counterexample. -/
theorem claim_C5_fenced_parse (tag : Bool) (j : List Char) (o : JObj)
    (hnb : containsSub "```".data j = false)
    (hj : jloadsL j = some (JValue.obj o)) :
    jloadsL (fenceWrap tag j) = none ∧
    jloadsL (stripL (subFenceB (subFenceA (fenceWrap tag j)))) =
      some (JValue.obj o) ∧
    parse_claude_response_enhanced (fenceWrap tag j) =
      parse_claude_response_enhanced j ∧
    (∀ d, parse_claude_response_enhanced j = PRes.parsed d →
      ∃ d0, d = JValue.obj d0 ∧ hasKeyJ d0 "lineItems" = true ∧
        hasKeyJ d0 "hasDetailedItems" = true ∧
        (hasKeyJ o "lineItems" = true → getJ d0 "lineItems" = getJ o "lineItems") ∧
        (hasKeyJ o "lineItems" = false → getJ d0 "lineItems" = some (JValue.arr [])) ∧
        (hasKeyJ o "hasDetailedItems" = true →
          getJ d0 "hasDetailedItems" = getJ o "hasDetailedItems") ∧
        (hasKeyJ o "hasDetailedItems" = false → ∃ n,
          pyLen ((getJ d0 "lineItems").getD (JValue.arr [])) = some n ∧
          getJ d0 "hasDetailedItems" = some (JValue.bool (decide (0 < n))))) := by
  obtain ⟨c0, t0, hdw⟩ := jloads_dropUni_ne hj
  have hA : subFenceA (fenceWrap tag j) = j.dropWhile uniWs ++ ['\n'] :=
    subFenceA_fence hnb hdw
  have hBtrip : containsSub "```".data (j.dropWhile uniWs ++ ['\n']) = false :=
    no_trip_app_nl (no_trip_dropWhile hnb)
  have hB : subFenceB (subFenceA (fenceWrap tag j)) = j.dropWhile uniWs ++ ['\n'] := by
    rw [hA]
    exact subFenceB_no_trip hBtrip
  have hclean : stripL (subFenceB (subFenceA (fenceWrap tag j))) = stripL j := by
    rw [hB]
    exact stripL_dropUni_nl j
  have htier2 : jloadsL (stripL j) = some (JValue.obj o) := jloads_strip hj
  have hfnone := jloadsL_fence tag j
  have hrhs : parse_claude_response_enhanced j = normalizeParsed (JValue.obj o) := by
    rw [parse_claude_response_enhanced, hj]
  have hlhs : parse_claude_response_enhanced (fenceWrap tag j) =
      normalizeParsed (JValue.obj o) := by
    rw [parse_claude_response_enhanced, hfnone]
    try dsimp only
    rw [hclean, htier2]
  refine ⟨hfnone, by rw [hclean]; exact htier2, by rw [hrhs, hlhs], ?_⟩
  intro d hd
  rw [hrhs] at hd
  exact normalizeParsed_obj_props hd

def c5bad : List Char := "\x7b\"amount\": 1, \"vendor\": \"a``` b\"\x7d".data

/-- C5 counterexample: the unrestricted claim is false.  The payload
`c5bad` is accepted by direct JSON parsing as an object whose vendor
string contains a triple backtick; the tiered parser on the raw payload
keeps that vendor, but on the fenced form tier 1 fails and the fence
substitutions of tier 2 delete the backticks and the following space
inside the string value, so the fenced form parses to a different object
(vendor `"ab"` instead of `"a``` b"`). -/
theorem claim_C5_counterexample :
    jloadsL c5bad = some (JValue.obj
      [("amount", JValue.num (JNum.fin 1)), ("vendor", JValue.str "a``` b")]) ∧
    parse_claude_response_enhanced c5bad = PRes.parsed (JValue.obj
      [("amount", JValue.num (JNum.fin 1)), ("vendor", JValue.str "a``` b"),
       ("lineItems", JValue.arr []), ("hasDetailedItems", JValue.bool false)]) ∧
    parse_claude_response_enhanced (fenceWrap true c5bad) = PRes.parsed (JValue.obj
      [("amount", JValue.num (JNum.fin 1)), ("vendor", JValue.str "ab"),
       ("lineItems", JValue.arr []), ("hasDetailedItems", JValue.bool false)]) ∧
    JValue.str "a``` b" ≠ JValue.str "ab" := by
  refine ⟨by with_unfolding_all rfl, by with_unfolding_all rfl,
    by with_unfolding_all rfl, ?_⟩
  intro he
  injection he with hs
  exact absurd hs (by decide)

def c5w : List Char := "\x7b\"amount\": 2\x7d".data

/-- C5 witness: the amended theorem applied at a concrete fenced payload. -/
theorem claim_C5_witness :
    jloadsL (fenceWrap false c5w) = none ∧
    jloadsL (stripL (subFenceB (subFenceA (fenceWrap false c5w)))) =
      some (JValue.obj [("amount", JValue.num (JNum.fin 2))]) ∧
    parse_claude_response_enhanced (fenceWrap false c5w) =
      parse_claude_response_enhanced c5w ∧
    (∀ d, parse_claude_response_enhanced c5w = PRes.parsed d →
      ∃ d0, d = JValue.obj d0 ∧ hasKeyJ d0 "lineItems" = true ∧
        hasKeyJ d0 "hasDetailedItems" = true ∧
        (hasKeyJ [("amount", JValue.num (JNum.fin 2))] "lineItems" = true →
          getJ d0 "lineItems" = getJ [("amount", JValue.num (JNum.fin 2))] "lineItems") ∧
        (hasKeyJ [("amount", JValue.num (JNum.fin 2))] "lineItems" = false →
          getJ d0 "lineItems" = some (JValue.arr [])) ∧
        (hasKeyJ [("amount", JValue.num (JNum.fin 2))] "hasDetailedItems" = true →
          getJ d0 "hasDetailedItems" =
            getJ [("amount", JValue.num (JNum.fin 2))] "hasDetailedItems") ∧
        (hasKeyJ [("amount", JValue.num (JNum.fin 2))] "hasDetailedItems" = false →
          ∃ n, pyLen ((getJ d0 "lineItems").getD (JValue.arr [])) = some n ∧
            getJ d0 "hasDetailedItems" = some (JValue.bool (decide (0 < n))))) :=
  claim_C5_fenced_parse false c5w [("amount", JValue.num (JNum.fin 2))]
    (by with_unfolding_all rfl) (by with_unfolding_all rfl)

end SRP
